import Mathlib

/-!
# iox::cxx::forward_list — a fixed-capacity singly linked list

Shallow embedding of `iceoryx_utils/internal/cxx/forward_list.inl`.

The container owns an inline array of `CAPACITY + 2` nodes.  Two singly linked
chains are threaded through the `nextIdx` field of the nodes: the used chain,
anchored at the sentinel `BEFORE_BEGIN_USED_INDEX`, and the free chain, anchored
at the sentinel `BEFORE_BEGIN_FREE_INDEX`.

Conventions of the embedding

* `size_type` values are natural numbers.  The only arithmetic in the source is
  `i + 1`, `m_size + 1`, `m_size - 1` (executed only when `m_size > 0`) and
  `CAPACITY + 2`, none of which can wrap for an array that fits in memory.
* The backing store `m_data` is a `List` of nodes; an access through
  `getNodePtrFromIdx(idx)` with `idx` outside the store is undefined behaviour
  in C++ and is the error `Fault.outOfBounds` here.
* A node's `data` is `none` while the raw storage holds no constructed `T`
  (before placement-new, after the destructor call) and `some v` otherwise.
* `std::terminate()` is the error `Fault.terminate`.
* `this` is the field `addr` of the container value; an iterator stores the
  address of the list it is bound to, as in the source.
* `iterator` and `const_iterator` have the same two fields and the same
  `operator++`, `operator*` and `operator==` bodies; one structure embeds both.
* Loops that the source writes with a condition re-evaluated on every round are
  functions with a fuel argument; running out of fuel is `Fault.outOfFuel`.
-/

namespace iox
namespace cxx

/-- Ways in which a call can fail to return normally. -/
inductive Fault where
  | terminate
  | outOfBounds
  | uninitializedRead
  | outOfFuel
deriving DecidableEq, Repr

/-- Node of the backing store: `struct ListNode { T data; size_type nextIdx; }`. -/
structure ListNode (T : Type) where
  data : Option T
  nextIdx : Nat
deriving DecidableEq, Repr

/-- The container: the address of the object (`this`), the inline node array
`m_data` and the element count `m_size`. -/
structure forward_list (T : Type) (CAPACITY : Nat) where
  addr : Nat
  m_data : List (ListNode T)
  m_size : Nat
deriving DecidableEq, Repr

/-- Iterator and const_iterator: `m_list` / `m_cList` and `m_iterListNodeIdx`. -/
structure iterator where
  m_list : Nat
  m_iterListNodeIdx : Nat
deriving DecidableEq, Repr

namespace forward_list

variable {T : Type} {CAPACITY : Nat}

/-- Modelled from the spec: the constant `BEFORE_BEGIN_USED_INDEX` is declared in
`forward_list.hpp`, which is not among the sources; it is the reserved index of
the used-chain sentinel.  `init` links this slot on its own and threads the free
chain through every slot from `BEFORE_BEGIN_FREE_INDEX` up to the last one, so
the used-chain sentinel is the one slot below the free-chain sentinel. -/
def BEFORE_BEGIN_USED_INDEX : Nat := 0

/-- Modelled from the spec: the constant `BEFORE_BEGIN_FREE_INDEX` is declared in
`forward_list.hpp`, which is not among the sources; it is the reserved index of
the free-chain sentinel, the slot from which `init` starts threading the free
chain through all `capacity` element slots behind it. -/
def BEFORE_BEGIN_FREE_INDEX : Nat := 1

/-- Modelled from the spec: the constant `INTERNAL_CAPACITY` is declared in
`forward_list.hpp`, which is not among the sources; the backing store has
`capacity + 2` slots (`getNodePtr` casts `m_data` to `[CAPACITY + 2]` nodes). -/
def INTERNAL_CAPACITY (CAPACITY : Nat) : Nat := CAPACITY + 2

/-- Modelled from the spec: the constant `INVALID_INDEX` is declared in
`forward_list.hpp`, which is not among the sources; the terminal marker is an
index value larger than any real slot index, the first index past the store. -/
def INVALID_INDEX (CAPACITY : Nat) : Nat := INTERNAL_CAPACITY CAPACITY

/-- Read of `getNodePtrFromIdx(idx)->nextIdx`. -/
def getNextIdx (l : forward_list T CAPACITY) (idx : Nat) : Except Fault Nat :=
  match l.m_data[idx]? with
  | some n => .ok n.nextIdx
  | none => .error Fault.outOfBounds

/-- Write `getNodePtrFromIdx(idx)->nextIdx = v`. -/
def setNextIdx (l : forward_list T CAPACITY) (idx v : Nat) :
    Except Fault (forward_list T CAPACITY) :=
  match l.m_data[idx]? with
  | some n => .ok { l with m_data := l.m_data.set idx { n with nextIdx := v } }
  | none => .error Fault.outOfBounds

/-- Read of `getNodePtrFromIdx(idx)->data`; reading storage that holds no
constructed object is `Fault.uninitializedRead`. -/
def getData (l : forward_list T CAPACITY) (idx : Nat) : Except Fault T :=
  match l.m_data[idx]? with
  | some n =>
    match n.data with
    | some v => .ok v
    | none => .error Fault.uninitializedRead
  | none => .error Fault.outOfBounds

/-- Placement-new (`d = some v`) or destructor call (`d = none`) on
`getNodePtrFromIdx(idx)->data`. -/
def setData (l : forward_list T CAPACITY) (idx : Nat) (d : Option T) :
    Except Fault (forward_list T CAPACITY) :=
  match l.m_data[idx]? with
  | some n => .ok { l with m_data := l.m_data.set idx { n with data := d } }
  | none => .error Fault.outOfBounds

/-- Source: `isValidIteratorIndex`: `index < INVALID_INDEX`. -/
def isValidIteratorIndex (CAPACITY : Nat) (index : Nat) : Bool :=
  decide (index < INVALID_INDEX CAPACITY)

/-- Source: `isValidElementIndex`. -/
def isValidElementIndex (CAPACITY : Nat) (index : Nat) : Bool :=
  isValidIteratorIndex CAPACITY index && index != BEFORE_BEGIN_USED_INDEX
    && index != BEFORE_BEGIN_FREE_INDEX

/-- Source: `init`, the loop `for (i = BEFORE_BEGIN_FREE_INDEX; (i + 1u) <
INTERNAL_CAPACITY; ++i) getNodePtrFromIdx(i)->nextIdx = i + 1;`. -/
def initLoop : Nat → Nat → forward_list T CAPACITY → Except Fault (forward_list T CAPACITY)
  | 0, _, _ => .error Fault.outOfFuel
  | fuel + 1, i, l =>
    if i + 1 < INTERNAL_CAPACITY CAPACITY then do
      let l ← setNextIdx l i (i + 1)
      initLoop fuel (i + 1) l
    else
      .ok l

/-- Source: `init`.  The loop runs fewer than `INTERNAL_CAPACITY` rounds. -/
def init (l : forward_list T CAPACITY) : Except Fault (forward_list T CAPACITY) := do
  let l ← setNextIdx l BEFORE_BEGIN_USED_INDEX (INVALID_INDEX CAPACITY)
  let l ← initLoop (INTERNAL_CAPACITY CAPACITY) BEFORE_BEGIN_FREE_INDEX l
  setNextIdx l (INTERNAL_CAPACITY CAPACITY - 1) (INVALID_INDEX CAPACITY)

/-- The object before its constructor body runs: `CAPACITY + 2` nodes of raw
storage whose link fields hold arbitrary values `junk i`, and `m_size{0u}`. -/
def raw (T : Type) (CAPACITY : Nat) (addr : Nat) (junk : Nat → Nat) : forward_list T CAPACITY :=
  { addr := addr
    m_data := (List.range (CAPACITY + 2)).map (fun i => { data := none, nextIdx := junk i })
    m_size := 0 }

/-- Source: `forward_list()`: `init()` on the fresh object. -/
def construct (T : Type) (CAPACITY : Nat) (addr : Nat) (junk : Nat → Nat) :
    Except Fault (forward_list T CAPACITY) :=
  init (raw T CAPACITY addr junk)

/-- Source: `before_begin` / `cbefore_begin`. -/
def before_begin (l : forward_list T CAPACITY) : iterator :=
  { m_list := l.addr, m_iterListNodeIdx := BEFORE_BEGIN_USED_INDEX }

/-- Source: `end` / `cend`. -/
def cend (l : forward_list T CAPACITY) : iterator :=
  { m_list := l.addr, m_iterListNodeIdx := INVALID_INDEX CAPACITY }

/-- Source: `iterator::operator++` / `const_iterator::operator++`; `l` is the
list the iterator is bound to. -/
def incr (l : forward_list T CAPACITY) (it : iterator) : Except Fault iterator :=
  if isValidIteratorIndex CAPACITY it.m_iterListNodeIdx then do
    let n ← getNextIdx l it.m_iterListNodeIdx
    .ok { it with m_iterListNodeIdx := n }
  else
    .ok it

/-- Source: `const_iterator::operator==` (the `iterator` overloads forward to it). -/
def iterEq (a b : iterator) : Except Fault Bool :=
  if a.m_list != b.m_list then .error Fault.terminate
  else .ok (a.m_iterListNodeIdx == b.m_iterListNodeIdx)

/-- Source: the free `operator!=`: `!(lhs == rhs)`. -/
def iterNe (a b : iterator) : Except Fault Bool := do
  let e ← iterEq a b
  .ok (!e)

/-- Source: `iterator::operator*` / `const_iterator::operator*`, read through the
returned reference. -/
def deref (l : forward_list T CAPACITY) (it : iterator) : Except Fault T :=
  if !isValidElementIndex CAPACITY it.m_iterListNodeIdx then .error Fault.terminate
  else getData l it.m_iterListNodeIdx

/-- Source: `*iter = v`: `iterator::operator*` followed by the element's
assignment operator on the referenced object. -/
def assignAt (l : forward_list T CAPACITY) (it : iterator) (v : T) :
    Except Fault (forward_list T CAPACITY) :=
  if !isValidElementIndex CAPACITY it.m_iterListNodeIdx then .error Fault.terminate
  else do
    let _ ← getData l it.m_iterListNodeIdx
    setData l it.m_iterListNodeIdx (some v)

/-- Source: `begin` / `cbegin`. -/
def begin (l : forward_list T CAPACITY) : Except Fault iterator :=
  incr l (before_begin l)

/-- Source: `empty`. -/
def empty (l : forward_list T CAPACITY) : Bool := l.m_size == 0

/-- Source: `full`. -/
def full (l : forward_list T CAPACITY) : Bool := decide (l.m_size ≥ CAPACITY)

/-- Source: `size`. -/
def size (l : forward_list T CAPACITY) : Nat := l.m_size

/-- Source: `capacity`. -/
def capacity (_l : forward_list T CAPACITY) : Nat := CAPACITY

/-- Source: `max_size`. -/
def max_size (l : forward_list T CAPACITY) : Nat := capacity l

/-- Source: `emplace_after`. -/
def emplace_after (l : forward_list T CAPACITY) (afterToBeEmplacedIter : iterator) (args : T) :
    Except Fault (forward_list T CAPACITY × iterator) :=
  if l.addr != afterToBeEmplacedIter.m_list then .error Fault.terminate
  else do
    let toBeAddedIdx ← getNextIdx l BEFORE_BEGIN_FREE_INDEX
    if l.m_size < CAPACITY && toBeAddedIdx < INVALID_INDEX CAPACITY then do
      let newNodeNext ← getNextIdx l toBeAddedIdx
      let l ← setNextIdx l BEFORE_BEGIN_FREE_INDEX newNodeNext
      let l ← setData l toBeAddedIdx (some args)
      let afterToBeEmplacedIdx := afterToBeEmplacedIter.m_iterListNodeIdx
      let emplaceBeforeIdx ← getNextIdx l afterToBeEmplacedIdx
      let l ← setNextIdx l toBeAddedIdx emplaceBeforeIdx
      let l ← setNextIdx l afterToBeEmplacedIdx toBeAddedIdx
      let l := { l with m_size := l.m_size + 1 }
      .ok (l, { m_list := afterToBeEmplacedIter.m_list, m_iterListNodeIdx := toBeAddedIdx })
    else
      .ok (l, cend l)

/-- Source: `erase_after`. -/
def erase_after (l : forward_list T CAPACITY) (beforeToBeErasedIter : iterator) :
    Except Fault (forward_list T CAPACITY × iterator) :=
  if l.addr != beforeToBeErasedIter.m_list then .error Fault.terminate
  else
    let beforeToBeErasedIdx := beforeToBeErasedIter.m_iterListNodeIdx
    if !isValidIteratorIndex CAPACITY beforeToBeErasedIdx then .ok (l, cend l)
    else do
      let toBeErasedIdx ← getNextIdx l beforeToBeErasedIdx
      if isValidElementIndex CAPACITY toBeErasedIdx && !empty l then do
        let erasedNext ← getNextIdx l toBeErasedIdx
        let l ← setNextIdx l beforeToBeErasedIdx erasedNext
        let l ← setData l toBeErasedIdx none
        let freeHead ← getNextIdx l BEFORE_BEGIN_FREE_INDEX
        let l ← setNextIdx l toBeErasedIdx freeHead
        let l ← setNextIdx l BEFORE_BEGIN_FREE_INDEX toBeErasedIdx
        let l := { l with m_size := l.m_size - 1 }
        let n ← getNextIdx l beforeToBeErasedIdx
        .ok (l, { m_list := beforeToBeErasedIter.m_list, m_iterListNodeIdx := n })
      else
        .ok (l, cend l)

/-- Source: `emplace_front`: `cend() != emplace_after(before_begin(), args)`. -/
def emplace_front (l : forward_list T CAPACITY) (args : T) :
    Except Fault (forward_list T CAPACITY × Bool) := do
  let (l1, it) ← emplace_after l (before_begin l) args
  let b ← iterNe (cend l1) it
  .ok (l1, b)

/-- Source: `push_front`. -/
def push_front (l : forward_list T CAPACITY) (r_data : T) :
    Except Fault (forward_list T CAPACITY × Bool) :=
  emplace_front l r_data

/-- Source: `pop_front`. -/
def pop_front (l : forward_list T CAPACITY) : Except Fault (forward_list T CAPACITY × Bool) := do
  let sizeBeforeErase := l.m_size
  let (l1, _) ← erase_after l (before_begin l)
  .ok (l1, l1.m_size + 1 == sizeBeforeErase)

/-- Source: `insert_after`. -/
def insert_after (l : forward_list T CAPACITY) (citer : iterator) (r_data : T) :
    Except Fault (forward_list T CAPACITY × iterator) :=
  emplace_after l citer r_data

/-- Source: `front`. -/
def front (l : forward_list T CAPACITY) : Except Fault T := do
  let iter ← begin l
  if !isValidElementIndex CAPACITY iter.m_iterListNodeIdx then .error Fault.terminate
  else deref l iter

/-- Source: `clear`: `for (auto iter = before_begin(); begin() != end();)
{ erase_after(iter); iter = before_begin(); }`. -/
def clear : Nat → forward_list T CAPACITY → Except Fault (forward_list T CAPACITY)
  | 0, _ => .error Fault.outOfFuel
  | fuel + 1, l => do
    let b ← begin l
    let c ← iterNe b (cend l)
    if c then do
      let (l1, _) ← erase_after l (before_begin l)
      clear fuel l1
    else
      .ok l

/-- The iterator reached from `it` by `k` applications of `operator++`. -/
def advance (l : forward_list T CAPACITY) : Nat → iterator → Except Fault iterator
  | 0, it => .ok it
  | k + 1, it => do
    let it ← incr l it
    advance l k it

/-- The loop `for (; it != end(); ++it) out.push_back(*it);` of a caller. -/
def collect (l : forward_list T CAPACITY) : Nat → iterator → Except Fault (List T)
  | 0, _ => .error Fault.outOfFuel
  | fuel + 1, it => do
    let c ← iterNe it (cend l)
    if c then do
      let v ← deref l it
      let it ← incr l it
      let vs ← collect l fuel it
      .ok (v :: vs)
    else
      .ok []

/-- Forward iteration order: the values met by a caller that walks from `begin()`
to `end()`.  A walk over `CAPACITY + 2` slots that has not met `end()` within
`INTERNAL_CAPACITY` rounds is reported as `Fault.outOfFuel`. -/
def toList (l : forward_list T CAPACITY) : Except Fault (List T) := do
  let b ← begin l
  collect l (INTERNAL_CAPACITY CAPACITY) b

/-- The link stored in slot `i`, if `i` is a slot of the store. -/
def nextOf (l : forward_list T CAPACITY) (i : Nat) : Option Nat :=
  (l.m_data[i]?).map ListNode.nextIdx

/-- The storage state of slot `i`, if `i` is a slot of the store. -/
def dataOf (l : forward_list T CAPACITY) (i : Nat) : Option (Option T) :=
  (l.m_data[i]?).map ListNode.data

/-- The store with the link of slot `i` replaced (unchanged when `i` is no slot). -/
def withNext (l : forward_list T CAPACITY) (i v : Nat) : forward_list T CAPACITY :=
  match l.m_data[i]? with
  | some n => { l with m_data := l.m_data.set i { n with nextIdx := v } }
  | none => l

/-- The store with the storage state of slot `i` replaced (unchanged when `i` is
no slot). -/
def withData (l : forward_list T CAPACITY) (i : Nat) (d : Option T) : forward_list T CAPACITY :=
  match l.m_data[i]? with
  | some n => { l with m_data := l.m_data.set i { n with data := d } }
  | none => l

/-- Following links from slot `s` visits exactly the slots `xs`, in this order,
and the link of the last visited slot is `t`. -/
def Links (nx : Nat → Option Nat) : Nat → List Nat → Nat → Prop
  | s, [], t => nx s = some t
  | s, x :: xs, t => nx s = some x ∧ Links nx x xs t

/-- Abstraction relation.  The used chain of `l` visits the slots of `used` (each
paired with the value it stores) and then the terminal marker, the free chain
visits the slots `free` and then the terminal marker, every element slot is on
exactly one of the two chains, and `m_size` counts the used slots. -/
structure Abs (l : forward_list T CAPACITY) (used : List (Nat × T)) (free : List Nat) : Prop where
  len : l.m_data.length = CAPACITY + 2
  usedChain : Links (nextOf l) BEFORE_BEGIN_USED_INDEX (used.map Prod.fst) (INVALID_INDEX CAPACITY)
  freeChain : Links (nextOf l) BEFORE_BEGIN_FREE_INDEX free (INVALID_INDEX CAPACITY)
  perm : List.Perm (used.map Prod.fst ++ free) (List.range' 2 CAPACITY)
  size : l.m_size = used.length
  usedData : ∀ p ∈ used, dataOf l p.1 = some (some p.2)
  freeData : ∀ i ∈ free, dataOf l i = some none
  sentinelData : dataOf l BEFORE_BEGIN_USED_INDEX = some none
    ∧ dataOf l BEFORE_BEGIN_FREE_INDEX = some none

/-- Source: `operator=(const forward_list&)`, first loop ("copy using copy
assignment"): `for (; i < std::min(rhs.size(), size()); ++i) { ++iterThis;
++citerRhs; *iterThis = *citerRhs; }`. -/
def copyAssignLoop : Nat → Nat → forward_list T CAPACITY → forward_list T CAPACITY →
    iterator → iterator → Except Fault (Nat × forward_list T CAPACITY × iterator × iterator)
  | 0, _, _, _, _, _ => .error Fault.outOfFuel
  | fuel + 1, i, self, rhs, iterThis, citerRhs =>
    if i < min (size rhs) (size self) then do
      let iterThis ← incr self iterThis
      let citerRhs ← incr rhs citerRhs
      let v ← deref rhs citerRhs
      let self ← assignAt self iterThis v
      copyAssignLoop fuel (i + 1) self rhs iterThis citerRhs
    else
      .ok (i, self, iterThis, citerRhs)

/-- Source: `operator=(const forward_list&)`, second loop ("copy using copy
ctor"): `for (; i < rhs.size(); ++i) { ++citerRhs; iterThis =
emplace_after(iterThis, *citerRhs); }`.  The last component of the result is a
log, not program state: the iterators returned by the `emplace_after` calls, in
call order. -/
def copyEmplaceLoop : Nat → Nat → forward_list T CAPACITY → forward_list T CAPACITY →
    iterator → iterator →
    Except Fault (Nat × forward_list T CAPACITY × iterator × iterator × List iterator)
  | 0, _, _, _, _, _ => .error Fault.outOfFuel
  | fuel + 1, i, self, rhs, iterThis, citerRhs =>
    if i < size rhs then do
      let citerRhs ← incr rhs citerRhs
      let v ← deref rhs citerRhs
      let (self, iterThis) ← emplace_after self iterThis v
      let (i, self, last, citerRhs, log) ←
        copyEmplaceLoop fuel (i + 1) self rhs iterThis citerRhs
      .ok (i, self, last, citerRhs, iterThis :: log)
    else
      .ok (i, self, iterThis, citerRhs, [])

/-- Source: both assignment operators, third loop ("delete remaining elements"):
`for (; i < startSize; ++i) { erase_after(iterThis); }`. -/
def eraseLoop : Nat → Nat → Nat → forward_list T CAPACITY → iterator →
    Except Fault (forward_list T CAPACITY)
  | 0, _, _, _, _ => .error Fault.outOfFuel
  | fuel + 1, i, startSize, self, iterThis =>
    if i < startSize then do
      let (self, _) ← erase_after self iterThis
      eraseLoop fuel (i + 1) startSize self iterThis
    else
      .ok self

/-- Source: `operator=(const forward_list&)`; `self` is `*this`, and `rhs`, a
reference to const, is not part of the result.  Each of the three loops is given
the fuel `fuel`.  The second component of the result is the log of the second
loop. -/
def copy_assign (fuel : Nat) (self rhs : forward_list T CAPACITY) :
    Except Fault (forward_list T CAPACITY × List iterator) :=
  if self.addr != rhs.addr then do
    let i := 0
    let iterThis := before_begin self
    let citerRhs := before_begin rhs
    let startSize := size self
    let (i, self, iterThis, citerRhs) ← copyAssignLoop fuel i self rhs iterThis citerRhs
    let (i, self, iterThis, _, log) ← copyEmplaceLoop fuel i self rhs iterThis citerRhs
    let self ← eraseLoop fuel i startSize self iterThis
    .ok (self, log)
  else
    .ok (self, [])

/-- Source: `forward_list(const forward_list& rhs)`: `init(); *this = rhs;` on the
fresh object at address `addr`. -/
def copy_construct (fuel : Nat) (addr : Nat) (junk : Nat → Nat) (rhs : forward_list T CAPACITY) :
    Except Fault (forward_list T CAPACITY × List iterator) := do
  let self ← init (raw T CAPACITY addr junk)
  copy_assign fuel self rhs

/-- Source: `operator=(forward_list&&)`, first loop ("move using move
assignment"): `for (; i < std::min(rhs.size(), size()); ++i) { ++iterThis;
++iterRhs; *iterThis = std::move(*iterRhs); }`.  The element type's move leaves
`moved v` behind in the source object that held `v`. -/
def moveAssignLoop (moved : T → T) : Nat → Nat → forward_list T CAPACITY →
    forward_list T CAPACITY → iterator → iterator →
    Except Fault (Nat × forward_list T CAPACITY × forward_list T CAPACITY × iterator × iterator)
  | 0, _, _, _, _, _ => .error Fault.outOfFuel
  | fuel + 1, i, self, rhs, iterThis, iterRhs =>
    if i < min (size rhs) (size self) then do
      let iterThis ← incr self iterThis
      let iterRhs ← incr rhs iterRhs
      let v ← deref rhs iterRhs
      let self ← assignAt self iterThis v
      let rhs ← assignAt rhs iterRhs (moved v)
      moveAssignLoop moved fuel (i + 1) self rhs iterThis iterRhs
    else
      .ok (i, self, rhs, iterThis, iterRhs)

/-- Source: `operator=(forward_list&&)`, second loop ("move using move ctor"):
`for (; i < rhs.size(); ++i) { ++iterRhs; iterThis = emplace_after(iterThis,
std::move(*iterRhs)); }`.  The move constructor runs inside `emplace_after`, on
the branch that constructs the element; on the capacity-exhausted branch (the
one that returns `end()`) the source object is not touched.  The last component
of the result is a log, not program state: the iterators returned by the
`emplace_after` calls, in call order. -/
def moveEmplaceLoop (moved : T → T) : Nat → Nat → forward_list T CAPACITY →
    forward_list T CAPACITY → iterator → iterator →
    Except Fault (Nat × forward_list T CAPACITY × forward_list T CAPACITY × iterator × iterator
      × List iterator)
  | 0, _, _, _, _, _ => .error Fault.outOfFuel
  | fuel + 1, i, self, rhs, iterThis, iterRhs =>
    if i < size rhs then do
      let iterRhs ← incr rhs iterRhs
      let v ← deref rhs iterRhs
      let (self, iterThis) ← emplace_after self iterThis v
      let rhs ← if iterThis.m_iterListNodeIdx == INVALID_INDEX CAPACITY then .ok rhs
        else assignAt rhs iterRhs (moved v)
      let (i, self, rhs, last, iterRhs, log) ←
        moveEmplaceLoop moved fuel (i + 1) self rhs iterThis iterRhs
      .ok (i, self, rhs, last, iterRhs, iterThis :: log)
    else
      .ok (i, self, rhs, iterThis, iterRhs, [])

/-- Source: `operator=(forward_list&&)`; returns `*this`, `rhs` and the log of
the second loop.  Each loop, and `rhs.clear()`, is given the fuel `fuel`. -/
def move_assign (moved : T → T) (fuel : Nat) (self rhs : forward_list T CAPACITY) :
    Except Fault (forward_list T CAPACITY × forward_list T CAPACITY × List iterator) :=
  if self.addr != rhs.addr then do
    let i := 0
    let iterThis := before_begin self
    let iterRhs := before_begin rhs
    let startSize := size self
    let (i, self, rhs, iterThis, iterRhs) ← moveAssignLoop moved fuel i self rhs iterThis iterRhs
    let (i, self, rhs, iterThis, _, log) ←
      moveEmplaceLoop moved fuel i self rhs iterThis iterRhs
    let self ← eraseLoop fuel i startSize self iterThis
    let rhs ← clear fuel rhs
    .ok (self, rhs, log)
  else
    .ok (self, rhs, [])

/-- Source: `forward_list(forward_list&& rhs)`: `init(); *this = std::move(rhs);
rhs.clear();` on the fresh object at address `addr`. -/
def move_construct (moved : T → T) (fuel : Nat) (addr : Nat) (junk : Nat → Nat)
    (rhs : forward_list T CAPACITY) :
    Except Fault (forward_list T CAPACITY × forward_list T CAPACITY × List iterator) := do
  let self ← init (raw T CAPACITY addr junk)
  let (self, rhs, log) ← move_assign moved fuel self rhs
  let rhs ← clear fuel rhs
  .ok (self, rhs, log)

/-- A caller's successive `insert_after` calls, the first anchored at `it` and
each later one at the iterator returned by the previous call; the result lists
the iterators returned by the calls. -/
def insert_chain : forward_list T CAPACITY → iterator → List T →
    Except Fault (forward_list T CAPACITY × List iterator)
  | l, _, [] => .ok (l, [])
  | l, it, v :: vs => do
    let (l, it) ← insert_after l it v
    let (l, its) ← insert_chain l it vs
    .ok (l, it :: its)

/-- A call of one of the two front operations. -/
inductive FrontOp (T : Type) where
  | push (v : T)
  | pop
deriving DecidableEq, Repr

/-- A caller's sequence of `push_front` / `pop_front` calls; the result lists the
value returned by each call. -/
def run_front : forward_list T CAPACITY → List (FrontOp T) →
    Except Fault (forward_list T CAPACITY × List Bool)
  | l, [] => .ok (l, [])
  | l, FrontOp.push v :: ops => do
    let (l, b) ← push_front l v
    let (l, bs) ← run_front l ops
    .ok (l, b :: bs)
  | l, FrontOp.pop :: ops => do
    let (l, b) ← pop_front l
    let (l, bs) ← run_front l ops
    .ok (l, b :: bs)

/-- Number of `push_front` calls of the sequence that returned `true`. -/
def acceptedPushes : List (FrontOp T) → List Bool → Nat
  | FrontOp.push _ :: ops, b :: bs => (if b then 1 else 0) + acceptedPushes ops bs
  | FrontOp.pop :: ops, _ :: bs => acceptedPushes ops bs
  | _, _ => 0

/-- Number of `pop_front` calls of the sequence that returned `true`. -/
def performedPops : List (FrontOp T) → List Bool → Nat
  | FrontOp.push _ :: ops, _ :: bs => performedPops ops bs
  | FrontOp.pop :: ops, b :: bs => (if b then 1 else 0) + performedPops ops bs
  | _, _ => 0

/-- States reachable from construction through calls of the public operations
that return normally, every iterator argument being `before_begin()` advanced
some number of times (that is: `before_begin()`, an iterator to a current
element, or `end()`). -/
inductive Reachable : forward_list T CAPACITY → Prop
  | construct (addr : Nat) (junk : Nat → Nat) (l : forward_list T CAPACITY) :
      construct T CAPACITY addr junk = .ok l → Reachable l
  | emplace_after (l : forward_list T CAPACITY) (k : Nat) (pos : iterator) (v : T)
      (l' : forward_list T CAPACITY) (it : iterator) :
      Reachable l → advance l k (before_begin l) = .ok pos →
      emplace_after l pos v = .ok (l', it) → Reachable l'
  | insert_after (l : forward_list T CAPACITY) (k : Nat) (pos : iterator) (v : T)
      (l' : forward_list T CAPACITY) (it : iterator) :
      Reachable l → advance l k (before_begin l) = .ok pos →
      insert_after l pos v = .ok (l', it) → Reachable l'
  | emplace_front (l : forward_list T CAPACITY) (v : T) (l' : forward_list T CAPACITY)
      (b : Bool) : Reachable l → emplace_front l v = .ok (l', b) → Reachable l'
  | push_front (l : forward_list T CAPACITY) (v : T) (l' : forward_list T CAPACITY)
      (b : Bool) : Reachable l → push_front l v = .ok (l', b) → Reachable l'
  | erase_after (l : forward_list T CAPACITY) (k : Nat) (pos : iterator)
      (l' : forward_list T CAPACITY) (it : iterator) :
      Reachable l → advance l k (before_begin l) = .ok pos →
      erase_after l pos = .ok (l', it) → Reachable l'
  | pop_front (l : forward_list T CAPACITY) (l' : forward_list T CAPACITY)
      (b : Bool) : Reachable l → pop_front l = .ok (l', b) → Reachable l'
  | clear (l : forward_list T CAPACITY) (fuel : Nat) (l' : forward_list T CAPACITY) :
      Reachable l → clear fuel l = .ok l' → Reachable l'
  | assign (l : forward_list T CAPACITY) (k : Nat) (pos : iterator) (v : T)
      (l' : forward_list T CAPACITY) :
      Reachable l → advance l k (before_begin l) = .ok pos →
      assignAt l pos v = .ok l' → Reachable l'
  | copy_assign (a b : forward_list T CAPACITY) (fuel : Nat) (a' : forward_list T CAPACITY)
      (log : List iterator) :
      Reachable a → Reachable b → copy_assign fuel a b = .ok (a', log) → Reachable a'
  | copy_construct (b : forward_list T CAPACITY) (fuel addr : Nat) (junk : Nat → Nat)
      (a' : forward_list T CAPACITY) (log : List iterator) :
      Reachable b → copy_construct fuel addr junk b = .ok (a', log) → Reachable a'
  | move_assign_target (a b : forward_list T CAPACITY) (moved : T → T) (fuel : Nat)
      (a' b' : forward_list T CAPACITY) (log : List iterator) :
      Reachable a → Reachable b → move_assign moved fuel a b = .ok (a', b', log) → Reachable a'
  | move_assign_source (a b : forward_list T CAPACITY) (moved : T → T) (fuel : Nat)
      (a' b' : forward_list T CAPACITY) (log : List iterator) :
      Reachable a → Reachable b → move_assign moved fuel a b = .ok (a', b', log) → Reachable b'
  | move_construct_target (b : forward_list T CAPACITY) (moved : T → T) (fuel addr : Nat)
      (junk : Nat → Nat) (a' b' : forward_list T CAPACITY) (log : List iterator) :
      Reachable b → move_construct moved fuel addr junk b = .ok (a', b', log) → Reachable a'
  | move_construct_source (b : forward_list T CAPACITY) (moved : T → T) (fuel addr : Nat)
      (junk : Nat → Nat) (a' b' : forward_list T CAPACITY) (log : List iterator) :
      Reachable b → move_construct moved fuel addr junk b = .ok (a', b', log) → Reachable b'

/-- Well-formed states: those that represent some list. -/
def WellFormed (l : forward_list T CAPACITY) : Prop :=
  ∃ (used : List (Nat × T)) (free : List Nat), Abs l used free

/-- The iterator of `l` at position `k` of the used chain `used`: position `0` is
`before_begin()`, positions `1 .. used.length` are the elements, every later
position is `end()`. -/
def posAt (l : forward_list T CAPACITY) (used : List (Nat × T)) (k : Nat) : iterator :=
  iterator.mk l.addr
    (((BEFORE_BEGIN_USED_INDEX :: used.map Prod.fst)[k]?).getD (INVALID_INDEX CAPACITY))

/-- The used chain `us` after its leading elements have been assigned the values
`vs`, as far as both lists reach: slots stay, values are replaced. -/
def overwrite : List (Nat × T) → List T → List (Nat × T)
  | (s, _) :: us, v :: vs => (s, v) :: overwrite us vs
  | [], _ => []
  | us, [] => us

/-- Example state: a list of capacity 2 at address 0, as the default constructor
leaves it. -/
def exampleEmpty : forward_list Nat 2 :=
  { addr := 0
    m_data := [⟨none, 4⟩, ⟨none, 2⟩, ⟨none, 3⟩, ⟨none, 4⟩]
    m_size := 0 }

/-- Example state: `exampleEmpty` after `push_front(7)`. -/
def exampleOne : forward_list Nat 2 :=
  { addr := 0
    m_data := [⟨none, 2⟩, ⟨none, 3⟩, ⟨some 7, 4⟩, ⟨none, 4⟩]
    m_size := 1 }

/-- Example state: `exampleOne` after `push_front(8)`; the list is full. -/
def exampleFull : forward_list Nat 2 :=
  { addr := 0
    m_data := [⟨none, 3⟩, ⟨none, 4⟩, ⟨some 7, 4⟩, ⟨some 8, 2⟩]
    m_size := 2 }

/-- Example state: a second list of capacity 2, at address 1, holding `5`. -/
def exampleOther : forward_list Nat 2 :=
  { addr := 1
    m_data := [⟨none, 2⟩, ⟨none, 3⟩, ⟨some 5, 4⟩, ⟨none, 4⟩]
    m_size := 1 }

/-- A caller's `n` successive calls `erase_after(before_begin())`; the result
lists the iterators returned by the calls. -/
def erase_front_times : forward_list T CAPACITY → Nat →
    Except Fault (forward_list T CAPACITY × List iterator)
  | l, 0 => .ok (l, [])
  | l, n + 1 => do
    let (l, it) ← erase_after l (before_begin l)
    let (l, its) ← erase_front_times l n
    .ok (l, it :: its)

/-- Source: `clear`, instrumented: the same loop as `clear`, which in addition
logs, for every round that enters the loop body, the slot index carried by
`begin()`; this is the slot whose element the `erase_after(before_begin())` of
that round destructs. -/
def clearTrace : Nat → forward_list T CAPACITY →
    Except Fault (forward_list T CAPACITY × List Nat)
  | 0, _ => .error Fault.outOfFuel
  | fuel + 1, l => do
    let b ← begin l
    let c ← iterNe b (cend l)
    if c then do
      let (l1, _) ← erase_after l (before_begin l)
      let (l2, tr) ← clearTrace fuel l1
      .ok (l2, b.m_iterListNodeIdx :: tr)
    else
      .ok (l, [])

/-- The loop `for (; it != end(); ++it) out.push_back(index of it);` of an
observer: like `collect`, but recording the slot index each cursor carries. -/
def collectSlots (l : forward_list T CAPACITY) : Nat → iterator → Except Fault (List Nat)
  | 0, _ => .error Fault.outOfFuel
  | fuel + 1, it => do
    let c ← iterNe it (cend l)
    if c then do
      let it' ← incr l it
      let ss ← collectSlots l fuel it'
      .ok (it.m_iterListNodeIdx :: ss)
    else
      .ok []

/-- The slot indices of the elements, in forward iteration order. -/
def usedSlots (l : forward_list T CAPACITY) : Except Fault (List Nat) := do
  let b ← begin l
  collectSlots l (INTERNAL_CAPACITY CAPACITY) b

/-- The walk along the links from slot `idx` (exclusive) to the terminal marker:
the slots met, in order. -/
def walk (l : forward_list T CAPACITY) : Nat → Nat → Except Fault (List Nat)
  | 0, _ => .error Fault.outOfFuel
  | fuel + 1, idx => do
    let n ← getNextIdx l idx
    if n == INVALID_INDEX CAPACITY then .ok []
    else do
      let ss ← walk l fuel n
      .ok (n :: ss)

/-- The slots of the free chain, in chain order, head first. -/
def freeSlots (l : forward_list T CAPACITY) : Except Fault (List Nat) :=
  walk l (INTERNAL_CAPACITY CAPACITY) BEFORE_BEGIN_FREE_INDEX

/-- Example state: the store of `exampleEmpty` once `emplace_after(end(), 9)` has
taken slot 2 off the free chain and constructed `9` in it: the free-chain
sentinel links to slot 3, the used chain is still empty, `m_size` is still 0. -/
def exampleTorn : forward_list Nat 2 :=
  { addr := 0
    m_data := [⟨none, 4⟩, ⟨none, 3⟩, ⟨some 9, 3⟩, ⟨none, 4⟩]
    m_size := 0 }

/-! ## Store updates -/

section store
variable (l : forward_list T CAPACITY)

@[simp] theorem withNext_addr (i v : Nat) : (withNext l i v).addr = l.addr := by
  unfold withNext; split <;> rfl

@[simp] theorem withNext_size (i v : Nat) : (withNext l i v).m_size = l.m_size := by
  unfold withNext; split <;> rfl

@[simp] theorem withNext_length (i v : Nat) :
    (withNext l i v).m_data.length = l.m_data.length := by
  unfold withNext; split <;> simp

@[simp] theorem withData_addr (i : Nat) (d : Option T) : (withData l i d).addr = l.addr := by
  unfold withData; split <;> rfl

@[simp] theorem withData_size (i : Nat) (d : Option T) : (withData l i d).m_size = l.m_size := by
  unfold withData; split <;> rfl

@[simp] theorem withData_length (i : Nat) (d : Option T) :
    (withData l i d).m_data.length = l.m_data.length := by
  unfold withData; split <;> simp

theorem nextOf_withNext (i v j : Nat) (h : i < l.m_data.length) :
    nextOf (withNext l i v) j = if j = i then some v else nextOf l j := by
  unfold withNext nextOf
  rw [List.getElem?_eq_getElem h]
  by_cases hj : j = i
  · subst hj; simp [h]
  · simp [hj, List.getElem?_set_ne (Ne.symm hj)]

@[simp] theorem dataOf_withNext (i v j : Nat) : dataOf (withNext l i v) j = dataOf l j := by
  unfold withNext dataOf
  split
  · rename_i n hn
    by_cases hj : j = i
    · subst hj
      have h : j < l.m_data.length := by
        rcases List.getElem?_eq_some_iff.1 hn with ⟨h, _⟩; exact h
      simp [h, hn]
    · simp [List.getElem?_set_ne (Ne.symm hj)]
  · rfl

@[simp] theorem nextOf_withData (i : Nat) (d : Option T) (j : Nat) :
    nextOf (withData l i d) j = nextOf l j := by
  unfold withData nextOf
  split
  · rename_i n hn
    by_cases hj : j = i
    · subst hj
      have h : j < l.m_data.length := by
        rcases List.getElem?_eq_some_iff.1 hn with ⟨h, _⟩; exact h
      simp [h, hn]
    · simp [List.getElem?_set_ne (Ne.symm hj)]
  · rfl

theorem dataOf_withData (i : Nat) (d : Option T) (j : Nat) (h : i < l.m_data.length) :
    dataOf (withData l i d) j = if j = i then some d else dataOf l j := by
  unfold withData dataOf
  rw [List.getElem?_eq_getElem h]
  by_cases hj : j = i
  · subst hj; simp [h]
  · simp [hj, List.getElem?_set_ne (Ne.symm hj)]

@[simp] theorem nextOf_mk (a n : Nat) (j : Nat) :
    nextOf ({ addr := a, m_data := l.m_data, m_size := n } : forward_list T CAPACITY) j
      = nextOf l j := rfl

@[simp] theorem dataOf_mk (a n : Nat) (j : Nat) :
    dataOf ({ addr := a, m_data := l.m_data, m_size := n } : forward_list T CAPACITY) j
      = dataOf l j := rfl

theorem nextOf_isSome_iff (j : Nat) : (nextOf l j).isSome ↔ j < l.m_data.length := by
  unfold nextOf
  by_cases h : j < l.m_data.length
  · simp [h]
  · simp [h, List.getElem?_eq_none (Nat.le_of_not_lt h)]

theorem lt_length_of_nextOf {j n : Nat} (h : nextOf l j = some n) : j < l.m_data.length :=
  (nextOf_isSome_iff l j).1 (by simp [h])

theorem getNextIdx_eq (i : Nat) :
    getNextIdx l i = match nextOf l i with
      | some n => Except.ok n
      | none => Except.error Fault.outOfBounds := by
  unfold getNextIdx nextOf
  cases l.m_data[i]? <;> rfl

theorem setNextIdx_eq (i v : Nat) (h : i < l.m_data.length) :
    setNextIdx l i v = Except.ok (withNext l i v) := by
  unfold setNextIdx withNext
  rw [List.getElem?_eq_getElem h]

theorem setData_eq (i : Nat) (d : Option T) (h : i < l.m_data.length) :
    setData l i d = Except.ok (withData l i d) := by
  unfold setData withData
  rw [List.getElem?_eq_getElem h]

theorem getData_eq (i : Nat) :
    getData l i = match dataOf l i with
      | some (some v) => Except.ok v
      | some none => Except.error Fault.uninitializedRead
      | none => Except.error Fault.outOfBounds := by
  unfold getData dataOf
  cases h : l.m_data[i]? with
  | none => rfl
  | some n => cases hd : n.data <;> simp [hd]

end store

/-! ## Chains -/

theorem Links.start {nx nx' : Nat → Option Nat} {s s' t : Nat} {xs : List Nat}
    (hs : nx' s' = nx s) (hx : ∀ x ∈ xs, nx' x = nx x) (h : Links nx s xs t) :
    Links nx' s' xs t := by
  induction xs generalizing s s' with
  | nil => simpa [Links, hs] using h
  | cons x xs ih =>
    obtain ⟨h1, h2⟩ := h
    refine ⟨by rw [hs, h1], ih (hx x (by simp)) (fun y hy => hx y (by simp [hy])) h2⟩

theorem Links.congr {nx nx' : Nat → Option Nat} {s t : Nat} {xs : List Nat}
    (hx : ∀ x ∈ s :: xs, nx' x = nx x) (h : Links nx s xs t) : Links nx' s xs t :=
  h.start (hx s (by simp)) (fun y hy => hx y (by simp [hy]))

theorem Links.head {nx : Nat → Option Nat} {s t : Nat} {xs : List Nat} (h : Links nx s xs t) :
    nx s = some (xs.head?.getD t) := by
  cases xs with
  | nil => simpa [Links] using h
  | cons x xs => simpa using h.1

/-- The node at position `k` of the walk `s, xs, t, t, ...`. -/
theorem Links.drop {nx : Nat → Option Nat} {s t : Nat} {xs : List Nat} (h : Links nx s xs t) :
    ∀ k, k ≤ xs.length → Links nx (((s :: xs)[k]?).getD t) (xs.drop k) t := by
  induction xs generalizing s with
  | nil => intro k hk; simp at hk; subst hk; simpa using h
  | cons x xs ih =>
    intro k hk
    cases k with
    | zero => simpa using h
    | succ k => simpa using ih h.2 k (by simpa using hk)

theorem Links.insert {nx : Nat → Option Nat} {s t f : Nat} {xs : List Nat}
    (h : Links nx s xs t) (nx' : Nat → Option Nat) (hnd : (s :: xs).Nodup) (hf : f ∉ s :: xs) :
    ∀ k, k ≤ xs.length →
      nx' (((s :: xs)[k]?).getD t) = some f →
      nx' f = nx (((s :: xs)[k]?).getD t) →
      (∀ j ∈ s :: xs, j ≠ ((s :: xs)[k]?).getD t → nx' j = nx j) →
      Links nx' s (xs.take k ++ f :: xs.drop k) t := by
  induction xs generalizing s with
  | nil =>
    intro k hk hp hfp hother
    simp at hk; subst hk
    simp at hp hfp
    simp [Links, hp, hfp]
    simpa [Links] using h
  | cons x xs ih =>
    intro k hk hp hfp hother
    have hnd' := List.nodup_cons.1 hnd
    cases k with
    | zero =>
      simp at hp hfp
      simp only [List.take_zero, List.nil_append, List.drop_zero]
      refine ⟨hp, ?_⟩
      refine Links.start (s := s) hfp ?_ h
      intro y hy
      apply hother y (List.mem_cons_of_mem _ hy)
      simp only [List.getElem?_cons_zero, Option.getD_some]
      rintro rfl
      exact hnd'.1 hy
    | succ k =>
      simp only [List.getElem?_cons_succ] at hp hfp hother
      have hk' : k ≤ xs.length := by simpa using hk
      have hmem : ((x :: xs)[k]?).getD t ∈ x :: xs := by
        rw [List.getElem?_eq_getElem (by simp; omega)]
        simp only [Option.getD_some]
        exact List.getElem_mem _
      simp only [List.take_succ_cons, List.cons_append, List.drop_succ_cons]
      refine ⟨?_, ih h.2 hnd'.2 (fun hm => hf (List.mem_cons_of_mem _ hm)) k hk' hp hfp
        (fun j hj => hother j (List.mem_cons_of_mem _ hj))⟩
      rw [hother s (by simp), h.1]
      rintro rfl
      exact hnd'.1 hmem

theorem Links.erase {nx : Nat → Option Nat} {s t : Nat} {xs : List Nat}
    (h : Links nx s xs t) (nx' : Nat → Option Nat) (hnd : (s :: xs).Nodup) :
    ∀ k, (hk : k < xs.length) →
      nx' (((s :: xs)[k]?).getD t) = nx xs[k] →
      (∀ j ∈ s :: xs, j ≠ ((s :: xs)[k]?).getD t → j ≠ xs[k] → nx' j = nx j) →
      Links nx' s (xs.eraseIdx k) t := by
  induction xs generalizing s with
  | nil => intro k hk; simp at hk
  | cons x xs ih =>
    intro k hk hp hother
    have hnd' := List.nodup_cons.1 hnd
    cases k with
    | zero =>
      simp at hp hother
      simp only [List.eraseIdx_cons_zero]
      refine Links.start (s := x) hp ?_ h.2
      intro y hy
      apply hother y hy
      · rintro rfl; exact hnd'.1 (by simp [hy])
      · rintro rfl; exact (List.nodup_cons.1 hnd'.2).1 hy
    | succ k =>
      simp only [List.getElem?_cons_succ, List.getElem_cons_succ] at hp hother
      have hk' : k < xs.length := by simpa using hk
      have hmem : ((x :: xs)[k]?).getD t ∈ x :: xs := by
        rw [List.getElem?_eq_getElem (by simp; omega)]
        simp only [Option.getD_some]
        exact List.getElem_mem _
      simp only [List.eraseIdx_cons_succ]
      refine ⟨?_, ih h.2 hnd'.2 k hk' hp (fun j hj => hother j (List.mem_cons_of_mem _ hj))⟩
      rw [hother s (by simp), h.1]
      · rintro rfl; exact hnd'.1 hmem
      · rintro rfl; exact hnd'.1 (List.mem_cons_of_mem _ (List.getElem_mem _))

/-! ## Consequences of the abstraction relation -/

theorem getD_getElem?_mem (s t : Nat) (xs : List Nat) (k : Nat) (hk : k ≤ xs.length) :
    ((s :: xs)[k]?).getD t ∈ s :: xs := by
  rw [List.getElem?_eq_getElem (by simp; omega)]
  simp only [Option.getD_some]
  exact List.getElem_mem _

section abs
variable {l : forward_list T CAPACITY} {used : List (Nat × T)} {free : List Nat}

theorem Abs.nodup (h : Abs l used free) : (used.map Prod.fst ++ free).Nodup :=
  h.perm.nodup_iff.2 (List.nodup_range' 2 CAPACITY)

theorem Abs.bounds (h : Abs l used free) {i : Nat} (hi : i ∈ used.map Prod.fst ++ free) :
    2 ≤ i ∧ i < CAPACITY + 2 := by
  have := (h.perm.mem_iff (a := i)).1 hi
  simp [List.mem_range'] at this
  omega

theorem Abs.length_add (h : Abs l used free) : used.length + free.length = CAPACITY := by
  have := h.perm.length_eq
  simpa using this

theorem Abs.used_nodup (h : Abs l used free) :
    (BEFORE_BEGIN_USED_INDEX :: used.map Prod.fst).Nodup := by
  refine List.nodup_cons.2 ⟨?_, (List.nodup_append.1 h.nodup).1⟩
  intro hm
  have := h.bounds (List.mem_append_left _ hm)
  simp [BEFORE_BEGIN_USED_INDEX] at this

theorem Abs.free_nodup (h : Abs l used free) :
    (BEFORE_BEGIN_FREE_INDEX :: free).Nodup := by
  refine List.nodup_cons.2 ⟨?_, (List.nodup_append.1 h.nodup).2.1⟩
  intro hm
  have := h.bounds (List.mem_append_right _ hm)
  simp [BEFORE_BEGIN_FREE_INDEX] at this

theorem Abs.disjoint (h : Abs l used free) {i : Nat} (hu : i ∈ used.map Prod.fst)
    (hf : i ∈ free) : False :=
  (List.nodup_append.1 h.nodup).2.2 hu hf

end abs
/-! ## emplace_after -/

@[simp] theorem ok_bind {ε α β : Type} (a : α) (f : α → Except ε β) :
    (Except.ok a >>= f) = f a := rfl

@[simp] theorem error_bind {ε α β : Type} (e : ε) (f : α → Except ε β) :
    (Except.error e >>= f) = Except.error e := rfl

/-- A state whose links and storage differ from those of `l` exactly as
`emplace_after` changes them represents the list with the new element spliced in. -/
theorem Abs.emplaced {l l' : forward_list T CAPACITY} {used : List (Nat × T)} {f : Nat}
    {fs : List Nat} (h : Abs l used (f :: fs)) (k : Nat) (hk : k ≤ used.length) (p : Nat)
    (hp : p = ((BEFORE_BEGIN_USED_INDEX :: used.map Prod.fst)[k]?).getD (INVALID_INDEX CAPACITY))
    (v : T) (hlen' : l'.m_data.length = CAPACITY + 2) (hsize' : l'.m_size = l.m_size + 1)
    (hnx : ∀ j, nextOf l' j = if j = p then some f else if j = f then nextOf l p
      else if j = 1 then nextOf l f else nextOf l j)
    (hdt : ∀ j, dataOf l' j = if j = f then some (some v) else dataOf l j) :
    Abs l' (used.take k ++ (f, v) :: used.drop k) fs := by
  have hk' : k ≤ (used.map Prod.fst).length := by simpa using hk
  have hfb := h.bounds (i := f) (by simp)
  have hpm := getD_getElem?_mem BEFORE_BEGIN_USED_INDEX (INVALID_INDEX CAPACITY) _ _ hk'
  rw [← hp] at hpm
  have hfu : f ∉ BEFORE_BEGIN_USED_INDEX :: used.map Prod.fst := by
    intro hm
    rcases List.mem_cons.1 hm with h0 | hm
    · simp [BEFORE_BEGIN_USED_INDEX] at h0; omega
    · exact h.disjoint hm (by simp)
  have hpb : p < CAPACITY + 2 ∧ p ≠ 1 := by
    rcases List.mem_cons.1 hpm with h0 | hm
    · simp [BEFORE_BEGIN_USED_INDEX] at h0; omega
    · have := h.bounds (List.mem_append_left _ hm); omega
  have hpf : p ≠ f := fun e => hfu (e ▸ hpm)
  have hfnd := h.free_nodup
  have hfs : ∀ y ∈ fs, y ≠ p ∧ y ≠ f ∧ y ≠ 1 := by
    intro y hy
    have hb := h.bounds (i := y) (by simp [hy])
    refine ⟨?_, ?_, by omega⟩
    · rintro rfl
      rcases List.mem_cons.1 hpm with h0 | hm
      · simp [BEFORE_BEGIN_USED_INDEX] at h0; omega
      · exact h.disjoint hm (by simp [hy])
    · rintro rfl
      exact (List.nodup_cons.1 (List.nodup_cons.1 hfnd).2).1 hy
  constructor
  · exact hlen'
  · have := h.usedChain.insert (nextOf l') h.used_nodup hfu k hk'
    rw [← hp] at this
    simp only [List.map_append, List.map_take, List.map_cons, List.map_drop]
    apply this
    · rw [hnx]; simp
    · rw [hnx]; simp [hpf.symm]
    · intro j hj hjp
      have hjf : j ≠ f := fun e => hfu (e ▸ hj)
      have hj1 : j ≠ 1 := by
        rintro rfl
        rcases List.mem_cons.1 hj with h0 | hm
        · simp [BEFORE_BEGIN_USED_INDEX] at h0
        · have := h.bounds (List.mem_append_left _ hm); omega
      rw [hnx]; simp [hjp, hjf, hj1]
  · refine Links.start ?_ ?_ h.freeChain.2
    · rw [hnx]; simp [BEFORE_BEGIN_FREE_INDEX, Ne.symm hpb.2]; omega
    · intro y hy
      obtain ⟨a, b, c⟩ := hfs y hy
      rw [hnx]; simp [a, b, c]
  · refine List.Perm.trans ?_ h.perm
    simp only [List.map_append, List.map_take, List.map_cons, List.map_drop, List.append_assoc,
      List.cons_append]
    refine List.Perm.trans List.perm_middle ?_
    refine List.Perm.trans ?_ List.perm_middle.symm
    rw [← List.append_assoc, List.take_append_drop]
  · simp [hsize', h.size]; omega
  · intro q hq
    rw [hdt]
    rcases List.mem_append.1 hq with hm | hm
    · have hm' := List.mem_of_mem_take hm
      have : q.1 ≠ f := fun e => hfu (e ▸ List.mem_cons_of_mem _ (List.mem_map_of_mem _ hm'))
      simp [this, h.usedData q hm']
    · rcases List.mem_cons.1 hm with rfl | hm
      · simp
      · have hm' := List.mem_of_mem_drop hm
        have : q.1 ≠ f := fun e => hfu (e ▸ List.mem_cons_of_mem _ (List.mem_map_of_mem _ hm'))
        simp [this, h.usedData q hm']
  · intro i hi
    rw [hdt]
    simp [(hfs i hi).2.1, h.freeData i (by simp [hi])]
  · rw [hdt, hdt]
    have h0 : BEFORE_BEGIN_USED_INDEX ≠ f := by simp [BEFORE_BEGIN_USED_INDEX]; omega
    have h1 : BEFORE_BEGIN_FREE_INDEX ≠ f := by simp [BEFORE_BEGIN_FREE_INDEX]; omega
    simp [h0, h1, h.sentinelData]

theorem emplace_after_abs {l : forward_list T CAPACITY} {used : List (Nat × T)} {f : Nat}
    {fs : List Nat} (h : Abs l used (f :: fs)) (k : Nat) (hk : k ≤ used.length)
    (pos : iterator) (hl : pos.m_list = l.addr)
    (hp : pos.m_iterListNodeIdx
      = ((BEFORE_BEGIN_USED_INDEX :: used.map Prod.fst)[k]?).getD (INVALID_INDEX CAPACITY))
    (v : T) :
    ∃ l', emplace_after l pos v = Except.ok (l', { m_list := l.addr, m_iterListNodeIdx := f })
      ∧ Abs l' (used.take k ++ (f, v) :: used.drop k) fs ∧ l'.addr = l.addr := by
  have hlen := h.len
  have hk' : k ≤ (used.map Prod.fst).length := by simpa using hk
  have hfb := h.bounds (i := f) (by simp)
  have h1 : nextOf l 1 = some f := h.freeChain.1
  have hn : nextOf l f = some (fs.head?.getD (INVALID_INDEX CAPACITY)) := h.freeChain.2.head
  have hpm := getD_getElem?_mem BEFORE_BEGIN_USED_INDEX (INVALID_INDEX CAPACITY) _ _ hk'
  have he := (h.usedChain.drop k hk').head
  rw [← hp] at hpm he
  have hsz : l.m_size < CAPACITY := by
    have := h.length_add; have := h.size; simp at *; omega
  have hpb : pos.m_iterListNodeIdx < CAPACITY + 2 ∧ pos.m_iterListNodeIdx ≠ 1 := by
    rcases List.mem_cons.1 hpm with h0 | hm
    · simp [BEFORE_BEGIN_USED_INDEX] at h0; omega
    · have := h.bounds (List.mem_append_left _ hm); omega
  have hfi : f < INVALID_INDEX CAPACITY := hfb.2
  refine ⟨{ withNext (withNext (withData (withNext l 1 (fs.head?.getD (INVALID_INDEX CAPACITY)))
      f (some v)) f ((used.map Prod.fst).drop k |>.head?.getD (INVALID_INDEX CAPACITY)))
      pos.m_iterListNodeIdx f with m_size := l.m_size + 1 }, ?_, ?_, by simp⟩
  · unfold emplace_after
    simp [hl, getNextIdx_eq, setNextIdx_eq, setData_eq, nextOf_withNext, h1, hn, he, hsz,
      BEFORE_BEGIN_FREE_INDEX, hlen, hfb.2, hpb.1, hpb.2, hfi]
  · refine h.emplaced k hk _ hp v (by simp [hlen]) (by simp) ?_ ?_
    · intro j
      simp [nextOf_withNext, hlen, hfb.2, hpb.1, he, hn]
    · intro j
      simp [dataOf_withData, hlen, hfb.2]
/-! ## erase_after -/

theorem map_eraseIdx {α β : Type} (g : α → β) (xs : List α) (k : Nat) :
    (xs.eraseIdx k).map g = (xs.map g).eraseIdx k := by
  simp [List.eraseIdx_eq_take_drop_succ, List.map_take, List.map_drop]

theorem perm_cons_eraseIdx {α : Type} (xs : List α) (k : Nat) (hk : k < xs.length) :
    List.Perm (xs[k] :: xs.eraseIdx k) xs := by
  rw [List.eraseIdx_eq_take_drop_succ]
  refine List.Perm.trans List.perm_middle.symm ?_
  rw [← List.drop_eq_getElem_cons hk, List.take_append_drop]

theorem mem_of_mem_eraseIdx {α : Type} {xs : List α} {k : Nat} {a : α}
    (h : a ∈ xs.eraseIdx k) : a ∈ xs := by
  rw [List.eraseIdx_eq_take_drop_succ] at h
  rcases List.mem_append.1 h with h | h
  · exact List.mem_of_mem_take h
  · exact List.mem_of_mem_drop h

/-- A state whose links and storage differ from those of `l` exactly as
`erase_after` changes them represents the list without the erased element, the
freed slot being the new head of the free chain. -/
theorem Abs.erased {l l' : forward_list T CAPACITY} {used : List (Nat × T)}
    {free : List Nat} (h : Abs l used free) (k : Nat) (hk : k < used.length) (p : Nat)
    (hp : p = ((BEFORE_BEGIN_USED_INDEX :: used.map Prod.fst)[k]?).getD (INVALID_INDEX CAPACITY))
    (hlen' : l'.m_data.length = CAPACITY + 2) (hsize' : l'.m_size = l.m_size - 1)
    (hnx : ∀ j, nextOf l' j = if j = 1 then some used[k].1 else if j = used[k].1 then nextOf l 1
      else if j = p then nextOf l used[k].1 else nextOf l j)
    (hdt : ∀ j, dataOf l' j = if j = used[k].1 then some none else dataOf l j) :
    Abs l' (used.eraseIdx k) (used[k].1 :: free) := by
  have hk' : k < (used.map Prod.fst).length := by simpa using hk
  have hek : (used.map Prod.fst)[k] = used[k].1 := by simp
  have hem : used[k].1 ∈ used.map Prod.fst := List.mem_map_of_mem _ (List.getElem_mem _)
  have heb := h.bounds (List.mem_append_left free hem)
  have hpm := getD_getElem?_mem BEFORE_BEGIN_USED_INDEX (INVALID_INDEX CAPACITY) _ _
    (Nat.le_of_lt hk')
  rw [← hp] at hpm
  have hpb : p < CAPACITY + 2 ∧ p ≠ 1 := by
    rcases List.mem_cons.1 hpm with h0 | hm
    · simp [BEFORE_BEGIN_USED_INDEX] at h0; omega
    · have := h.bounds (List.mem_append_left _ hm); omega
  have hund := h.used_nodup
  have hpe : p ≠ used[k].1 := by
    intro e
    have h1 : (BEFORE_BEGIN_USED_INDEX :: used.map Prod.fst)[k]? = some p := by
      rw [hp, List.getElem?_eq_getElem (by simp; omega)]; simp
    have h2 : (BEFORE_BEGIN_USED_INDEX :: used.map Prod.fst)[k + 1]? = some p := by
      rw [e]; simp [List.getElem?_eq_getElem hk]
    have := (List.getElem?_inj (by simp; omega) hund (h1.trans h2.symm))
    omega
  have hfs : ∀ y ∈ free, y ≠ p ∧ y ≠ used[k].1 ∧ y ≠ 1 := by
    intro y hy
    have hb := h.bounds (i := y) (by simp [hy])
    refine ⟨?_, ?_, by omega⟩
    · rintro rfl
      rcases List.mem_cons.1 hpm with h0 | hm
      · simp [BEFORE_BEGIN_USED_INDEX] at h0; omega
      · exact h.disjoint hm hy
    · rintro rfl
      exact h.disjoint hem hy
  constructor
  · exact hlen'
  · rw [map_eraseIdx]
    refine h.usedChain.erase (nextOf l') hund k hk' ?_ ?_
    · rw [← hp, hnx, hek]; simp [hpb.2, hpe]
    · rw [← hp, hek]
      intro j hj hjp hje
      have hj1 : j ≠ 1 := by
        rintro rfl
        rcases List.mem_cons.1 hj with h0 | hm
        · simp [BEFORE_BEGIN_USED_INDEX] at h0
        · have := h.bounds (List.mem_append_left _ hm); omega
      rw [hnx]; simp [hjp, hje, hj1]
  · refine ⟨by rw [hnx]; simp [BEFORE_BEGIN_FREE_INDEX], ?_⟩
    refine Links.start ?_ ?_ h.freeChain
    · rw [hnx]
      have : used[k].1 ≠ 1 := by omega
      simp [this, BEFORE_BEGIN_FREE_INDEX]
    · intro y hy
      obtain ⟨a, b, c⟩ := hfs y hy
      rw [hnx]; simp [a, b, c]
  · refine List.Perm.trans ?_ h.perm
    rw [map_eraseIdx]
    refine List.Perm.trans List.perm_middle ?_
    rw [← List.cons_append, ← hek]
    exact List.Perm.append_right _ (perm_cons_eraseIdx _ k hk')
  · rw [hsize', h.size, List.length_eraseIdx]; simp [hk]
  · intro q hq
    have hq' := mem_of_mem_eraseIdx hq
    rw [hdt]
    have hne : q.1 ≠ used[k].1 := by
      intro e
      have hnd : (used.map Prod.fst).Nodup := (List.nodup_cons.1 hund).2
      have hm : q.1 ∈ (used.map Prod.fst).eraseIdx k := by
        rw [← map_eraseIdx]; exact List.mem_map_of_mem _ hq
      have hp2 := (perm_cons_eraseIdx (used.map Prod.fst) k hk').nodup_iff.2 hnd
      rw [hek] at hp2
      exact (List.nodup_cons.1 hp2).1 (e ▸ hm)
    simp [hne, h.usedData q hq']
  · intro i hi
    rw [hdt]
    rcases List.mem_cons.1 hi with rfl | hi
    · simp
    · simp [(hfs i hi).2.1, h.freeData i hi]
  · rw [hdt, hdt]
    have h0 : BEFORE_BEGIN_USED_INDEX ≠ used[k].1 := by simp [BEFORE_BEGIN_USED_INDEX]; omega
    have h1 : BEFORE_BEGIN_FREE_INDEX ≠ used[k].1 := by simp [BEFORE_BEGIN_FREE_INDEX]; omega
    simp [h0, h1, h.sentinelData]
theorem erase_after_abs {l : forward_list T CAPACITY} {used : List (Nat × T)}
    {free : List Nat} (h : Abs l used free) (k : Nat) (hk : k < used.length)
    (pos : iterator) (hl : pos.m_list = l.addr)
    (hp : pos.m_iterListNodeIdx
      = ((BEFORE_BEGIN_USED_INDEX :: used.map Prod.fst)[k]?).getD (INVALID_INDEX CAPACITY)) :
    ∃ l', erase_after l pos = Except.ok (l', iterator.mk l.addr
          (((used.map Prod.fst)[k + 1]?).getD (INVALID_INDEX CAPACITY)))
      ∧ Abs l' (used.eraseIdx k) (used[k].1 :: free) ∧ l'.addr = l.addr := by
  have hlen := h.len
  have hk' : k < (used.map Prod.fst).length := by simpa using hk
  have hem : used[k].1 ∈ used.map Prod.fst := List.mem_map_of_mem _ (List.getElem_mem _)
  have heb := h.bounds (List.mem_append_left free hem)
  have hpm := getD_getElem?_mem BEFORE_BEGIN_USED_INDEX (INVALID_INDEX CAPACITY) _ _
    (Nat.le_of_lt hk')
  have he := (h.usedChain.drop k (Nat.le_of_lt hk')).head
  have hen := (h.usedChain.drop (k + 1) hk').head
  rw [← hp] at hpm he
  simp only [List.head?_drop, List.getElem?_cons_succ] at he hen
  rw [List.getElem?_eq_getElem hk'] at he hen
  simp only [List.getElem_map, Option.getD_some] at he hen
  have h1 : nextOf l 1 = some (free.head?.getD (INVALID_INDEX CAPACITY)) := h.freeChain.head
  have hpb : pos.m_iterListNodeIdx < CAPACITY + 2 ∧ pos.m_iterListNodeIdx ≠ 1 := by
    rcases List.mem_cons.1 hpm with h0 | hm
    · simp [BEFORE_BEGIN_USED_INDEX] at h0; omega
    · have := h.bounds (List.mem_append_left _ hm); omega
  have hsz : l.m_size ≠ 0 := by rw [h.size]; omega
  have hpe : pos.m_iterListNodeIdx ≠ used[k].1 := by
    intro e
    have hund := h.used_nodup
    have h1 : (BEFORE_BEGIN_USED_INDEX :: used.map Prod.fst)[k]? = some pos.m_iterListNodeIdx := by
      rw [hp, List.getElem?_eq_getElem (by simp; omega)]; simp
    have h2 : (BEFORE_BEGIN_USED_INDEX :: used.map Prod.fst)[k + 1]? = some pos.m_iterListNodeIdx := by
      rw [e]; simp [List.getElem?_eq_getElem hk]
    have := (List.getElem?_inj (by simp; omega) hund (h1.trans h2.symm))
    omega
  refine ⟨{ (withNext (withNext (withData (withNext l pos.m_iterListNodeIdx
      (((used.map Prod.fst)[k + 1]?).getD (INVALID_INDEX CAPACITY))) used[k].1 none) used[k].1
      (free.head?.getD (INVALID_INDEX CAPACITY))) 1 used[k].1) with m_size := l.m_size - 1 },
      ?_, ?_, by simp⟩
  · unfold erase_after
    have hv : isValidIteratorIndex CAPACITY pos.m_iterListNodeIdx = true := by
      simp [isValidIteratorIndex, INVALID_INDEX, INTERNAL_CAPACITY, hpb.1]
    have hve : isValidElementIndex CAPACITY used[k].1 = true := by
      simp [isValidElementIndex, isValidIteratorIndex, INVALID_INDEX, INTERNAL_CAPACITY,
        BEFORE_BEGIN_USED_INDEX, BEFORE_BEGIN_FREE_INDEX]
      omega
    simp [hl, hv, hve, empty, hsz, getNextIdx_eq, setNextIdx_eq, setData_eq, nextOf_withNext, h1,
      he, hen, BEFORE_BEGIN_FREE_INDEX, hlen, heb.2, hpb.1, hpb.2, hpe, Ne.symm hpb.2]
  · refine h.erased k hk _ hp (by simp [hlen]) (by simp) ?_ ?_
    · intro j
      simp [nextOf_withNext, hlen, heb.2, hpb.1, he, hen, h1]
    · intro j
      simp [dataOf_withData, hlen, heb.2]
theorem erase_after_noop {l : forward_list T CAPACITY} {used : List (Nat × T)}
    {free : List Nat} (h : Abs l used free) (k : Nat) (hk : used.length ≤ k)
    (pos : iterator) (hl : pos.m_list = l.addr)
    (hp : pos.m_iterListNodeIdx
      = ((BEFORE_BEGIN_USED_INDEX :: used.map Prod.fst)[k]?).getD (INVALID_INDEX CAPACITY)) :
    erase_after l pos = Except.ok (l, cend l) := by
  unfold erase_after
  rcases Nat.eq_or_lt_of_le hk with hk | hk
  · subst hk
    have he := (h.usedChain.drop used.length (by simp)).head
    rw [← hp] at he
    simp at he
    have hpm := getD_getElem?_mem BEFORE_BEGIN_USED_INDEX (INVALID_INDEX CAPACITY)
      (used.map Prod.fst) used.length (by simp)
    rw [← hp] at hpm
    have hpb : pos.m_iterListNodeIdx < INVALID_INDEX CAPACITY := by
      rcases List.mem_cons.1 hpm with h0 | hm
      · simp [BEFORE_BEGIN_USED_INDEX] at h0; simp [h0, INVALID_INDEX, INTERNAL_CAPACITY]
      · have := h.bounds (List.mem_append_left _ hm); simp [INVALID_INDEX, INTERNAL_CAPACITY]; omega
    simp [hl, isValidIteratorIndex, isValidElementIndex, hpb, getNextIdx_eq, he]
  · have : pos.m_iterListNodeIdx = INVALID_INDEX CAPACITY := by
      rw [hp, List.getElem?_eq_none (by simp; omega)]; simp
    simp [hl, isValidIteratorIndex, this]

/-! ## Iterators -/

theorem incr_abs {l : forward_list T CAPACITY} {used : List (Nat × T)}
    {free : List Nat} (h : Abs l used free) (k : Nat) (it : iterator)
    (hp : it.m_iterListNodeIdx
      = ((BEFORE_BEGIN_USED_INDEX :: used.map Prod.fst)[k]?).getD (INVALID_INDEX CAPACITY)) :
    incr l it = Except.ok (iterator.mk it.m_list
      (((BEFORE_BEGIN_USED_INDEX :: used.map Prod.fst)[k + 1]?).getD (INVALID_INDEX CAPACITY))) := by
  unfold incr
  by_cases hk : k ≤ used.length
  · have hk' : k ≤ (used.map Prod.fst).length := by simpa using hk
    have he := (h.usedChain.drop k hk').head
    rw [← hp] at he
    simp only [List.head?_drop] at he
    have hpm := getD_getElem?_mem BEFORE_BEGIN_USED_INDEX (INVALID_INDEX CAPACITY) _ _ hk'
    rw [← hp] at hpm
    have hpb : it.m_iterListNodeIdx < INVALID_INDEX CAPACITY := by
      rcases List.mem_cons.1 hpm with h0 | hm
      · simp [BEFORE_BEGIN_USED_INDEX] at h0; simp [h0, INVALID_INDEX, INTERNAL_CAPACITY]
      · have := h.bounds (List.mem_append_left _ hm); simp [INVALID_INDEX, INTERNAL_CAPACITY]; omega
    simp [isValidIteratorIndex, hpb, getNextIdx_eq, he]
  · have hi : it.m_iterListNodeIdx = INVALID_INDEX CAPACITY := by
      rw [hp, List.getElem?_eq_none (by simp; omega)]; simp
    have hnone : used[k]? = none := List.getElem?_eq_none (by omega)
    simp only [isValidIteratorIndex, hi, lt_self_iff_false, decide_False, Bool.false_eq_true,
      if_false, List.getElem?_cons_succ, List.getElem?_map, hnone, Option.map_none',
      Option.getD_none]
    cases it
    simp only [Except.ok.injEq, iterator.mk.injEq, true_and]
    exact hi
theorem advance_abs {l : forward_list T CAPACITY} {used : List (Nat × T)}
    {free : List Nat} (h : Abs l used free) (n k : Nat) (it : iterator)
    (hp : it.m_iterListNodeIdx
      = ((BEFORE_BEGIN_USED_INDEX :: used.map Prod.fst)[k]?).getD (INVALID_INDEX CAPACITY)) :
    advance l n it = Except.ok (iterator.mk it.m_list
      (((BEFORE_BEGIN_USED_INDEX :: used.map Prod.fst)[k + n]?).getD (INVALID_INDEX CAPACITY))) := by
  induction n generalizing k it with
  | zero => cases it; simp_all [advance]
  | succ n ih =>
    simp only [advance, incr_abs h k it hp, ok_bind]
    rw [ih (k + 1) _ rfl]
    simp [Nat.add_assoc, Nat.add_comm 1 n]

theorem advance_before_begin {l : forward_list T CAPACITY} {used : List (Nat × T)}
    {free : List Nat} (h : Abs l used free) (n : Nat) :
    advance l n (before_begin l) = Except.ok (iterator.mk l.addr
      (((BEFORE_BEGIN_USED_INDEX :: used.map Prod.fst)[n]?).getD (INVALID_INDEX CAPACITY))) := by
  have := advance_abs h n 0 (before_begin l) (by simp [before_begin])
  simpa [before_begin] using this

theorem begin_abs {l : forward_list T CAPACITY} {used : List (Nat × T)}
    {free : List Nat} (h : Abs l used free) :
    begin l = Except.ok (iterator.mk l.addr
      (((used.map Prod.fst)[0]?).getD (INVALID_INDEX CAPACITY))) := by
  have := incr_abs h 0 (before_begin l) (by simp [before_begin])
  simpa [begin, before_begin] using this

theorem isValidElementIndex_abs {l : forward_list T CAPACITY} {used : List (Nat × T)}
    {free : List Nat} (h : Abs l used free) {i : Nat} (hi : i ∈ used.map Prod.fst ++ free) :
    isValidElementIndex CAPACITY i = true := by
  have := h.bounds hi
  simp [isValidElementIndex, isValidIteratorIndex, INVALID_INDEX, INTERNAL_CAPACITY,
    BEFORE_BEGIN_USED_INDEX, BEFORE_BEGIN_FREE_INDEX]
  omega

theorem deref_abs {l : forward_list T CAPACITY} {used : List (Nat × T)}
    {free : List Nat} (h : Abs l used free) (k : Nat) (hk : k < used.length) (it : iterator)
    (hp : it.m_iterListNodeIdx = used[k].1) :
    deref l it = Except.ok used[k].2 := by
  have hem : used[k].1 ∈ used.map Prod.fst := List.mem_map_of_mem _ (List.getElem_mem _)
  have hv := isValidElementIndex_abs h (List.mem_append_left free hem)
  have hd := h.usedData used[k] (List.getElem_mem _)
  simp [deref, hp, hv, getData_eq, hd]

theorem collect_abs {l : forward_list T CAPACITY} {used : List (Nat × T)}
    {free : List Nat} (h : Abs l used free) (fuel k : Nat) (hf : used.length - k < fuel)
    (it : iterator) (hl : it.m_list = l.addr)
    (hp : it.m_iterListNodeIdx = ((used.map Prod.fst)[k]?).getD (INVALID_INDEX CAPACITY)) :
    collect l fuel it = Except.ok ((used.drop k).map Prod.snd) := by
  obtain ⟨a, i⟩ := it
  simp only at hl hp
  subst hl
  induction fuel generalizing k i with
  | zero => omega
  | succ fuel ih =>
    by_cases hk : k < used.length
    · have hidx : i = used[k].1 := by
        rw [hp, List.getElem?_eq_getElem (by simpa using hk)]; simp
      have hem : used[k].1 ∈ used.map Prod.fst := List.mem_map_of_mem _ (List.getElem_mem _)
      have hb := h.bounds (List.mem_append_left free hem)
      have hne : (i == INVALID_INDEX CAPACITY) = false := by
        simp [hidx, INVALID_INDEX, INTERNAL_CAPACITY]; omega
      have hinc := incr_abs h (k + 1) (iterator.mk l.addr i) (by simpa using hp)
      simp only [List.getElem?_cons_succ] at hinc
      have hrec := ih (k + 1) (by omega)
        (((used.map Prod.fst)[k + 1]?).getD (INVALID_INDEX CAPACITY)) rfl
      simp only [collect, iterNe, iterEq, cend, bne_self_eq_false, Bool.false_eq_true,
        if_false, ok_bind, hne, Bool.not_false, if_true,
        deref_abs h k hk (iterator.mk l.addr i) hidx, hinc, hrec]
      rw [List.drop_eq_getElem_cons hk]
      rfl
    · have hidx : i = INVALID_INDEX CAPACITY := by
        rw [hp, List.getElem?_eq_none (by simp; omega)]; simp
      simp [collect, iterNe, iterEq, cend, hidx, List.drop_eq_nil_of_le (Nat.le_of_not_lt hk)]

theorem toList_abs {l : forward_list T CAPACITY} {used : List (Nat × T)}
    {free : List Nat} (h : Abs l used free) : toList l = Except.ok (used.map Prod.snd) := by
  have hlen := h.length_add
  have := collect_abs h (INTERNAL_CAPACITY CAPACITY) 0
    (by simp [INTERNAL_CAPACITY]; omega)
    (iterator.mk l.addr (((used.map Prod.fst)[0]?).getD (INVALID_INDEX CAPACITY))) rfl rfl
  simpa [toList, begin_abs h] using this
/-! ## Construction -/

theorem initLoop_spec (fuel : Nat) : ∀ (i : Nat) (l : forward_list T CAPACITY),
    l.m_data.length = CAPACITY + 2 → 1 ≤ i → i ≤ CAPACITY + 1 → CAPACITY + 1 - i < fuel →
    ∃ l', initLoop fuel i l = Except.ok l' ∧ l'.addr = l.addr ∧ l'.m_size = l.m_size
      ∧ l'.m_data.length = CAPACITY + 2 ∧ (∀ j, dataOf l' j = dataOf l j)
      ∧ (∀ j, nextOf l' j = if i ≤ j ∧ j < CAPACITY + 1 then some (j + 1) else nextOf l j) := by
  induction fuel with
  | zero => intro i l _ _ _ h; omega
  | succ fuel ih =>
    intro i l hlen h1 h2 hf
    by_cases hi : i + 1 < INTERNAL_CAPACITY CAPACITY
    · have hi' : i < CAPACITY + 1 := by simpa [INTERNAL_CAPACITY] using hi
      obtain ⟨l', e, ha, hs, hl, hd, hn⟩ := ih (i + 1) (withNext l i (i + 1)) (by simp [hlen])
        (by omega) (by omega) (by omega)
      refine ⟨l', ?_, by simpa using ha, by simpa using hs, hl, by simpa using hd, ?_⟩
      · simp only [initLoop, hi, if_true, setNextIdx_eq l i (i + 1) (by omega), ok_bind, e]
      · intro j
        rw [hn, nextOf_withNext _ _ _ _ (by omega)]
        by_cases hj : j = i
        · subst hj; simp [hi']
        · by_cases hj' : i + 1 ≤ j ∧ j < CAPACITY + 1
          · have : i ≤ j ∧ j < CAPACITY + 1 := by omega
            simp [hj', this]
          · have : ¬ (i ≤ j ∧ j < CAPACITY + 1) := by omega
            simp [hj', this, hj]
    · have hi' : i = CAPACITY + 1 := by simp [INTERNAL_CAPACITY] at hi; omega
      refine ⟨l, by simp only [initLoop, hi, if_false], rfl, rfl, hlen, fun _ => rfl, ?_⟩
      intro j
      have : ¬ (i ≤ j ∧ j < CAPACITY + 1) := by omega
      simp [this]

theorem Links.range (nx : Nat → Option Nat) (t : Nat) (n : Nat) : ∀ (s : Nat),
    (∀ j, s ≤ j → j < s + n → nx j = some (j + 1)) → nx (s + n) = some t →
    Links nx s (List.range' (s + 1) n) t := by
  induction n with
  | zero => intro s _ h; simpa [Links] using h
  | succ n ih =>
    intro s h1 h2
    refine ⟨h1 s (Nat.le_refl _) (by omega), ih (s + 1) (fun j hj hj' => h1 j (by omega) (by omega)) ?_⟩
    rw [← h2]; congr 1; omega

theorem dataOf_raw (addr : Nat) (junk : Nat → Nat) (j : Nat) (hj : j < CAPACITY + 2) :
    dataOf (raw T CAPACITY addr junk) j = some none := by
  simp [dataOf, raw, List.getElem?_eq_getElem, hj]

theorem construct_abs (addr : Nat) (junk : Nat → Nat) :
    ∃ l : forward_list T CAPACITY, construct T CAPACITY addr junk = Except.ok l
      ∧ Abs l [] (List.range' 2 CAPACITY) ∧ l.addr = addr := by
  have hlen : (raw T CAPACITY addr junk).m_data.length = CAPACITY + 2 := by simp [raw]
  obtain ⟨l', e, ha, hs, hl, hd, hn⟩ := initLoop_spec (INTERNAL_CAPACITY CAPACITY) 1
    (withNext (raw T CAPACITY addr junk) 0 (INVALID_INDEX CAPACITY)) (by simp [hlen])
    (Nat.le_refl _) (by omega) (by simp [INTERNAL_CAPACITY])
  have hnx : ∀ j, nextOf (withNext l' (CAPACITY + 1) (INVALID_INDEX CAPACITY)) j
      = if j = CAPACITY + 1 then some (INVALID_INDEX CAPACITY)
        else if 1 ≤ j ∧ j < CAPACITY + 1 then some (j + 1)
        else if j = 0 then some (INVALID_INDEX CAPACITY)
        else nextOf (raw T CAPACITY addr junk) j := by
    intro j
    rw [nextOf_withNext _ _ _ _ (by omega), hn, nextOf_withNext _ _ _ _ (by omega)]
  have hdt : ∀ j, dataOf (withNext l' (CAPACITY + 1) (INVALID_INDEX CAPACITY)) j
      = dataOf (raw T CAPACITY addr junk) j := by
    intro j; simp [hd]
  refine ⟨withNext l' (CAPACITY + 1) (INVALID_INDEX CAPACITY), ?_, ?_, by simpa using ha⟩
  · simp only [construct, init, BEFORE_BEGIN_USED_INDEX, BEFORE_BEGIN_FREE_INDEX,
      setNextIdx_eq _ 0 _ (by omega : 0 < (raw T CAPACITY addr junk).m_data.length), ok_bind, e]
    rw [setNextIdx_eq _ _ _ (by simp [INTERNAL_CAPACITY]; omega)]
    simp [INTERNAL_CAPACITY]
  · constructor
    · simp [hl]
    · simp only [List.map_nil, Links, BEFORE_BEGIN_USED_INDEX]
      rw [hnx]; simp
    · have := Links.range (nextOf (withNext l' (CAPACITY + 1) (INVALID_INDEX CAPACITY)))
        (INVALID_INDEX CAPACITY) CAPACITY 1
        (fun j h1 h2 => by
          rw [hnx]
          have h3 : j ≠ CAPACITY + 1 := by omega
          have h4 : 1 ≤ j ∧ j < CAPACITY + 1 := by omega
          simp [h3, h4])
        (by rw [hnx]; simp [Nat.add_comm])
      simpa [BEFORE_BEGIN_FREE_INDEX] using this
    · simp
    · simpa using hs.trans (by simp [raw])
    · intro p hp; simp at hp
    · intro i hi
      rw [hdt]
      have := List.mem_range'.1 hi
      exact dataOf_raw addr junk i (by omega)
    · rw [hdt, hdt]
      exact ⟨dataOf_raw addr junk _ (by simp [BEFORE_BEGIN_USED_INDEX]),
        dataOf_raw addr junk _ (by simp [BEFORE_BEGIN_FREE_INDEX])⟩
/-! ## Element assignment through an iterator -/

theorem assignAt_abs {l : forward_list T CAPACITY} {used : List (Nat × T)}
    {free : List Nat} (h : Abs l used free) (k : Nat) (hk : k < used.length) (it : iterator)
    (hp : it.m_iterListNodeIdx = used[k].1) (v : T) :
    ∃ l', assignAt l it v = Except.ok l' ∧ Abs l' (used.set k (used[k].1, v)) free
      ∧ l'.addr = l.addr := by
  have hem : used[k].1 ∈ used.map Prod.fst := List.mem_map_of_mem _ (List.getElem_mem _)
  have hb := h.bounds (List.mem_append_left free hem)
  have hv := isValidElementIndex_abs h (List.mem_append_left free hem)
  have hd := h.usedData used[k] (List.getElem_mem _)
  have hlen := h.len
  have hmap : (used.set k (used[k].1, v)).map Prod.fst = used.map Prod.fst := by
    apply List.ext_getElem?
    intro n
    simp only [List.getElem?_map, List.getElem?_set]
    by_cases hn : k = n
    · subst hn; simp [hk]
    · simp [hn]
  refine ⟨withData l used[k].1 (some v), ?_, ?_, by simp⟩
  · simp [assignAt, hp, hv, getData_eq, hd, setData_eq, hlen, hb.2]
  · constructor
    · simp [hlen]
    · rw [hmap]; exact h.usedChain.congr (fun x _ => by simp)
    · exact h.freeChain.congr (fun x _ => by simp)
    · rw [hmap]; exact h.perm
    · simp [h.size]
    · intro q hq
      rw [dataOf_withData _ _ _ _ (by omega)]
      obtain ⟨m, hm, rfl⟩ := List.getElem_of_mem hq
      have hm' : m < used.length := by simpa using hm
      rw [List.getElem_set]
      by_cases hkm : k = m
      · simp [hkm]
      · have hnd : (used.map Prod.fst).Nodup := (List.nodup_cons.1 h.used_nodup).2
        have hne : used[m].1 ≠ used[k].1 := by
          intro e
          have h2 : (used.map Prod.fst)[m]? = (used.map Prod.fst)[k]? := by
            simp [List.getElem?_eq_getElem hm', List.getElem?_eq_getElem hk, e]
          exact hkm (List.getElem?_inj (by simpa using hm') hnd h2).symm
        simp [hkm, hne, h.usedData used[m] (List.getElem_mem _)]
    · intro i hi
      rw [dataOf_withData _ _ _ _ (by omega)]
      have : i ≠ used[k].1 := fun e => h.disjoint hem (e ▸ hi)
      simp [this, h.freeData i hi]
    · rw [dataOf_withData _ _ _ _ (by omega), dataOf_withData _ _ _ _ (by omega)]
      have h0 : BEFORE_BEGIN_USED_INDEX ≠ used[k].1 := by simp [BEFORE_BEGIN_USED_INDEX]; omega
      have h1 : BEFORE_BEGIN_FREE_INDEX ≠ used[k].1 := by simp [BEFORE_BEGIN_FREE_INDEX]; omega
      simp [h0, h1, h.sentinelData]
/-! ## Operations at arbitrary positions -/

theorem emplace_after_full {l : forward_list T CAPACITY} {used : List (Nat × T)}
    (h : Abs l used []) (pos : iterator) (hl : pos.m_list = l.addr) (v : T) :
    emplace_after l pos v = Except.ok (l, cend l) := by
  have h1 : nextOf l 1 = some (INVALID_INDEX CAPACITY) := h.freeChain
  have hsz : ¬ l.m_size < CAPACITY := by
    have := h.length_add; have := h.size; simp at *; omega
  simp [emplace_after, hl, getNextIdx_eq, BEFORE_BEGIN_FREE_INDEX, h1, hsz]

theorem emplace_after_end {l : forward_list T CAPACITY} {used : List (Nat × T)} {f : Nat}
    {fs : List Nat} (h : Abs l used (f :: fs)) (pos : iterator) (hl : pos.m_list = l.addr)
    (hp : pos.m_iterListNodeIdx = INVALID_INDEX CAPACITY) (v : T) :
    emplace_after l pos v = Except.error Fault.outOfBounds := by
  have hlen := h.len
  have hfb := h.bounds (i := f) (by simp)
  have h1 : nextOf l 1 = some f := h.freeChain.1
  have hn : nextOf l f = some (fs.head?.getD (INVALID_INDEX CAPACITY)) := h.freeChain.2.head
  have hsz : l.m_size < CAPACITY := by
    have := h.length_add; have := h.size; simp at *; omega
  have hfi : f < INVALID_INDEX CAPACITY := hfb.2
  have hnone : nextOf l (INVALID_INDEX CAPACITY) = none := by
    simp [nextOf, INVALID_INDEX, INTERNAL_CAPACITY, hlen]
  have hne1 : INVALID_INDEX CAPACITY ≠ 1 := by simp [INVALID_INDEX, INTERNAL_CAPACITY]
  simp [emplace_after, hl, hp, getNextIdx_eq, setNextIdx_eq, setData_eq, nextOf_withNext, h1, hn,
    hsz, BEFORE_BEGIN_FREE_INDEX, hlen, hfb.2, hfi, hnone, hne1]

theorem emplace_after_wf {l l' : forward_list T CAPACITY} (h : WellFormed l) (k : Nat)
    (pos it : iterator) (v : T) (hpos : advance l k (before_begin l) = Except.ok pos)
    (he : emplace_after l pos v = Except.ok (l', it)) : WellFormed l' ∧ l'.addr = l.addr := by
  obtain ⟨used, free, ha⟩ := h
  rw [advance_before_begin ha k] at hpos
  cases hpos
  change emplace_after l (posAt l used k) v = _ at he
  cases free with
  | nil =>
    rw [emplace_after_full ha _ rfl] at he
    cases he
    exact ⟨⟨used, [], ha⟩, rfl⟩
  | cons f fs =>
    by_cases hk : k ≤ used.length
    · obtain ⟨l1, e1, ha1, had⟩ := emplace_after_abs ha k hk (posAt l used k) rfl rfl v
      rw [e1] at he
      cases he
      exact ⟨⟨_, _, ha1⟩, had⟩
    · rw [emplace_after_end ha (posAt l used k) rfl
        (by simp only [posAt]; rw [List.getElem?_eq_none (by simp; omega)]; simp)] at he
      cases he

theorem erase_after_wf {l l' : forward_list T CAPACITY} (h : WellFormed l) (k : Nat)
    (pos it : iterator) (hpos : advance l k (before_begin l) = Except.ok pos)
    (he : erase_after l pos = Except.ok (l', it)) : WellFormed l' ∧ l'.addr = l.addr := by
  obtain ⟨used, free, ha⟩ := h
  rw [advance_before_begin ha k] at hpos
  cases hpos
  change erase_after l (posAt l used k) = _ at he
  by_cases hk : k < used.length
  · obtain ⟨l1, e1, ha1, had⟩ := erase_after_abs ha k hk (posAt l used k) rfl rfl
    rw [e1] at he
    cases he
    exact ⟨⟨_, _, ha1⟩, had⟩
  · rw [erase_after_noop ha k (Nat.le_of_not_lt hk) (posAt l used k) rfl rfl] at he
    cases he
    exact ⟨⟨_, _, ha⟩, rfl⟩

theorem assignAt_wf {l l' : forward_list T CAPACITY} (h : WellFormed l) (k : Nat)
    (pos : iterator) (v : T) (hpos : advance l k (before_begin l) = Except.ok pos)
    (he : assignAt l pos v = Except.ok l') : WellFormed l' ∧ l'.addr = l.addr := by
  obtain ⟨used, free, ha⟩ := h
  rw [advance_before_begin ha k] at hpos
  cases hpos
  change assignAt l (posAt l used k) v = _ at he
  cases k with
  | zero => simp [assignAt, posAt, isValidElementIndex, BEFORE_BEGIN_USED_INDEX] at he
  | succ k =>
    by_cases hk : k < used.length
    · obtain ⟨l1, e1, ha1, had⟩ := assignAt_abs ha k hk (posAt l used (k + 1))
        (by simp [posAt, List.getElem?_eq_getElem hk]) v
      rw [e1] at he
      cases he
      exact ⟨⟨_, _, ha1⟩, had⟩
    · have : used[k]? = none := List.getElem?_eq_none (by omega)
      simp [assignAt, posAt, isValidElementIndex, isValidIteratorIndex, this] at he
/-! ## clear -/

theorem clear_abs {used : List (Nat × T)} : ∀ {l : forward_list T CAPACITY} {free : List Nat},
    Abs l used free →
    ∃ l', (∀ fuel, clear fuel l
        = if used.length < fuel then Except.ok l' else Except.error Fault.outOfFuel)
      ∧ Abs l' [] ((used.map Prod.fst).reverse ++ free) ∧ l'.addr = l.addr := by
  induction used with
  | nil =>
    intro l free h
    refine ⟨l, ?_, by simpa using h, rfl⟩
    intro fuel
    cases fuel with
    | zero => simp [clear]
    | succ fuel => simp [clear, begin_abs h, iterNe, iterEq, cend]
  | cons u us ih =>
    intro l free h
    obtain ⟨l1, e1, h1, ha1⟩ := erase_after_abs h 0 (by simp) (before_begin l) rfl
      (by simp [before_begin])
    obtain ⟨l', e', h', ha'⟩ := ih h1
    refine ⟨l', ?_, by simpa using h', by rw [ha', ha1]⟩
    intro fuel
    cases fuel with
    | zero => simp [clear]
    | succ fuel =>
      have hb := h.bounds (i := u.1) (by simp)
      have hne : (u.1 == INVALID_INDEX CAPACITY) = false := by
        simp [INVALID_INDEX, INTERNAL_CAPACITY]; omega
      simp [clear, begin_abs h, iterNe, iterEq, cend, hne, e1, e']
/-! ## Front operations -/

theorem emplace_front_abs {l : forward_list T CAPACITY} {used : List (Nat × T)} {f : Nat}
    {fs : List Nat} (h : Abs l used (f :: fs)) (v : T) :
    ∃ l', emplace_front l v = Except.ok (l', true) ∧ Abs l' ((f, v) :: used) fs
      ∧ l'.addr = l.addr := by
  obtain ⟨l1, e1, h1, ha1⟩ := emplace_after_abs h 0 (Nat.zero_le _) (before_begin l) rfl
    (by simp [before_begin]) v
  have hb := h.bounds (i := f) (by simp)
  have hne : (INVALID_INDEX CAPACITY == f) = false := by
    simp [INVALID_INDEX, INTERNAL_CAPACITY]; omega
  refine ⟨l1, ?_, by simpa using h1, ha1⟩
  simp [emplace_front, e1, iterNe, iterEq, cend, ha1, hne]

theorem emplace_front_full {l : forward_list T CAPACITY} {used : List (Nat × T)}
    (h : Abs l used []) (v : T) : emplace_front l v = Except.ok (l, false) := by
  simp [emplace_front, emplace_after_full h (before_begin l) rfl v, iterNe, iterEq, cend]

theorem pop_front_abs {l : forward_list T CAPACITY} {u : Nat × T} {us : List (Nat × T)}
    {free : List Nat} (h : Abs l (u :: us) free) :
    ∃ l', pop_front l = Except.ok (l', true) ∧ Abs l' us (u.1 :: free) ∧ l'.addr = l.addr := by
  obtain ⟨l1, e1, h1, ha1⟩ := erase_after_abs h 0 (by simp) (before_begin l) rfl
    (by simp [before_begin])
  refine ⟨l1, ?_, by simpa using h1, ha1⟩
  have hs1 : l1.m_size = us.length := by simpa using h1.size
  have hs : l.m_size = us.length + 1 := by simpa using h.size
  simp [pop_front, e1, hs1, hs]

theorem pop_front_empty {l : forward_list T CAPACITY} {free : List Nat} (h : Abs l [] free) :
    pop_front l = Except.ok (l, false) := by
  have e1 := erase_after_noop h 0 (Nat.le_refl _) (before_begin l) rfl (by simp [before_begin])
  simp [pop_front, e1]

theorem emplace_front_wf {l l' : forward_list T CAPACITY} {b : Bool} {v : T}
    (h : WellFormed l) (he : emplace_front l v = Except.ok (l', b)) :
    WellFormed l' ∧ l'.addr = l.addr := by
  obtain ⟨used, free, ha⟩ := h
  cases free with
  | nil =>
    rw [emplace_front_full ha] at he
    cases he
    exact ⟨⟨_, _, ha⟩, rfl⟩
  | cons f fs =>
    obtain ⟨l1, e1, h1, ha1⟩ := emplace_front_abs ha v
    rw [e1] at he
    cases he
    exact ⟨⟨_, _, h1⟩, ha1⟩

theorem pop_front_wf {l l' : forward_list T CAPACITY} {b : Bool}
    (h : WellFormed l) (he : pop_front l = Except.ok (l', b)) :
    WellFormed l' ∧ l'.addr = l.addr := by
  obtain ⟨used, free, ha⟩ := h
  cases used with
  | nil =>
    rw [pop_front_empty ha] at he
    cases he
    exact ⟨⟨_, _, ha⟩, rfl⟩
  | cons u us =>
    obtain ⟨l1, e1, h1, ha1⟩ := pop_front_abs ha
    rw [e1] at he
    cases he
    exact ⟨⟨_, _, h1⟩, ha1⟩

theorem clear_wf {l l' : forward_list T CAPACITY} {fuel : Nat}
    (h : WellFormed l) (he : clear fuel l = Except.ok l') :
    WellFormed l' ∧ l'.addr = l.addr := by
  obtain ⟨used, free, ha⟩ := h
  obtain ⟨l1, e1, h1, ha1⟩ := clear_abs ha
  rw [e1] at he
  split at he
  · cases he; exact ⟨⟨_, _, h1⟩, ha1⟩
  · cases he

theorem construct_wf {l : forward_list T CAPACITY} {addr : Nat} {junk : Nat → Nat}
    (he : construct T CAPACITY addr junk = Except.ok l) : WellFormed l ∧ l.addr = addr := by
  obtain ⟨l1, e1, h1, ha1⟩ := @construct_abs T CAPACITY addr junk
  rw [e1] at he
  cases he
  exact ⟨⟨_, _, h1⟩, ha1⟩
/-! ## Operations at the boundary between a done part and a remaining part -/

theorem getElem_append_length {α : Type} (P : List α) (r : α) (R : List α)
    (h : P.length < (P ++ r :: R).length) : (P ++ r :: R)[P.length] = r := by
  induction P with
  | nil => rfl
  | cons p P ih => simpa using ih (by simp)

theorem set_append_length {α : Type} (P : List α) (r x : α) (R : List α) :
    (P ++ r :: R).set P.length x = P ++ x :: R := by
  induction P with
  | nil => rfl
  | cons p P ih => simp [ih]

theorem eraseIdx_append_length {α : Type} (P : List α) (r : α) (R : List α) :
    (P ++ r :: R).eraseIdx P.length = P ++ R := by
  induction P with
  | nil => rfl
  | cons p P ih => simpa using ih

theorem posAt_addr (l : forward_list T CAPACITY) (used : List (Nat × T)) (k : Nat) :
    (posAt l used k).m_list = l.addr := rfl

theorem posAt_zero (l : forward_list T CAPACITY) (used : List (Nat × T)) :
    posAt l used 0 = before_begin l := by
  simp [posAt, before_begin]

theorem posAt_append_succ (l : forward_list T CAPACITY) (P : List (Nat × T)) (r : Nat × T)
    (R : List (Nat × T)) :
    posAt l (P ++ r :: R) (P.length + 1) = iterator.mk l.addr r.1 := by
  have h := getElem_append_length (P.map Prod.fst) r.1 (R.map Prod.fst) (by simp)
  simp only [List.length_map] at h
  simp [posAt, h]

theorem posAt_congr (l l' : forward_list T CAPACITY) (used used' : List (Nat × T)) (k : Nat)
    (ha : l'.addr = l.addr) (hm : used'.map Prod.fst = used.map Prod.fst) :
    posAt l' used' k = posAt l used k := by
  simp [posAt, ha, hm]

theorem incr_posAt {l : forward_list T CAPACITY} {used : List (Nat × T)}
    {free : List Nat} (h : Abs l used free) (k : Nat) :
    incr l (posAt l used k) = Except.ok (posAt l used (k + 1)) :=
  incr_abs h k (posAt l used k) rfl

theorem deref_mid {l : forward_list T CAPACITY} {P R : List (Nat × T)} {r : Nat × T}
    {free : List Nat} (h : Abs l (P ++ r :: R) free) (a : Nat) :
    deref l (iterator.mk a r.1) = Except.ok r.2 := by
  have hk : P.length < (P ++ r :: R).length := by simp
  have := deref_abs h P.length hk (iterator.mk a r.1)
    (by simp [getElem_append_length P r R hk])
  simpa [getElem_append_length P r R hk] using this

theorem assignAt_mid {l : forward_list T CAPACITY} {P R : List (Nat × T)} {r : Nat × T}
    {free : List Nat} (h : Abs l (P ++ r :: R) free) (a : Nat) (v : T) :
    ∃ l', assignAt l (iterator.mk a r.1) v = Except.ok l' ∧ Abs l' (P ++ (r.1, v) :: R) free
      ∧ l'.addr = l.addr := by
  have hk : P.length < (P ++ r :: R).length := by simp
  obtain ⟨l', e, h', ha⟩ := assignAt_abs h P.length hk (iterator.mk a r.1)
    (by simp [getElem_append_length P r R hk]) v
  refine ⟨l', e, ?_, ha⟩
  simpa [getElem_append_length P r R hk, set_append_length] using h'

theorem emplace_after_last {l : forward_list T CAPACITY} {P : List (Nat × T)} {f : Nat}
    {fs : List Nat} (h : Abs l P (f :: fs)) (v : T) :
    ∃ l', emplace_after l (posAt l P P.length) v = Except.ok (l', iterator.mk l.addr f)
      ∧ Abs l' (P ++ [(f, v)]) fs ∧ l'.addr = l.addr := by
  obtain ⟨l', e, h', ha⟩ := emplace_after_abs h P.length (Nat.le_refl _) (posAt l P P.length)
    rfl rfl v
  exact ⟨l', e, by simpa using h', ha⟩

theorem erase_after_mid {l : forward_list T CAPACITY} {P R : List (Nat × T)} {r : Nat × T}
    {free : List Nat} (h : Abs l (P ++ r :: R) free) :
    ∃ l' it, erase_after l (posAt l (P ++ r :: R) P.length) = Except.ok (l', it)
      ∧ Abs l' (P ++ R) (r.1 :: free) ∧ l'.addr = l.addr := by
  have hk : P.length < (P ++ r :: R).length := by simp
  obtain ⟨l', e, h', ha⟩ := erase_after_abs h P.length hk (posAt l (P ++ r :: R) P.length)
    rfl rfl
  refine ⟨l', _, e, ?_, ha⟩
  simpa [getElem_append_length P r R hk, eraseIdx_append_length] using h'
/-! ## The loops of the assignment operators -/

theorem overwrite_fst : ∀ (us : List (Nat × T)) (vs : List T),
    (overwrite us vs).map Prod.fst = us.map Prod.fst
  | [], _ => by simp [overwrite]
  | _ :: _, [] => by simp [overwrite]
  | (s, _) :: us, v :: vs => by simp [overwrite, overwrite_fst us vs]

theorem overwrite_length (us : List (Nat × T)) (vs : List T) :
    (overwrite us vs).length = us.length := by
  have := congrArg List.length (overwrite_fst us vs)
  simpa using this

theorem copyAssignLoop_abs {rhs : forward_list T CAPACITY} {fa fb : List Nat}
    (R : List (Nat × T)) : ∀ (S P Q : List (Nat × T)) (i : Nat) (self : forward_list T CAPACITY),
    Abs self (P ++ R) fa → Abs rhs (Q ++ S) fb → P.length = i → Q.length = i →
    ∃ self', (∀ fuel, copyAssignLoop fuel i self rhs (posAt self (P ++ R) i)
          (posAt rhs (Q ++ S) i)
        = if min R.length S.length < fuel then
            Except.ok (i + min R.length S.length, self',
              posAt self (P ++ R) (i + min R.length S.length),
              posAt rhs (Q ++ S) (i + min R.length S.length))
          else Except.error Fault.outOfFuel)
      ∧ Abs self' (P ++ overwrite R (S.map Prod.snd)) fa ∧ self'.addr = self.addr := by
  induction R with
  | nil =>
    intro S P Q i self hs hr hP hQ
    refine ⟨self, ?_, by simpa [overwrite] using hs, rfl⟩
    intro fuel
    have h1 : self.size = i := by simp [size, hs.size, hP]
    cases fuel with
    | zero => simp [copyAssignLoop]
    | succ fuel => simp [copyAssignLoop, h1]
  | cons r R ih =>
    intro S P Q i self hs hr hP hQ
    cases S with
    | nil =>
      refine ⟨self, ?_, by simpa [overwrite] using hs, rfl⟩
      intro fuel
      have h1 : rhs.size = i := by simp [size, hr.size, hQ]
      cases fuel with
      | zero => simp [copyAssignLoop]
      | succ fuel => simp [copyAssignLoop, h1]
    | cons s S =>
      obtain ⟨self1, e1, hs1, ha1⟩ := assignAt_mid hs self.addr s.2
      have hs1' : Abs self1 ((P ++ [(r.1, s.2)]) ++ R) fa := by simpa using hs1
      have hr' : Abs rhs ((Q ++ [s]) ++ S) fb := by simpa using hr
      obtain ⟨self', e', hs', ha'⟩ := ih S (P ++ [(r.1, s.2)]) (Q ++ [s]) (i + 1) self1 hs1' hr'
        (by simp [hP]) (by simp [hQ])
      refine ⟨self', ?_, by simpa [overwrite] using hs', by rw [ha', ha1]⟩
      intro fuel
      have h1 : self.size = i + (R.length + 1) := by simp [size, hs.size, hP]
      have h2 : rhs.size = i + (S.length + 1) := by simp [size, hr.size, hQ]
      have hcond : i < min rhs.size self.size := by rw [h1, h2]; omega
      cases fuel with
      | zero => simp [copyAssignLoop]
      | succ fuel =>
        have hp1 : posAt self (P ++ r :: R) (i + 1) = iterator.mk self.addr r.1 := by
          rw [← hP]; exact posAt_append_succ self P r R
        have hq1 : posAt rhs (Q ++ s :: S) (i + 1) = iterator.mk rhs.addr s.1 := by
          rw [← hQ]; exact posAt_append_succ rhs Q s S
        have hp2 : posAt self1 ((P ++ [(r.1, s.2)]) ++ R) (i + 1) = iterator.mk self.addr r.1 := by
          rw [posAt_congr self self1 (P ++ r :: R) _ _ ha1 (by simp), hp1]
        have hq2 : posAt rhs ((Q ++ [s]) ++ S) (i + 1) = iterator.mk rhs.addr s.1 := by
          rw [← hq1]; simp
        have hp3 : ∀ k, posAt self1 ((P ++ [(r.1, s.2)]) ++ R) k = posAt self (P ++ r :: R) k :=
          fun k => posAt_congr self self1 (P ++ r :: R) _ _ ha1 (by simp)
        have hq3 : ∀ k, posAt rhs ((Q ++ [s]) ++ S) k = posAt rhs (Q ++ s :: S) k := by
          intro k; simp
        have e'' := e' fuel
        rw [hp2, hq2, hp3, hq3] at e''
        simp only [copyAssignLoop, hcond, if_true, incr_posAt hs, incr_posAt hr, hp1, hq1,
          ok_bind, deref_mid hr, e1, e'']
        have harith : i + 1 + min R.length S.length = i + min (R.length + 1) (S.length + 1) := by
          omega
        by_cases hf : min R.length S.length < fuel
        · have : min (R.length + 1) (S.length + 1) < fuel + 1 := by omega
          simp [hf, this, harith]
        · have : ¬ min (R.length + 1) (S.length + 1) < fuel + 1 := by omega
          simp [hf, this]
theorem copyEmplaceLoop_done {self rhs : forward_list T CAPACITY} {i : Nat}
    (h : rhs.m_size ≤ i) (iterThis citerRhs : iterator) (fuel : Nat) :
    copyEmplaceLoop fuel i self rhs iterThis citerRhs
      = if 0 < fuel then Except.ok (i, self, iterThis, citerRhs, [])
        else Except.error Fault.outOfFuel := by
  cases fuel with
  | zero => simp [copyEmplaceLoop]
  | succ fuel =>
    have : ¬ i < rhs.size := by simp [size]; omega
    simp [copyEmplaceLoop, this]

theorem copyEmplaceLoop_abs {rhs : forward_list T CAPACITY} {fb : List Nat}
    (S : List (Nat × T)) : ∀ (P Q : List (Nat × T)) (i : Nat) (self : forward_list T CAPACITY)
    (fa : List Nat),
    Abs self P fa → Abs rhs (Q ++ S) fb → P.length = i → Q.length = i →
    ∃ self' log, (∀ fuel, copyEmplaceLoop fuel i self rhs (posAt self P i)
          (posAt rhs (Q ++ S) i)
        = if S.length < fuel then
            Except.ok (i + S.length, self',
              posAt self' (P ++ List.zip (fa.take S.length) (S.map Prod.snd)) (i + S.length),
              posAt rhs (Q ++ S) (i + S.length), log)
          else Except.error Fault.outOfFuel)
      ∧ Abs self' (P ++ List.zip (fa.take S.length) (S.map Prod.snd)) (fa.drop S.length)
      ∧ self'.addr = self.addr ∧ log.length = S.length
      ∧ ∀ it ∈ log, it.m_list = self.addr ∧ it.m_iterListNodeIdx < INVALID_INDEX CAPACITY := by
  induction S with
  | nil =>
    intro P Q i self fa hs hr hP hQ
    refine ⟨self, [], ?_, by simpa using hs, rfl, rfl, by simp⟩
    intro fuel
    rw [copyEmplaceLoop_done (by simp [hr.size, hQ])]
    simp
  | cons s S ih =>
    intro P Q i self fa hs hr hP hQ
    cases fa with
    | nil =>
      exfalso
      have h1 := hs.length_add
      have h2 := hr.length_add
      simp at h1 h2
      omega
    | cons f fs =>
      obtain ⟨self1, e1, hs1, ha1⟩ := emplace_after_last hs s.2
      have hr' : Abs rhs ((Q ++ [s]) ++ S) fb := by simpa using hr
      obtain ⟨self', log, e', hs', ha', hlog, hall⟩ := ih (P ++ [(f, s.2)]) (Q ++ [s]) (i + 1)
        self1 fs hs1 hr' (by simp [hP]) (by simp [hQ])
      have hfb := hs.bounds (i := f) (by simp)
      refine ⟨self', iterator.mk self.addr f :: log, ?_, by simpa using hs', by rw [ha', ha1],
        by simp [hlog], ?_⟩
      · intro fuel
        have h2 : rhs.size = i + (S.length + 1) := by simp [size, hr.size, hQ]
        have hcond : i < rhs.size := by rw [h2]; omega
        cases fuel with
        | zero => simp [copyEmplaceLoop]
        | succ fuel =>
          have hq1 : posAt rhs (Q ++ s :: S) (i + 1) = iterator.mk rhs.addr s.1 := by
            rw [← hQ]; exact posAt_append_succ rhs Q s S
          have hp2 : posAt self1 (P ++ [(f, s.2)]) (i + 1) = iterator.mk self.addr f := by
            rw [← hP, posAt_append_succ self1 P (f, s.2) [], ha1]
          have hq2 : posAt rhs ((Q ++ [s]) ++ S) (i + 1) = iterator.mk rhs.addr s.1 := by
            rw [← hq1]; simp
          have hq3 : ∀ k, posAt rhs ((Q ++ [s]) ++ S) k = posAt rhs (Q ++ s :: S) k := by
            intro k; simp
          have e'' := e' fuel
          rw [hp2, hq2, hq3] at e''
          rw [hP] at e1
          simp only [copyEmplaceLoop, hcond, if_true, incr_posAt hr, hq1, ok_bind,
            deref_mid hr, e1, e'']
          by_cases hf : S.length < fuel
          · have : (s :: S).length < fuel + 1 := by simp; omega
            simp [hf, this, Nat.add_assoc, Nat.add_comm 1 S.length]
          · have : ¬ (s :: S).length < fuel + 1 := by simp; omega
            simp [hf, this]
      · intro it hit
        rcases List.mem_cons.1 hit with rfl | hit
        · exact ⟨rfl, hfb.2⟩
        · have := hall it hit
          rw [ha1] at this
          exact this
theorem posAt_append_left (l : forward_list T CAPACITY) (P X : List (Nat × T)) :
    posAt l (P ++ X) P.length = posAt l P P.length := by
  have h1 : ((BEFORE_BEGIN_USED_INDEX :: (P ++ X).map Prod.fst)[P.length]?)
      = ((BEFORE_BEGIN_USED_INDEX :: P.map Prod.fst)[P.length]?) := by
    rw [List.map_append, ← List.cons_append]
    rw [List.getElem?_append_left (by simp)]
  simp only [posAt, h1]

theorem eraseLoop_done {self : forward_list T CAPACITY} {i startSize : Nat}
    (h : startSize ≤ i) (iterThis : iterator) (fuel : Nat) :
    eraseLoop fuel i startSize self iterThis
      = if 0 < fuel then Except.ok self else Except.error Fault.outOfFuel := by
  cases fuel with
  | zero => simp [eraseLoop]
  | succ fuel =>
    have : ¬ i < startSize := by omega
    simp [eraseLoop, this]

theorem eraseLoop_abs {P : List (Nat × T)} (startSize : Nat) (R : List (Nat × T)) :
    ∀ (i : Nat) (self : forward_list T CAPACITY) (fa : List Nat),
    Abs self (P ++ R) fa → startSize = i + R.length →
    ∃ self', (∀ fuel, eraseLoop fuel i startSize self (posAt self P P.length)
        = if R.length < fuel then Except.ok self' else Except.error Fault.outOfFuel)
      ∧ Abs self' P ((R.map Prod.fst).reverse ++ fa) ∧ self'.addr = self.addr := by
  induction R with
  | nil =>
    intro i self fa hs hst
    refine ⟨self, ?_, by simpa using hs, rfl⟩
    intro fuel
    rw [eraseLoop_done (by simp at hst; omega)]
    simp
  | cons r R ih =>
    intro i self fa hs hst
    obtain ⟨self1, it, e1, hs1, ha1⟩ := erase_after_mid hs
    rw [posAt_append_left] at e1
    obtain ⟨self', e', hs', ha'⟩ := ih (i + 1) self1 (r.1 :: fa) hs1 (by simp at hst; omega)
    refine ⟨self', ?_, by simpa using hs', by rw [ha', ha1]⟩
    intro fuel
    cases fuel with
    | zero => simp [eraseLoop]
    | succ fuel =>
      have hcond : i < startSize := by simp at hst; omega
      have hpe : posAt self1 P P.length = posAt self P P.length :=
        posAt_congr self self1 P P _ ha1 rfl
      have e'' := e' fuel
      rw [hpe] at e''
      simp only [eraseLoop, hcond, if_true, e1, ok_bind, e'']
      simp
theorem overwrite_snd_take : ∀ (us : List (Nat × T)) (vs : List T),
    ((overwrite us vs).map Prod.snd).take (min us.length vs.length)
      = vs.take (min us.length vs.length)
  | [], _ => by simp [overwrite]
  | _ :: _, [] => by simp [overwrite]
  | (s, _) :: us, v :: vs => by
    have := overwrite_snd_take us vs
    simp only [overwrite, List.map_cons, List.length_cons, Nat.add_min_add_right,
      List.take_succ_cons, this]

/-- Copy assignment between distinct objects, in terms of the lists represented. -/
theorem copy_assign_abs {a b : forward_list T CAPACITY} {ua ub : List (Nat × T)}
    {fa fb : List Nat} (ha : Abs a ua fa) (hb : Abs b ub fb) (hne : a.addr ≠ b.addr) :
    ∃ a' log used' free' N, N ≤ max ua.length ub.length
      ∧ (∀ fuel, copy_assign fuel a b
          = if N < fuel then Except.ok (a', log) else Except.error Fault.outOfFuel)
      ∧ Abs a' used' free' ∧ a'.addr = a.addr
      ∧ used'.map Prod.snd = ub.map Prod.snd
      ∧ used'.map Prod.fst
          = (ua.map Prod.fst).take ub.length ++ fa.take (ub.length - ua.length)
      ∧ free' = ((ua.map Prod.fst).drop ub.length).reverse ++ fa.drop (ub.length - ua.length)
      ∧ log.length = ub.length - ua.length
      ∧ ∀ it ∈ log, it.m_list = a.addr ∧ it.m_iterListNodeIdx < INVALID_INDEX CAPACITY := by
  obtain ⟨a1, e1, h1, ad1⟩ := copyAssignLoop_abs ua ub [] [] 0 a ha hb rfl rfl
  simp only [List.nil_append, Nat.zero_add] at e1 h1
  have hov := overwrite_snd_take ua (ub.map Prod.snd)
  simp only [List.length_map] at hov
  by_cases hmn : ua.length ≤ ub.length
  · -- the target is not longer than the source: grow
    have hmin : min ua.length ub.length = ua.length := Nat.min_eq_left hmn
    rw [hmin] at e1 hov
    have hb' : Abs b (ub.take ua.length ++ ub.drop ua.length) fb := by
      rw [List.take_append_drop]; exact hb
    obtain ⟨a2, log, e2, h2, ad2, hlog, hall⟩ := copyEmplaceLoop_abs (ub.drop ua.length)
      (overwrite ua (ub.map Prod.snd)) (ub.take ua.length) ua.length a1 fa h1 hb'
      (overwrite_length _ _) (by simp [hmn])
    rw [List.take_append_drop] at e2
    rw [posAt_congr a a1 ua _ _ ad1 (overwrite_fst _ _)] at e2
    simp only [List.length_drop] at e2 h2 hlog
    have hfree : ub.length - ua.length ≤ fa.length := by
      have := ha.length_add; have := hb.length_add; omega
    have hz1 : (List.map Prod.snd (ub.drop ua.length)).length
        ≤ (fa.take (ub.length - ua.length)).length := by
      simp only [List.length_map, List.length_drop, List.length_take]; omega
    have hz2 : (fa.take (ub.length - ua.length)).length
        ≤ (List.map Prod.snd (ub.drop ua.length)).length := by
      simp only [List.length_map, List.length_drop, List.length_take]; omega
    refine ⟨a2, log, _, _, max ua.length (ub.length - ua.length), by omega, ?_, h2,
      by rw [ad2, ad1], ?_, ?_, ?_, hlog, by simpa [ad1] using hall⟩
    · intro fuel
      simp only [copy_assign, bne_iff_ne, ne_eq, hne, not_false_eq_true, if_true, size,
        ← posAt_zero a ua, ← posAt_zero b ub, e1]
      by_cases hf1 : ua.length < fuel
      · simp only [hf1, if_true, ok_bind, e2]
        by_cases hf2 : ub.length - ua.length < fuel
        · have hf3 : max ua.length (ub.length - ua.length) < fuel := by omega
          have hdone : a.m_size ≤ ua.length + (ub.length - ua.length) := by
            rw [ha.size]; omega
          have hpos : 0 < fuel := by omega
          simp only [hf2, if_true, ok_bind, eraseLoop_done hdone, hf3, hpos]
        · have hf3 : ¬ max ua.length (ub.length - ua.length) < fuel := by omega
          simp only [hf2, if_false, error_bind, hf3]
      · have hf3 : ¬ max ua.length (ub.length - ua.length) < fuel := by omega
        simp only [hf1, if_false, error_bind, hf3]
    · rw [List.map_append, List.map_snd_zip _ _ hz1, List.map_drop]
      have : (overwrite ua (ub.map Prod.snd)).map Prod.snd = (ub.map Prod.snd).take ua.length := by
        rw [← hov, List.take_of_length_le (by simp [overwrite_length])]
      rw [this, List.take_append_drop]
    · have ht : (ua.map Prod.fst).take ub.length = ua.map Prod.fst :=
        List.take_of_length_le (by simpa using hmn)
      rw [List.map_append, overwrite_fst, List.map_fst_zip _ _ hz2, ht]
    · have hd : (ua.map Prod.fst).drop ub.length = [] :=
        List.drop_eq_nil_of_le (by simpa using hmn)
      rw [hd]; rfl
  · -- the target is longer than the source: shrink
    have hmn' : ub.length < ua.length := Nat.lt_of_not_le hmn
    have hmin : min ua.length ub.length = ub.length := Nat.min_eq_right (Nat.le_of_lt hmn')
    rw [hmin] at e1 hov
    have h1' : Abs a1 ((overwrite ua (ub.map Prod.snd)).take ub.length
        ++ (overwrite ua (ub.map Prod.snd)).drop ub.length) fa := by
      rw [List.take_append_drop]; exact h1
    have hPlen : ((overwrite ua (ub.map Prod.snd)).take ub.length).length = ub.length := by
      simp [overwrite_length]; omega
    obtain ⟨a3, e3, h3, ad3⟩ := eraseLoop_abs ua.length
      ((overwrite ua (ub.map Prod.snd)).drop ub.length) ub.length a1 fa h1'
      (by simp [overwrite_length]; omega)
    rw [← posAt_append_left a1 _ ((overwrite ua (ub.map Prod.snd)).drop ub.length),
      List.take_append_drop, hPlen,
      posAt_congr a a1 ua _ _ ad1 (overwrite_fst _ _)] at e3
    simp only [List.length_drop, overwrite_length] at e3
    have hzero : ub.length - ua.length = 0 := by omega
    refine ⟨a3, [], _, _, max ub.length (ua.length - ub.length), by omega, ?_, h3,
      by rw [ad3, ad1], ?_, ?_, ?_, by simp; omega, by simp⟩
    · intro fuel
      simp only [copy_assign, bne_iff_ne, ne_eq, hne, not_false_eq_true, if_true, size,
        ← posAt_zero a ua, ← posAt_zero b ub, e1]
      by_cases hf1 : ub.length < fuel
      · have hpos : 0 < fuel := by omega
        simp only [hf1, if_true, ok_bind, copyEmplaceLoop_done (Nat.le_of_eq hb.size), hpos,
          ha.size, e3]
        by_cases hf2 : ua.length - ub.length < fuel
        · have hf3 : max ub.length (ua.length - ub.length) < fuel := by omega
          simp only [hf2, if_true, ok_bind, hf3]
        · have hf3 : ¬ max ub.length (ua.length - ub.length) < fuel := by omega
          simp only [hf2, if_false, error_bind, hf3]
      · have hf3 : ¬ max ub.length (ua.length - ub.length) < fuel := by omega
        simp only [hf1, if_false, error_bind, hf3]
    · rw [List.map_take, hov, List.take_of_length_le (by simp)]
    · rw [List.map_take, overwrite_fst, hzero, List.take_zero, List.append_nil]
    · rw [List.map_drop, overwrite_fst, hzero, List.drop_zero]
theorem moveAssignLoop_abs (moved : T → T) {fa fb : List Nat}
    (R : List (Nat × T)) : ∀ (S P Q : List (Nat × T)) (i : Nat)
    (self rhs : forward_list T CAPACITY),
    Abs self (P ++ R) fa → Abs rhs (Q ++ S) fb → P.length = i → Q.length = i →
    ∃ self' rhs', (∀ fuel, moveAssignLoop moved fuel i self rhs (posAt self (P ++ R) i)
          (posAt rhs (Q ++ S) i)
        = if min R.length S.length < fuel then
            Except.ok (i + min R.length S.length, self', rhs',
              posAt self (P ++ R) (i + min R.length S.length),
              posAt rhs (Q ++ S) (i + min R.length S.length))
          else Except.error Fault.outOfFuel)
      ∧ Abs self' (P ++ overwrite R (S.map Prod.snd)) fa ∧ self'.addr = self.addr
      ∧ Abs rhs' (Q ++ (S.take R.length).map (fun s => (s.1, moved s.2)) ++ S.drop R.length) fb
      ∧ rhs'.addr = rhs.addr := by
  induction R with
  | nil =>
    intro S P Q i self rhs hs hr hP hQ
    refine ⟨self, rhs, ?_, by simpa [overwrite] using hs, rfl, by simpa using hr, rfl⟩
    intro fuel
    have h1 : self.size = i := by simp [size, hs.size, hP]
    cases fuel with
    | zero => simp [moveAssignLoop]
    | succ fuel => simp [moveAssignLoop, h1]
  | cons r R ih =>
    intro S P Q i self rhs hs hr hP hQ
    cases S with
    | nil =>
      refine ⟨self, rhs, ?_, by simpa [overwrite] using hs, rfl, by simpa using hr, rfl⟩
      intro fuel
      have h1 : rhs.size = i := by simp [size, hr.size, hQ]
      cases fuel with
      | zero => simp [moveAssignLoop]
      | succ fuel => simp [moveAssignLoop, h1]
    | cons s S =>
      obtain ⟨self1, e1, hs1, ha1⟩ := assignAt_mid hs self.addr s.2
      obtain ⟨rhs1, f1, hr1, hb1⟩ := assignAt_mid hr rhs.addr (moved s.2)
      have hs1' : Abs self1 ((P ++ [(r.1, s.2)]) ++ R) fa := by simpa using hs1
      have hr1' : Abs rhs1 ((Q ++ [(s.1, moved s.2)]) ++ S) fb := by simpa using hr1
      obtain ⟨self', rhs', e', hs', ha', hr', hb'⟩ := ih S (P ++ [(r.1, s.2)])
        (Q ++ [(s.1, moved s.2)]) (i + 1) self1 rhs1 hs1' hr1' (by simp [hP]) (by simp [hQ])
      refine ⟨self', rhs', ?_, by simpa [overwrite] using hs', by rw [ha', ha1],
        by simpa using hr', by rw [hb', hb1]⟩
      intro fuel
      have h1 : self.size = i + (R.length + 1) := by simp [size, hs.size, hP]
      have h2 : rhs.size = i + (S.length + 1) := by simp [size, hr.size, hQ]
      have hcond : i < min rhs.size self.size := by rw [h1, h2]; omega
      cases fuel with
      | zero => simp [moveAssignLoop]
      | succ fuel =>
        have hp1 : posAt self (P ++ r :: R) (i + 1) = iterator.mk self.addr r.1 := by
          rw [← hP]; exact posAt_append_succ self P r R
        have hq1 : posAt rhs (Q ++ s :: S) (i + 1) = iterator.mk rhs.addr s.1 := by
          rw [← hQ]; exact posAt_append_succ rhs Q s S
        have hp3 : ∀ k, posAt self1 ((P ++ [(r.1, s.2)]) ++ R) k = posAt self (P ++ r :: R) k :=
          fun k => posAt_congr self self1 (P ++ r :: R) _ _ ha1 (by simp)
        have hq3 : ∀ k, posAt rhs1 ((Q ++ [(s.1, moved s.2)]) ++ S) k
            = posAt rhs (Q ++ s :: S) k :=
          fun k => posAt_congr rhs rhs1 (Q ++ s :: S) _ _ hb1 (by simp)
        have e'' := e' fuel
        rw [hp3, hq3, hp3, hq3, hp1, hq1] at e''
        simp only [moveAssignLoop, hcond, if_true, incr_posAt hs, incr_posAt hr, hp1, hq1,
          ok_bind, deref_mid hr, e1, f1, e'']
        have harith : i + 1 + min R.length S.length = i + min (R.length + 1) (S.length + 1) := by
          omega
        by_cases hf : min R.length S.length < fuel
        · have : min (R.length + 1) (S.length + 1) < fuel + 1 := by omega
          simp [hf, this, harith]
        · have : ¬ min (R.length + 1) (S.length + 1) < fuel + 1 := by omega
          simp [hf, this]
theorem moveEmplaceLoop_done (moved : T → T) {self rhs : forward_list T CAPACITY} {i : Nat}
    (h : rhs.m_size ≤ i) (iterThis iterRhs : iterator) (fuel : Nat) :
    moveEmplaceLoop moved fuel i self rhs iterThis iterRhs
      = if 0 < fuel then Except.ok (i, self, rhs, iterThis, iterRhs, [])
        else Except.error Fault.outOfFuel := by
  cases fuel with
  | zero => simp [moveEmplaceLoop]
  | succ fuel =>
    have : ¬ i < rhs.size := by simp [size]; omega
    simp [moveEmplaceLoop, this]

theorem moveEmplaceLoop_abs (moved : T → T) {fb : List Nat}
    (S : List (Nat × T)) : ∀ (P Q : List (Nat × T)) (i : Nat)
    (self rhs : forward_list T CAPACITY) (fa : List Nat),
    Abs self P fa → Abs rhs (Q ++ S) fb → P.length = i → Q.length = i →
    ∃ self' rhs' log, (∀ fuel, moveEmplaceLoop moved fuel i self rhs (posAt self P i)
          (posAt rhs (Q ++ S) i)
        = if S.length < fuel then
            Except.ok (i + S.length, self', rhs',
              posAt self' (P ++ List.zip (fa.take S.length) (S.map Prod.snd)) (i + S.length),
              posAt rhs (Q ++ S) (i + S.length), log)
          else Except.error Fault.outOfFuel)
      ∧ Abs self' (P ++ List.zip (fa.take S.length) (S.map Prod.snd)) (fa.drop S.length)
      ∧ self'.addr = self.addr
      ∧ Abs rhs' (Q ++ S.map (fun s => (s.1, moved s.2))) fb ∧ rhs'.addr = rhs.addr
      ∧ log.length = S.length
      ∧ ∀ it ∈ log, it.m_list = self.addr ∧ it.m_iterListNodeIdx < INVALID_INDEX CAPACITY := by
  induction S with
  | nil =>
    intro P Q i self rhs fa hs hr hP hQ
    refine ⟨self, rhs, [], ?_, by simpa using hs, rfl, by simpa using hr, rfl, rfl, by simp⟩
    intro fuel
    rw [moveEmplaceLoop_done moved (by simp [hr.size, hQ])]
    simp
  | cons s S ih =>
    intro P Q i self rhs fa hs hr hP hQ
    cases fa with
    | nil =>
      exfalso
      have h1 := hs.length_add
      have h2 := hr.length_add
      simp at h1 h2
      omega
    | cons f fs =>
      obtain ⟨self1, e1, hs1, ha1⟩ := emplace_after_last hs s.2
      obtain ⟨rhs1, f1, hr1, hb1⟩ := assignAt_mid hr rhs.addr (moved s.2)
      have hr1' : Abs rhs1 ((Q ++ [(s.1, moved s.2)]) ++ S) fb := by simpa using hr1
      obtain ⟨self', rhs', log, e', hs', ha', hr', hb', hlog, hall⟩ := ih (P ++ [(f, s.2)])
        (Q ++ [(s.1, moved s.2)]) (i + 1) self1 rhs1 fs hs1 hr1' (by simp [hP]) (by simp [hQ])
      have hfb := hs.bounds (i := f) (by simp)
      refine ⟨self', rhs', iterator.mk self.addr f :: log, ?_, by simpa using hs',
        by rw [ha', ha1], by simpa using hr', by rw [hb', hb1], by simp [hlog], ?_⟩
      · intro fuel
        have h2 : rhs.size = i + (S.length + 1) := by simp [size, hr.size, hQ]
        have hcond : i < rhs.size := by rw [h2]; omega
        cases fuel with
        | zero => simp [moveEmplaceLoop]
        | succ fuel =>
          have hq1 : posAt rhs (Q ++ s :: S) (i + 1) = iterator.mk rhs.addr s.1 := by
            rw [← hQ]; exact posAt_append_succ rhs Q s S
          have hp2 : posAt self1 (P ++ [(f, s.2)]) (i + 1) = iterator.mk self.addr f := by
            rw [← hP, posAt_append_succ self1 P (f, s.2) [], ha1]
          have hq3 : ∀ k, posAt rhs1 ((Q ++ [(s.1, moved s.2)]) ++ S) k
              = posAt rhs (Q ++ s :: S) k :=
            fun k => posAt_congr rhs rhs1 (Q ++ s :: S) _ _ hb1 (by simp)
          have hfne : (f == INVALID_INDEX CAPACITY) = false := by
            simp [INVALID_INDEX, INTERNAL_CAPACITY]; omega
          have e'' := e' fuel
          rw [hp2, hq3, hq3, hq1] at e''
          rw [hP] at e1
          simp only [moveEmplaceLoop, hcond, if_true, incr_posAt hr, hq1, ok_bind,
            deref_mid hr, e1, hfne, Bool.false_eq_true, if_false, f1, e'']
          by_cases hf : S.length < fuel
          · have : (s :: S).length < fuel + 1 := by simp; omega
            simp [hf, this, Nat.add_assoc, Nat.add_comm 1 S.length]
          · have : ¬ (s :: S).length < fuel + 1 := by simp; omega
            simp [hf, this]
      · intro it hit
        rcases List.mem_cons.1 hit with rfl | hit
        · exact ⟨rfl, hfb.2⟩
        · have := hall it hit
          rw [ha1] at this
          exact this
/-- Move assignment between distinct objects, in terms of the lists represented. -/
theorem move_assign_abs (moved : T → T) {a b : forward_list T CAPACITY}
    {ua ub : List (Nat × T)} {fa fb : List Nat} (ha : Abs a ua fa) (hb : Abs b ub fb)
    (hne : a.addr ≠ b.addr) :
    ∃ a' b' log used' free' N, N ≤ max ua.length ub.length
      ∧ (∀ fuel, move_assign moved fuel a b
          = if N < fuel then Except.ok (a', b', log) else Except.error Fault.outOfFuel)
      ∧ Abs a' used' free' ∧ a'.addr = a.addr
      ∧ used'.map Prod.snd = ub.map Prod.snd
      ∧ used'.map Prod.fst
          = (ua.map Prod.fst).take ub.length ++ fa.take (ub.length - ua.length)
      ∧ free' = ((ua.map Prod.fst).drop ub.length).reverse ++ fa.drop (ub.length - ua.length)
      ∧ Abs b' [] ((ub.map Prod.fst).reverse ++ fb) ∧ b'.addr = b.addr
      ∧ log.length = ub.length - ua.length
      ∧ ∀ it ∈ log, it.m_list = a.addr ∧ it.m_iterListNodeIdx < INVALID_INDEX CAPACITY := by
  obtain ⟨a1, b1, e1, h1, ad1, hb1, bd1⟩ := moveAssignLoop_abs moved ua ub [] [] 0 a b ha hb
    rfl rfl
  simp only [List.nil_append, Nat.zero_add] at e1 h1 hb1
  have hov := overwrite_snd_take ua (ub.map Prod.snd)
  simp only [List.length_map] at hov
  have hfst1 : ((ub.take ua.length).map (fun s => (s.1, moved s.2)) ++ ub.drop ua.length).map
      Prod.fst = ub.map Prod.fst := by
    rw [List.map_append, List.map_map]
    have : (Prod.fst ∘ fun (s : Nat × T) => (s.1, moved s.2)) = Prod.fst := rfl
    rw [this, ← List.map_append, List.take_append_drop]
  by_cases hmn : ua.length ≤ ub.length
  · -- the target is not longer than the source: grow
    have hmin : min ua.length ub.length = ua.length := Nat.min_eq_left hmn
    rw [hmin] at e1 hov
    obtain ⟨a2, b2, log, e2, h2, ad2, hb2, bd2, hlog, hall⟩ := moveEmplaceLoop_abs moved
      (ub.drop ua.length) (overwrite ua (ub.map Prod.snd))
      ((ub.take ua.length).map (fun s => (s.1, moved s.2))) ua.length a1 b1 fa h1 hb1
      (overwrite_length _ _) (by simp [hmn])
    rw [posAt_congr b b1 ub _ _ bd1 hfst1, posAt_congr a a1 ua _ _ ad1 (overwrite_fst _ _)] at e2
    simp only [List.length_drop] at e2 h2 hlog
    obtain ⟨b3, e3, hb3, bd3⟩ := clear_abs hb2
    have hlen2 : ((ub.take ua.length).map (fun s => (s.1, moved s.2))
        ++ (ub.drop ua.length).map (fun s => (s.1, moved s.2))).length = ub.length := by
      simp only [List.length_append, List.length_map, List.length_take, List.length_drop]; omega
    have hfst2 : ((ub.take ua.length).map (fun s => (s.1, moved s.2))
        ++ (ub.drop ua.length).map (fun s => (s.1, moved s.2))).map Prod.fst
        = ub.map Prod.fst := by
      rw [← List.map_append, List.take_append_drop, List.map_map]; rfl
    rw [hlen2] at e3
    rw [hfst2] at hb3
    have hfree : ub.length - ua.length ≤ fa.length := by
      have := ha.length_add; have := hb.length_add; omega
    have hz1 : (List.map Prod.snd (ub.drop ua.length)).length
        ≤ (fa.take (ub.length - ua.length)).length := by
      simp only [List.length_map, List.length_drop, List.length_take]; omega
    have hz2 : (fa.take (ub.length - ua.length)).length
        ≤ (List.map Prod.snd (ub.drop ua.length)).length := by
      simp only [List.length_map, List.length_drop, List.length_take]; omega
    refine ⟨a2, b3, log, _, _, ub.length, by omega, ?_, h2,
      by rw [ad2, ad1], ?_, ?_, ?_, hb3, by rw [bd3, bd2, bd1], hlog, by simpa [ad1] using hall⟩
    · intro fuel
      simp only [move_assign, bne_iff_ne, ne_eq, hne, not_false_eq_true, if_true, size,
        ← posAt_zero a ua, ← posAt_zero b ub, e1]
      by_cases hf : ub.length < fuel
      · have hf1 : ua.length < fuel := by omega
        have hf2 : ub.length - ua.length < fuel := by omega
        have hdone : a.m_size ≤ ua.length + (ub.length - ua.length) := by
          rw [ha.size]; omega
        have hpos : 0 < fuel := by omega
        simp only [hf1, if_true, ok_bind, e2, hf2, eraseLoop_done hdone, hpos, e3, hf]
      · by_cases hf1 : ua.length < fuel
        · simp only [hf1, if_true, ok_bind, e2]
          by_cases hf2 : ub.length - ua.length < fuel
          · have hdone : a.m_size ≤ ua.length + (ub.length - ua.length) := by
              rw [ha.size]; omega
            have hpos : 0 < fuel := by omega
            simp only [hf2, if_true, ok_bind, eraseLoop_done hdone, hpos, e3, hf, if_false,
              error_bind]
          · simp only [hf2, if_false, error_bind, hf]
        · simp only [hf1, if_false, error_bind, hf]
    · rw [List.map_append, List.map_snd_zip _ _ hz1, List.map_drop]
      have : (overwrite ua (ub.map Prod.snd)).map Prod.snd = (ub.map Prod.snd).take ua.length := by
        rw [← hov, List.take_of_length_le (by simp [overwrite_length])]
      rw [this, List.take_append_drop]
    · have ht : (ua.map Prod.fst).take ub.length = ua.map Prod.fst :=
        List.take_of_length_le (by simpa using hmn)
      rw [List.map_append, overwrite_fst, List.map_fst_zip _ _ hz2, ht]
    · have hd : (ua.map Prod.fst).drop ub.length = [] :=
        List.drop_eq_nil_of_le (by simpa using hmn)
      rw [hd]; rfl
  · -- the target is longer than the source: shrink
    have hmn' : ub.length < ua.length := Nat.lt_of_not_le hmn
    have hmin : min ua.length ub.length = ub.length := Nat.min_eq_right (Nat.le_of_lt hmn')
    rw [hmin] at e1 hov
    have h1' : Abs a1 ((overwrite ua (ub.map Prod.snd)).take ub.length
        ++ (overwrite ua (ub.map Prod.snd)).drop ub.length) fa := by
      rw [List.take_append_drop]; exact h1
    have hPlen : ((overwrite ua (ub.map Prod.snd)).take ub.length).length = ub.length := by
      simp [overwrite_length]; omega
    obtain ⟨a3, e3, h3, ad3⟩ := eraseLoop_abs ua.length
      ((overwrite ua (ub.map Prod.snd)).drop ub.length) ub.length a1 fa h1'
      (by simp [overwrite_length]; omega)
    rw [← posAt_append_left a1 _ ((overwrite ua (ub.map Prod.snd)).drop ub.length),
      List.take_append_drop, hPlen,
      posAt_congr a a1 ua _ _ ad1 (overwrite_fst _ _)] at e3
    simp only [List.length_drop, overwrite_length] at e3
    obtain ⟨b3, f3, hb3, bd3⟩ := clear_abs hb1
    have hlen1 : ((ub.take ua.length).map (fun s => (s.1, moved s.2))
        ++ ub.drop ua.length).length = ub.length := by
      simp only [List.length_append, List.length_map, List.length_take, List.length_drop]; omega
    rw [hlen1] at f3
    rw [hfst1] at hb3
    have hzero : ub.length - ua.length = 0 := by omega
    have hsz1 : b1.m_size ≤ ub.length := by rw [hb1.size, hlen1]
    refine ⟨a3, b3, [], _, _, max ub.length (ua.length - ub.length), by omega, ?_, h3,
      by rw [ad3, ad1], ?_, ?_, ?_, hb3, by rw [bd3, bd1], by simp; omega, by simp⟩
    · intro fuel
      simp only [move_assign, bne_iff_ne, ne_eq, hne, not_false_eq_true, if_true, size,
        ← posAt_zero a ua, ← posAt_zero b ub, e1]
      by_cases hf1 : ub.length < fuel
      · have hpos : 0 < fuel := by omega
        simp only [hf1, if_true, ok_bind, moveEmplaceLoop_done moved hsz1, hpos,
          ha.size, e3, f3]
        by_cases hf2 : ua.length - ub.length < fuel
        · have hf3 : max ub.length (ua.length - ub.length) < fuel := by omega
          simp only [hf2, if_true, ok_bind, hf3]
        · have hf3 : ¬ max ub.length (ua.length - ub.length) < fuel := by omega
          simp only [hf2, if_false, error_bind, hf3]
      · have hf3 : ¬ max ub.length (ua.length - ub.length) < fuel := by omega
        simp only [hf1, if_false, error_bind, hf3]
    · rw [List.map_take, hov, List.take_of_length_le (by simp)]
    · rw [List.map_take, overwrite_fst, hzero, List.take_zero, List.append_nil]
    · rw [List.map_drop, overwrite_fst, hzero, List.drop_zero]
/-! ## Every reachable state is well formed -/

theorem copy_assign_wf {a b a' : forward_list T CAPACITY} {fuel : Nat} {log : List iterator}
    (ha : WellFormed a) (hb : WellFormed b)
    (he : copy_assign fuel a b = Except.ok (a', log)) : WellFormed a' ∧ a'.addr = a.addr := by
  by_cases hne : a.addr = b.addr
  · simp [copy_assign, hne] at he
    obtain ⟨rfl, _⟩ := he
    exact ⟨ha, rfl⟩
  · obtain ⟨ua, fa, ha⟩ := ha
    obtain ⟨ub, fb, hb⟩ := hb
    obtain ⟨a1, log1, used', free', N, _, e, h1, ad1, _⟩ := copy_assign_abs ha hb hne
    rw [e] at he
    split at he
    · cases he; exact ⟨⟨_, _, h1⟩, ad1⟩
    · cases he

theorem move_assign_wf {a b a' b' : forward_list T CAPACITY} {moved : T → T} {fuel : Nat}
    {log : List iterator} (ha : WellFormed a) (hb : WellFormed b)
    (he : move_assign moved fuel a b = Except.ok (a', b', log)) :
    (WellFormed a' ∧ a'.addr = a.addr) ∧ (WellFormed b' ∧ b'.addr = b.addr) := by
  by_cases hne : a.addr = b.addr
  · simp [move_assign, hne] at he
    obtain ⟨rfl, rfl, _⟩ := he
    exact ⟨⟨ha, rfl⟩, ⟨hb, rfl⟩⟩
  · obtain ⟨ua, fa, ha⟩ := ha
    obtain ⟨ub, fb, hb⟩ := hb
    obtain ⟨a1, b1, log1, used', free', N, _, e, h1, ad1, _, _, _, hb1, bd1, _⟩ :=
      move_assign_abs moved ha hb hne
    rw [e] at he
    split at he
    · cases he; exact ⟨⟨⟨_, _, h1⟩, ad1⟩, ⟨⟨_, _, hb1⟩, bd1⟩⟩
    · cases he

theorem copy_construct_wf {b a' : forward_list T CAPACITY} {fuel addr : Nat}
    {junk : Nat → Nat} {log : List iterator} (hb : WellFormed b)
    (he : copy_construct fuel addr junk b = Except.ok (a', log)) :
    WellFormed a' ∧ a'.addr = addr := by
  obtain ⟨l0, e0, h0, ad0⟩ := @construct_abs T CAPACITY addr junk
  simp only [construct] at e0
  simp only [copy_construct, e0, ok_bind] at he
  obtain ⟨h, ad⟩ := copy_assign_wf ⟨_, _, h0⟩ hb he
  exact ⟨h, by rw [ad, ad0]⟩

theorem move_construct_wf {b a' b' : forward_list T CAPACITY} {moved : T → T}
    {fuel addr : Nat} {junk : Nat → Nat} {log : List iterator} (hb : WellFormed b)
    (he : move_construct moved fuel addr junk b = Except.ok (a', b', log)) :
    (WellFormed a' ∧ a'.addr = addr) ∧ (WellFormed b' ∧ b'.addr = b.addr) := by
  obtain ⟨l0, e0, h0, ad0⟩ := @construct_abs T CAPACITY addr junk
  simp only [construct] at e0
  simp only [move_construct, e0, ok_bind] at he
  cases hm : move_assign moved fuel l0 b with
  | error e => simp [hm] at he
  | ok r =>
    obtain ⟨a1, b1, log1⟩ := r
    obtain ⟨⟨h1, ad1⟩, ⟨h2, ad2⟩⟩ := move_assign_wf ⟨_, _, h0⟩ hb hm
    simp only [hm, ok_bind] at he
    cases hc : clear fuel b1 with
    | error e => simp [hc] at he
    | ok b2 =>
      obtain ⟨h3, ad3⟩ := clear_wf h2 hc
      simp only [hc, ok_bind] at he
      cases he
      exact ⟨⟨h1, by rw [ad1, ad0]⟩, ⟨h3, by rw [ad3, ad2]⟩⟩

theorem Reachable.wellFormed {l : forward_list T CAPACITY} (h : Reachable l) : WellFormed l := by
  induction h with
  | construct addr junk l e => exact (construct_wf e).1
  | emplace_after l k pos v l' it _ hp he ih => exact (emplace_after_wf ih k pos it v hp he).1
  | insert_after l k pos v l' it _ hp he ih => exact (emplace_after_wf ih k pos it v hp he).1
  | emplace_front l v l' b _ he ih => exact (emplace_front_wf ih he).1
  | push_front l v l' b _ he ih => exact (emplace_front_wf ih he).1
  | erase_after l k pos l' it _ hp he ih => exact (erase_after_wf ih k pos it hp he).1
  | pop_front l l' b _ he ih => exact (pop_front_wf ih he).1
  | clear l fuel l' _ he ih => exact (clear_wf ih he).1
  | assign l k pos v l' _ hp he ih => exact (assignAt_wf ih k pos v hp he).1
  | copy_assign a b fuel a' log _ _ he iha ihb => exact (copy_assign_wf iha ihb he).1
  | copy_construct b fuel addr junk a' log _ he ih => exact (copy_construct_wf ih he).1
  | move_assign_target a b moved fuel a' b' log _ _ he iha ihb =>
    exact (move_assign_wf iha ihb he).1.1
  | move_assign_source a b moved fuel a' b' log _ _ he iha ihb =>
    exact (move_assign_wf iha ihb he).2.1
  | move_construct_target b moved fuel addr junk a' b' log _ he ih =>
    exact (move_construct_wf ih he).1.1
  | move_construct_source b moved fuel addr junk a' b' log _ he ih =>
    exact (move_construct_wf ih he).2.1
/-! ## Caller loops -/

theorem insert_chain_abs (vs : List T) : ∀ (l : forward_list T CAPACITY) (P : List (Nat × T))
    (fa : List Nat), Abs l P fa → vs.length ≤ fa.length →
    ∃ l', insert_chain l (posAt l P P.length) vs
        = Except.ok (l', (fa.take vs.length).map (iterator.mk l.addr))
      ∧ Abs l' (P ++ List.zip (fa.take vs.length) vs) (fa.drop vs.length)
      ∧ l'.addr = l.addr := by
  induction vs with
  | nil =>
    intro l P fa h _
    exact ⟨l, by simp [insert_chain], by simpa using h, rfl⟩
  | cons v vs ih =>
    intro l P fa h hlen
    cases fa with
    | nil => simp at hlen
    | cons f fs =>
      obtain ⟨l1, e1, h1, a1⟩ := emplace_after_last h v
      obtain ⟨l', e', h', a'⟩ := ih l1 (P ++ [(f, v)]) fs h1 (by simpa using hlen)
      have hp : posAt l1 (P ++ [(f, v)]) (P ++ [(f, v)]).length = iterator.mk l.addr f := by
        have := posAt_append_succ l1 P (f, v) []
        simpa [a1] using this
      rw [hp] at e'
      refine ⟨l', ?_, by simpa using h', by rw [a', a1]⟩
      simp [insert_chain, insert_after, e1, e', a1]

theorem run_front_abs (ops : List (FrontOp T)) : ∀ (l : forward_list T CAPACITY),
    WellFormed l →
    ∃ l' bs, run_front l ops = Except.ok (l', bs) ∧ WellFormed l' ∧ l'.addr = l.addr
      ∧ bs.length = ops.length
      ∧ l'.m_size + performedPops ops bs = l.m_size + acceptedPushes ops bs := by
  induction ops with
  | nil =>
    intro l h
    exact ⟨l, [], rfl, h, rfl, rfl, by simp [performedPops, acceptedPushes]⟩
  | cons op ops ih =>
    intro l h
    obtain ⟨used, free, ha⟩ := h
    cases op with
    | push v =>
      cases free with
      | nil =>
        obtain ⟨l', bs, e', h', a', hl, hs⟩ := ih l ⟨_, _, ha⟩
        refine ⟨l', false :: bs, ?_, h', a', by simp [hl], ?_⟩
        · simp [run_front, push_front, emplace_front_full ha, e']
        · simpa [performedPops, acceptedPushes] using hs
      | cons f fs =>
        obtain ⟨l1, e1, h1, a1⟩ := emplace_front_abs ha v
        obtain ⟨l', bs, e', h', a', hl, hs⟩ := ih l1 ⟨_, _, h1⟩
        refine ⟨l', true :: bs, ?_, h', by rw [a', a1], by simp [hl], ?_⟩
        · simp [run_front, push_front, e1, e']
        · have s1 : l1.m_size = l.m_size + 1 := by rw [h1.size, ha.size]; simp
          simp only [performedPops, acceptedPushes, if_true]
          omega
    | pop =>
      cases used with
      | nil =>
        obtain ⟨l', bs, e', h', a', hl, hs⟩ := ih l ⟨_, _, ha⟩
        refine ⟨l', false :: bs, ?_, h', a', by simp [hl], ?_⟩
        · simp [run_front, pop_front_empty ha, e']
        · simpa [performedPops, acceptedPushes] using hs
      | cons u us =>
        obtain ⟨l1, e1, h1, a1⟩ := pop_front_abs ha
        obtain ⟨l', bs, e', h', a', hl, hs⟩ := ih l1 ⟨_, _, h1⟩
        refine ⟨l', true :: bs, ?_, h', by rw [a', a1], by simp [hl], ?_⟩
        · simp [run_front, e1, e']
        · have s1 : l1.m_size + 1 = l.m_size := by rw [h1.size, ha.size]; simp
          simp only [performedPops, acceptedPushes, if_true]
          omega

theorem WellFormed.size_le {l : forward_list T CAPACITY} (h : WellFormed l) :
    l.m_size ≤ CAPACITY := by
  obtain ⟨used, free, ha⟩ := h
  have := ha.length_add
  rw [ha.size]; omega

theorem run_front_pushes (vs : List T) : ∀ (l : forward_list T CAPACITY) (used : List (Nat × T))
    (free : List Nat), Abs l used free → vs.length ≤ free.length →
    ∃ l', run_front l (vs.map FrontOp.push) = Except.ok (l', List.replicate vs.length true)
      ∧ Abs l' (List.zip (free.take vs.length).reverse vs.reverse ++ used) (free.drop vs.length)
      ∧ l'.addr = l.addr := by
  induction vs with
  | nil =>
    intro l used free h _
    exact ⟨l, rfl, by simpa using h, rfl⟩
  | cons v vs ih =>
    intro l used free h hlen
    cases free with
    | nil => simp at hlen
    | cons f fs =>
      obtain ⟨l1, e1, h1, a1⟩ := emplace_front_abs h v
      obtain ⟨l', e', h', a'⟩ := ih l1 ((f, v) :: used) fs h1 (by simpa using hlen)
      refine ⟨l', ?_, ?_, by rw [a', a1]⟩
      · simp [run_front, push_front, e1, e', List.replicate_succ]
      · have hl : (fs.take vs.length).reverse.length = vs.reverse.length := by
          simp at hlen; simp; omega
        simpa [List.zip_append hl] using h'

theorem run_front_pops (n : Nat) : ∀ (l : forward_list T CAPACITY) (used : List (Nat × T))
    (free : List Nat), Abs l used free → n ≤ used.length →
    ∃ l', run_front l (List.replicate n FrontOp.pop) = Except.ok (l', List.replicate n true)
      ∧ Abs l' (used.drop n) (((used.take n).map Prod.fst).reverse ++ free)
      ∧ l'.addr = l.addr := by
  induction n with
  | zero =>
    intro l used free h _
    exact ⟨l, rfl, by simpa using h, rfl⟩
  | succ n ih =>
    intro l used free h hlen
    cases used with
    | nil => simp at hlen
    | cons u us =>
      obtain ⟨l1, e1, h1, a1⟩ := pop_front_abs h
      obtain ⟨l', e', h', a'⟩ := ih l1 us (u.1 :: free) h1 (by simpa using hlen)
      refine ⟨l', ?_, by simpa using h', by rw [a', a1]⟩
      simp [run_front, e1, e', List.replicate_succ]
/-! ## Example states -/

theorem exampleEmpty_reachable : Reachable exampleEmpty :=
  Reachable.construct 0 (fun _ => 0) exampleEmpty rfl

theorem exampleOne_reachable : Reachable exampleOne :=
  Reachable.push_front exampleEmpty 7 exampleOne true exampleEmpty_reachable rfl

theorem exampleFull_reachable : Reachable exampleFull :=
  Reachable.push_front exampleOne 8 exampleFull true exampleOne_reachable rfl

theorem exampleOther_reachable : Reachable exampleOther :=
  Reachable.push_front ⟨1, [⟨none, 4⟩, ⟨none, 2⟩, ⟨none, 3⟩, ⟨none, 4⟩], 0⟩ 5 exampleOther true
    (Reachable.construct 1 (fun _ => 0) _ rfl) rfl

/-! ## The claims -/

/-- C1: in a reachable state that is not full, for the position `pos` reached
from `before_begin()` by `k ≤ size()` increments (`before_begin()` itself for
`k = 0`, otherwise the iterator to the `k`-th element), `emplace_after(pos, v)`
returns normally; forward iteration over the new list yields the old sequence
with `v` inserted right after position `k` (at the front for `k = 0`), `size()`
has grown by one, and the returned iterator differs from `end()` and
dereferences to `v`. -/
theorem C1_emplace_after_splices (l : forward_list T CAPACITY) (hr : Reachable l)
    (hnf : full l = false) (k : Nat) (hk : k ≤ size l) (v : T) :
    ∃ pos old l' it,
      advance l k (before_begin l) = Except.ok pos
      ∧ toList l = Except.ok old
      ∧ emplace_after l pos v = Except.ok (l', it)
      ∧ toList l' = Except.ok (old.take k ++ v :: old.drop k)
      ∧ size l' = size l + 1
      ∧ iterNe it (cend l') = Except.ok true
      ∧ deref l' it = Except.ok v := by
  obtain ⟨used, free, ha⟩ := hr.wellFormed
  have hk' : k ≤ used.length := by simpa [size, ha.size] using hk
  cases free with
  | nil =>
    have := ha.length_add
    simp [full, ha.size] at hnf this
    omega
  | cons f fs =>
    obtain ⟨l', e, ha', ad⟩ := emplace_after_abs ha k hk' (posAt l used k) rfl rfl v
    have hfb := ha.bounds (i := f) (by simp)
    have hne : (f == INVALID_INDEX CAPACITY) = false := by
      simp [INVALID_INDEX, INTERNAL_CAPACITY]; omega
    refine ⟨posAt l used k, used.map Prod.snd, l', iterator.mk l.addr f,
      advance_before_begin ha k, toList_abs ha, e, ?_, ?_, ?_, ?_⟩
    · rw [toList_abs ha']; simp [List.map_take, List.map_drop]
    · simp [size, ha'.size, ha.size]; omega
    · simp [iterNe, iterEq, cend, ad, hne]
    · have hlen : k < (used.take k ++ (f, v) :: used.drop k).length := by simp; omega
      have := deref_abs ha' k hlen (iterator.mk l.addr f)
        (by simp [List.getElem_append_right, List.length_take, Nat.min_eq_left hk'])
      simpa [List.getElem_append_right, List.length_take, Nat.min_eq_left hk'] using this

/-- Witness for C1: inserting `9` after the only element of `exampleOne`. -/
theorem C1_emplace_after_splices_witness :
    Reachable exampleOne ∧ full exampleOne = false ∧ 1 ≤ size exampleOne
    ∧ ∃ pos old l' it,
      advance exampleOne 1 (before_begin exampleOne) = Except.ok pos
      ∧ toList exampleOne = Except.ok old
      ∧ emplace_after exampleOne pos 9 = Except.ok (l', it)
      ∧ toList l' = Except.ok (old.take 1 ++ 9 :: old.drop 1)
      ∧ size l' = size exampleOne + 1
      ∧ iterNe it (cend l') = Except.ok true
      ∧ deref l' it = Except.ok 9 :=
  ⟨exampleOne_reachable, rfl, Nat.le_refl 1,
    C1_emplace_after_splices exampleOne exampleOne_reachable rfl 1 (Nat.le_refl 1) 9⟩

/-- C2: in a reachable state that is full, for every iterator `pos` bound to this
list, `emplace_after(pos, v)` and `insert_after(pos, v)` return `end()`,
`emplace_front(v)` and `push_front(v)` return `false`, and the container after
the call is the container before it (same `m_size`, same link and same stored
object in every slot). -/
theorem C2_full_list_rejects_insertion (l : forward_list T CAPACITY) (hr : Reachable l)
    (hf : full l = true) (pos : iterator) (hp : pos.m_list = l.addr) (v : T) :
    emplace_after l pos v = Except.ok (l, cend l)
    ∧ insert_after l pos v = Except.ok (l, cend l)
    ∧ emplace_front l v = Except.ok (l, false)
    ∧ push_front l v = Except.ok (l, false) := by
  obtain ⟨used, free, ha⟩ := hr.wellFormed
  cases free with
  | cons f fs =>
    have := ha.length_add
    simp [full, ha.size] at hf this
    omega
  | nil =>
    exact ⟨emplace_after_full ha pos hp v, emplace_after_full ha pos hp v,
      emplace_front_full ha v, emplace_front_full ha v⟩

/-- Witness for C2: `exampleFull` rejects an insertion after its first element. -/
theorem C2_full_list_rejects_insertion_witness :
    Reachable exampleFull ∧ full exampleFull = true
    ∧ (iterator.mk 0 3).m_list = exampleFull.addr
    ∧ emplace_after exampleFull (iterator.mk 0 3) 9 = Except.ok (exampleFull, cend exampleFull)
    ∧ insert_after exampleFull (iterator.mk 0 3) 9 = Except.ok (exampleFull, cend exampleFull)
    ∧ emplace_front exampleFull 9 = Except.ok (exampleFull, false)
    ∧ push_front exampleFull 9 = Except.ok (exampleFull, false) :=
  ⟨exampleFull_reachable, rfl, rfl,
    C2_full_list_rejects_insertion exampleFull exampleFull_reachable rfl (iterator.mk 0 3) rfl 9⟩
/-- C3, counterexample: `exampleOne` is reachable and not empty, the iterator
to its only element is a position of the list other than `end()`, and
`erase_after` at that position returns `end()` and the unchanged list: nothing
is unlinked, `size()` is still `1`, not `size() - 1 = 0`, and the list still
holds its element. -/
theorem C3_erase_after_counterexample :
    Reachable exampleOne ∧ empty exampleOne = false
    ∧ advance exampleOne 1 (before_begin exampleOne) = Except.ok (iterator.mk 0 2)
    ∧ iterNe (iterator.mk 0 2) (cend exampleOne) = Except.ok true
    ∧ deref exampleOne (iterator.mk 0 2) = Except.ok 7
    ∧ erase_after exampleOne (iterator.mk 0 2) = Except.ok (exampleOne, cend exampleOne)
    ∧ size exampleOne ≠ size exampleOne - 1
    ∧ toList exampleOne = Except.ok [7] :=
  ⟨exampleOne_reachable, rfl, rfl, rfl, rfl, rfl, by decide, rfl⟩

/-- C3, amended: in a reachable state, for the position `pos` reached from
`before_begin()` by `k < size()` increments (so `pos` is `before_begin()` or an
iterator to an element that is not the last one, and the element `erased`
following `pos` exists), `erase_after(pos)` returns normally; forward iteration
over the new list yields the old sequence without its entry at index `k`,
`size()` has dropped by exactly one, the returned iterator is the one now
following `pos` (`end()` if there is none), the slot of the erased element is
the new head of the free chain with the old free chain behind it, and no
position of the new used chain carries that slot. -/
theorem C3_erase_after_unlinks (l : forward_list T CAPACITY) (hr : Reachable l)
    (k : Nat) (hk : k < size l) :
    ∃ pos erased old l' it,
      advance l k (before_begin l) = Except.ok pos
      ∧ advance l (k + 1) (before_begin l) = Except.ok erased
      ∧ toList l = Except.ok old
      ∧ erase_after l pos = Except.ok (l', it)
      ∧ toList l' = Except.ok (old.eraseIdx k)
      ∧ size l' + 1 = size l
      ∧ advance l' (k + 1) (before_begin l') = Except.ok it
      ∧ getNextIdx l' BEFORE_BEGIN_FREE_INDEX = Except.ok erased.m_iterListNodeIdx
      ∧ getNextIdx l' erased.m_iterListNodeIdx = getNextIdx l BEFORE_BEGIN_FREE_INDEX
      ∧ ∀ j, ∃ p, advance l' j (before_begin l') = Except.ok p
          ∧ p.m_iterListNodeIdx ≠ erased.m_iterListNodeIdx := by
  obtain ⟨used, free, ha⟩ := hr.wellFormed
  have hk' : k < used.length := by simpa [size, ha.size] using hk
  obtain ⟨l', e, ha', ad⟩ := erase_after_abs ha k hk' (posAt l used k) rfl rfl
  have hem : used[k].1 ∈ used.map Prod.fst := List.mem_map_of_mem _ (List.getElem_mem _)
  have heb := ha.bounds (List.mem_append_left free hem)
  have herased : posAt l used (k + 1) = iterator.mk l.addr used[k].1 := by
    simp [posAt, List.getElem?_eq_getElem hk']
  refine ⟨posAt l used k, iterator.mk l.addr used[k].1, used.map Prod.snd, l', _,
    advance_before_begin ha k, ?_, toList_abs ha, e, ?_, ?_, ?_, ?_, ?_, ?_⟩
  · rw [← herased]; exact advance_before_begin ha (k + 1)
  · rw [toList_abs ha', map_eraseIdx]
  · simp only [size, ha'.size, ha.size, List.length_eraseIdx, hk', if_true]; omega
  · rw [advance_before_begin ha' (k + 1), ad]
    simp only [List.getElem?_cons_succ, map_eraseIdx, List.getElem?_eraseIdx, lt_self_iff_false,
      if_false]
  · have := ha'.freeChain.1
    simp only [getNextIdx_eq, this]
  · have h1 := ha'.freeChain.2.head
    have h2 := ha.freeChain.head
    simp only [getNextIdx_eq, h1, h2]
  · intro j
    refine ⟨_, advance_before_begin ha' j, ?_⟩
    simp only
    intro hc
    by_cases hj : j ≤ (used.eraseIdx k).length
    · have hm := getD_getElem?_mem BEFORE_BEGIN_USED_INDEX (INVALID_INDEX CAPACITY)
        ((used.eraseIdx k).map Prod.fst) j (by simpa using hj)
      rw [hc] at hm
      rcases List.mem_cons.1 hm with h0 | hm
      · simp [BEFORE_BEGIN_USED_INDEX] at h0; omega
      · exact ha'.disjoint hm (by simp)
    · rw [List.getElem?_eq_none (by simp at hj ⊢; omega)] at hc
      simp [INVALID_INDEX, INTERNAL_CAPACITY] at hc
      omega

/-- Witness for C3 (amended): erasing after `before_begin()` in `exampleFull`. -/
theorem C3_erase_after_unlinks_witness :
    Reachable exampleFull ∧ 0 < size exampleFull
    ∧ ∃ pos erased old l' it,
      advance exampleFull 0 (before_begin exampleFull) = Except.ok pos
      ∧ advance exampleFull (0 + 1) (before_begin exampleFull) = Except.ok erased
      ∧ toList exampleFull = Except.ok old
      ∧ erase_after exampleFull pos = Except.ok (l', it)
      ∧ toList l' = Except.ok (old.eraseIdx 0)
      ∧ size l' + 1 = size exampleFull
      ∧ advance l' (0 + 1) (before_begin l') = Except.ok it
      ∧ getNextIdx l' BEFORE_BEGIN_FREE_INDEX = Except.ok erased.m_iterListNodeIdx
      ∧ getNextIdx l' erased.m_iterListNodeIdx = getNextIdx exampleFull BEFORE_BEGIN_FREE_INDEX
      ∧ ∀ j, ∃ p, advance l' j (before_begin l') = Except.ok p
          ∧ p.m_iterListNodeIdx ≠ erased.m_iterListNodeIdx :=
  ⟨exampleFull_reachable, by decide,
    C3_erase_after_unlinks exampleFull exampleFull_reachable 0 (by decide)⟩
/-- The chain invariant over calls that return normally: in every state reached
from construction through public calls that returned, there are two
duplicate-free lists of slots, `us` and `fs`, such that following the links
from the used-chain sentinel visits exactly `us` and then the terminal marker,
following the links from the free-chain sentinel visits exactly `fs` and then
the terminal marker (so both walks end: neither chain has a cycle), the chains
hold element slots only, and every element slot is on exactly one of them.
`emplace_after` at `end()` on a list that is not full does not return, so no
state after it is covered here. -/
theorem chains_partition_of_reachable (l : forward_list T CAPACITY) (hr : Reachable l) :
    ∃ us fs : List Nat,
      Links (nextOf l) BEFORE_BEGIN_USED_INDEX us (INVALID_INDEX CAPACITY)
      ∧ Links (nextOf l) BEFORE_BEGIN_FREE_INDEX fs (INVALID_INDEX CAPACITY)
      ∧ us.Nodup ∧ fs.Nodup
      ∧ (∀ i ∈ us ++ fs, isValidElementIndex CAPACITY i = true)
      ∧ ∀ i, isValidElementIndex CAPACITY i = true →
          (i ∈ us ∧ i ∉ fs) ∨ (i ∉ us ∧ i ∈ fs) := by
  obtain ⟨used, free, ha⟩ := hr.wellFormed
  have hnd := List.nodup_append.1 ha.nodup
  refine ⟨used.map Prod.fst, free, ha.usedChain, ha.freeChain, hnd.1, hnd.2.1,
    fun i hi => isValidElementIndex_abs ha hi, ?_⟩
  intro i hi
  have hmem : i ∈ used.map Prod.fst ++ free := by
    rw [ha.perm.mem_iff, List.mem_range']
    simp [isValidElementIndex, isValidIteratorIndex, INVALID_INDEX, INTERNAL_CAPACITY,
      BEFORE_BEGIN_USED_INDEX, BEFORE_BEGIN_FREE_INDEX] at hi
    exact ⟨i - 2, by omega, by omega⟩
  rcases List.mem_append.1 hmem with h | h
  · exact Or.inl ⟨h, fun h' => ha.disjoint h h'⟩
  · exact Or.inr ⟨fun h' => ha.disjoint h' h, h⟩

/-- The chain invariant at `exampleOne`. -/
theorem chains_partition_of_reachable_example :
    Reachable exampleOne
    ∧ ∃ us fs : List Nat,
      Links (nextOf exampleOne) BEFORE_BEGIN_USED_INDEX us (INVALID_INDEX 2)
      ∧ Links (nextOf exampleOne) BEFORE_BEGIN_FREE_INDEX fs (INVALID_INDEX 2)
      ∧ us.Nodup ∧ fs.Nodup
      ∧ (∀ i ∈ us ++ fs, isValidElementIndex 2 i = true)
      ∧ ∀ i, isValidElementIndex 2 i = true →
          (i ∈ us ∧ i ∉ fs) ∨ (i ∉ us ∧ i ∈ fs) :=
  ⟨exampleOne_reachable, chains_partition_of_reachable exampleOne exampleOne_reachable⟩

/-- C4, the code at the failing input.  `exampleEmpty` is reachable and not
full, its chains are as `init` leaves them (no used slot, free slots 2 and 3),
and `end()` is bound to it.  `emplace_after(end(), 9)` reads the free head
(slot 2) and its link, relinks the free-chain sentinel to slot 3 and constructs
`9` in slot 2, which leaves the store `exampleTorn`; the next step reads the
link of the position, slot index 4 of a store of 4 slots, so the call does not
return normally and slot 2 is never linked behind any position.  In
`exampleTorn` forward iteration visits no slot and the free chain visits slot 3
only; every walk from the used-chain sentinel to the terminal marker is empty
and every walk from the free-chain sentinel is `[3]`: the element slot 2 is on
neither chain. -/
theorem C4_emplace_after_end_orphans_a_slot :
    Reachable exampleEmpty ∧ full exampleEmpty = false
    ∧ usedSlots exampleEmpty = Except.ok [] ∧ freeSlots exampleEmpty = Except.ok [2, 3]
    ∧ (cend exampleEmpty).m_list = exampleEmpty.addr
    ∧ (cend exampleEmpty).m_iterListNodeIdx = INVALID_INDEX 2
    ∧ (getNextIdx exampleEmpty BEFORE_BEGIN_FREE_INDEX >>= fun toBeAddedIdx =>
        getNextIdx exampleEmpty toBeAddedIdx >>= fun newNodeNext =>
        setNextIdx exampleEmpty BEFORE_BEGIN_FREE_INDEX newNodeNext >>= fun l1 =>
        setData l1 toBeAddedIdx (some 9)) = Except.ok exampleTorn
    ∧ getNextIdx exampleTorn (cend exampleEmpty).m_iterListNodeIdx
        = Except.error Fault.outOfBounds
    ∧ emplace_after exampleEmpty (cend exampleEmpty) 9 = Except.error Fault.outOfBounds
    ∧ isValidElementIndex 2 2 = true
    ∧ usedSlots exampleTorn = Except.ok [] ∧ freeSlots exampleTorn = Except.ok [3]
    ∧ ∀ us fs : List Nat,
        Links (nextOf exampleTorn) BEFORE_BEGIN_USED_INDEX us (INVALID_INDEX 2) →
        Links (nextOf exampleTorn) BEFORE_BEGIN_FREE_INDEX fs (INVALID_INDEX 2) →
        us = [] ∧ fs = [3] ∧ 2 ∉ us ∧ 2 ∉ fs := by
  refine ⟨exampleEmpty_reachable, rfl, rfl, rfl, rfl, rfl, rfl, rfl, rfl, rfl, rfl, rfl, ?_⟩
  intro us fs hu hf
  have h4 : ∀ xs : List Nat, ¬ Links (nextOf exampleTorn) 4 xs (INVALID_INDEX 2) := by
    intro xs h
    cases xs with
    | nil => exact absurd (show (none : Option Nat) = some (INVALID_INDEX 2) from h) (by simp)
    | cons y ys => exact absurd (show (none : Option Nat) = some y from h.1) (by simp)
  have eu : us = [] := by
    cases us with
    | nil => rfl
    | cons x xs =>
      have hx : (some 4 : Option Nat) = some x := hu.1
      have hx' : x = 4 := by simpa using hx.symm
      subst hx'
      exact absurd hu.2 (h4 xs)
  have ef : fs = [3] := by
    cases fs with
    | nil =>
      have hx : (some 3 : Option Nat) = some (INVALID_INDEX 2) := hf
      simp [INVALID_INDEX, INTERNAL_CAPACITY] at hx
    | cons x xs =>
      have hx : (some 3 : Option Nat) = some x := hf.1
      have hx' : x = 3 := by simpa using hx.symm
      subst hx'
      cases xs with
      | nil => rfl
      | cons y ys =>
        have hy : (some 4 : Option Nat) = some y := hf.2.1
        have hy' : y = 4 := by simpa using hy.symm
        subst hy'
        exact absurd hf.2.2 (h4 ys)
  subst eu; subst ef
  exact ⟨rfl, rfl, by simp, by simp⟩

/-- C5: in every reachable state the walk along the links from the used-chain
sentinel to the terminal marker visits exactly `size()` slots; `begin()` returns
normally; the cursor reached from it by `k < size()` increments carries a valid
element index and compares unequal to `end()`; the cursor reached by exactly
`size()` increments is `end()`; and `begin() == end()` holds exactly when the
list is empty. -/
theorem C5_size_counts_used_chain (l : forward_list T CAPACITY) (hr : Reachable l) :
    ∃ b, begin l = Except.ok b
      ∧ (∃ us, Links (nextOf l) BEFORE_BEGIN_USED_INDEX us (INVALID_INDEX CAPACITY)
          ∧ us.length = size l)
      ∧ (∀ k, k < size l → ∃ it, advance l k b = Except.ok it
          ∧ isValidElementIndex CAPACITY it.m_iterListNodeIdx = true
          ∧ iterEq it (cend l) = Except.ok false)
      ∧ advance l (size l) b = Except.ok (cend l)
      ∧ (iterEq b (cend l) = Except.ok true ↔ empty l = true) := by
  obtain ⟨used, free, ha⟩ := hr.wellFormed
  have hb : begin l = Except.ok (posAt l used 1) := by
    rw [begin_abs ha]; simp [posAt]
  have hadv : ∀ k, advance l k (posAt l used 1) = Except.ok (posAt l used (1 + k)) :=
    fun k => advance_abs ha k 1 (posAt l used 1) rfl
  refine ⟨posAt l used 1, hb, ⟨_, ha.usedChain, by simp [size, ha.size]⟩, ?_, ?_, ?_⟩
  · intro k hk
    have hk' : k < used.length := by simpa [size, ha.size] using hk
    have hem : used[k].1 ∈ used.map Prod.fst := List.mem_map_of_mem _ (List.getElem_mem _)
    have hidx : (posAt l used (1 + k)).m_iterListNodeIdx = used[k].1 := by
      simp [posAt, Nat.add_comm 1 k, List.getElem?_eq_getElem hk']
    have hb := ha.bounds (List.mem_append_left free hem)
    refine ⟨_, hadv k, ?_, ?_⟩
    · rw [hidx]; exact isValidElementIndex_abs ha (List.mem_append_left free hem)
    · have hne : (used[k].1 == INVALID_INDEX CAPACITY) = false := by
        simp [INVALID_INDEX, INTERNAL_CAPACITY]; omega
      simp only [iterEq, posAt_addr, cend, bne_self_eq_false, Bool.false_eq_true, if_false,
        hidx, hne]
  · rw [hadv]
    simp [posAt, cend, size, ha.size, Nat.add_comm 1 used.length]
  · cases used with
    | nil => simp [iterEq, posAt, cend, empty, ha.size]
    | cons u us =>
      have hb := ha.bounds (i := u.1) (by simp)
      have hne : ¬ u.1 = INVALID_INDEX CAPACITY := by
        simp [INVALID_INDEX, INTERNAL_CAPACITY]; omega
      simp [iterEq, posAt, cend, empty, ha.size, hne]

/-- Witness for C5: iterating over `exampleFull`. -/
theorem C5_size_counts_used_chain_witness :
    Reachable exampleFull
    ∧ ∃ b, begin exampleFull = Except.ok b
      ∧ (∃ us, Links (nextOf exampleFull) BEFORE_BEGIN_USED_INDEX us (INVALID_INDEX 2)
          ∧ us.length = size exampleFull)
      ∧ (∀ k, k < size exampleFull → ∃ it, advance exampleFull k b = Except.ok it
          ∧ isValidElementIndex 2 it.m_iterListNodeIdx = true
          ∧ iterEq it (cend exampleFull) = Except.ok false)
      ∧ advance exampleFull (size exampleFull) b = Except.ok (cend exampleFull)
      ∧ (iterEq b (cend exampleFull) = Except.ok true ↔ empty exampleFull = true) :=
  ⟨exampleFull_reachable, C5_size_counts_used_chain exampleFull exampleFull_reachable⟩

/-- C6: starting from a reachable empty list (in particular a newly constructed
one), for values `vs` no more numerous than the capacity, the successive
`insert_after` calls, the first anchored at `before_begin()` and each later one
at the iterator returned by the previous call, all return normally, every
returned iterator differs from `end()`, and forward iteration over the result
yields exactly `vs` in order. -/
theorem C6_insert_after_chain_keeps_order (l : forward_list T CAPACITY) (hr : Reachable l)
    (hempty : empty l = true) (vs : List T) (hlen : vs.length ≤ CAPACITY) :
    ∃ l' its, insert_chain l (before_begin l) vs = Except.ok (l', its)
      ∧ its.length = vs.length
      ∧ (∀ it ∈ its, iterNe it (cend l') = Except.ok true)
      ∧ toList l' = Except.ok vs
      ∧ size l' = vs.length := by
  obtain ⟨used, free, ha⟩ := hr.wellFormed
  have hu : used = [] := by
    have : used.length = 0 := by simpa [empty, ha.size] using hempty
    exact List.length_eq_zero.1 this
  subst hu
  have hfl : free.length = CAPACITY := by simpa using ha.length_add
  obtain ⟨l', e, ha', ad⟩ := insert_chain_abs vs l [] free ha (by omega)
  rw [List.length_nil, posAt_zero] at e
  have hz : vs.length ≤ (free.take vs.length).length := by
    simp only [List.length_take]; omega
  refine ⟨l', _, e, by simp only [List.length_map, List.length_take]; omega, ?_, ?_, ?_⟩
  · intro it hit
    obtain ⟨f, hf, rfl⟩ := List.mem_map.1 hit
    have hb := ha.bounds (i := f) (List.mem_append_right _ (List.mem_of_mem_take hf))
    have hne : (f == INVALID_INDEX CAPACITY) = false := by
      simp [INVALID_INDEX, INTERNAL_CAPACITY]; omega
    simp [iterNe, iterEq, cend, ad, hne]
  · rw [toList_abs ha', List.nil_append, List.map_snd_zip _ _ hz]
  · simp only [size, ha'.size, List.nil_append, List.length_zip, List.length_take]; omega

/-- Witness for C6: inserting `1, 2` into `exampleEmpty`. -/
theorem C6_insert_after_chain_keeps_order_witness :
    Reachable exampleEmpty ∧ empty exampleEmpty = true ∧ [1, 2].length ≤ 2
    ∧ ∃ l' its, insert_chain exampleEmpty (before_begin exampleEmpty) [1, 2] = Except.ok (l', its)
      ∧ its.length = [1, 2].length
      ∧ (∀ it ∈ its, iterNe it (cend l') = Except.ok true)
      ∧ toList l' = Except.ok [1, 2]
      ∧ size l' = [1, 2].length :=
  ⟨exampleEmpty_reachable, rfl, by decide,
    C6_insert_after_chain_keeps_order exampleEmpty exampleEmpty_reachable rfl [1, 2] (by decide)⟩
theorem abs_empty_facts {l : forward_list T CAPACITY} {free : List Nat} (h : Abs l [] free) :
    size l = 0 ∧ begin l = Except.ok (cend l) ∧ toList l = Except.ok []
    ∧ Links (nextOf l) BEFORE_BEGIN_FREE_INDEX free (INVALID_INDEX CAPACITY) ∧ free.Nodup
    ∧ ∀ i, isValidElementIndex CAPACITY i = true → i ∈ free := by
  refine ⟨by simpa [size] using h.size, by simp [begin_abs h, cend], by simpa using toList_abs h,
    h.freeChain, by simpa using h.nodup, ?_⟩
  intro i hi
  have : i ∈ ([] : List (Nat × T)).map Prod.fst ++ free := by
    rw [h.perm.mem_iff, List.mem_range']
    simp [isValidElementIndex, isValidIteratorIndex, INVALID_INDEX, INTERNAL_CAPACITY,
      BEFORE_BEGIN_USED_INDEX, BEFORE_BEGIN_FREE_INDEX] at hi
    exact ⟨i - 2, by omega, by omega⟩
  simpa using this

theorem iterNe_cend_of_lt {l : forward_list T CAPACITY} {it : iterator}
    (h : it.m_list = l.addr ∧ it.m_iterListNodeIdx < INVALID_INDEX CAPACITY) :
    iterNe it (cend l) = Except.ok true := by
  have hne : (it.m_iterListNodeIdx == INVALID_INDEX CAPACITY) = false := by
    simp; omega
  simp [iterNe, iterEq, cend, h.1, hne]

/-- C7: for reachable lists `a` (target, of any length) and `b` (source) that
are distinct objects or one and the same, copy assignment `a = b` with enough
fuel for its loops returns normally and leaves `a` with the size of `b` and the
same values in the same iteration order; every `emplace_after` call made by the
assignment returned an iterator different from `end()`, and there were exactly
`b.size() - a.size()` such calls.  The same holds for copy construction from `b`
at a fresh address.  (`b` is passed by reference to const: it is an input of the
embedded function and not part of its result.) -/
theorem C7_copy_assignment_copies (a b : forward_list T CAPACITY) (ha : Reachable a)
    (hb : Reachable b) (halias : a.addr = b.addr → a = b) (fuel : Nat)
    (hfuel : max (size a) (size b) < fuel) :
    ∃ vs a' log, toList b = Except.ok vs
      ∧ copy_assign fuel a b = Except.ok (a', log)
      ∧ size a' = size b ∧ toList a' = Except.ok vs
      ∧ (∀ it ∈ log, iterNe it (cend a') = Except.ok true)
      ∧ log.length = size b - size a
      ∧ ∀ (addr : Nat) (junk : Nat → Nat), addr ≠ b.addr →
          ∃ c log', copy_construct fuel addr junk b = Except.ok (c, log')
            ∧ size c = size b ∧ toList c = Except.ok vs
            ∧ (∀ it ∈ log', iterNe it (cend c) = Except.ok true)
            ∧ log'.length = size b := by
  obtain ⟨ua, fa, ha⟩ := ha.wellFormed
  obtain ⟨ub, fb, hb⟩ := hb.wellFormed
  have hsa : size a = ua.length := ha.size
  have hsb : size b = ub.length := hb.size
  rw [hsa, hsb] at hfuel
  have hctor : ∀ (addr : Nat) (junk : Nat → Nat), addr ≠ b.addr →
      ∃ c log', copy_construct fuel addr junk b = Except.ok (c, log')
        ∧ size c = size b ∧ toList c = Except.ok (ub.map Prod.snd)
        ∧ (∀ it ∈ log', iterNe it (cend c) = Except.ok true)
        ∧ log'.length = size b := by
    intro addr junk hne
    obtain ⟨l0, e0, h0, ad0⟩ := @construct_abs T CAPACITY addr junk
    simp only [construct] at e0
    obtain ⟨c, log', used', free', N, hN, e, hc, adc, hsnd, _, _, hlog, hall⟩ :=
      copy_assign_abs h0 hb (by rw [ad0]; exact hne)
    simp only [List.length_nil, Nat.zero_max] at hN
    refine ⟨c, log', ?_, ?_, ?_, ?_, ?_⟩
    · simp only [copy_construct, e0, ok_bind, e]
      rw [if_pos (by omega)]
    · have := congrArg List.length hsnd
      simp only [List.length_map] at this
      rw [hsb, ← this]; exact hc.size
    · rw [toList_abs hc, hsnd]
    · intro it hit
      exact iterNe_cend_of_lt (by rw [adc]; exact hall it hit)
    · rw [hlog, hsb]; rfl
  by_cases hne : a.addr = b.addr
  · have hab := halias hne
    subst hab
    refine ⟨ub.map Prod.snd, a, [], toList_abs hb, by simp [copy_assign], rfl, toList_abs hb,
      by simp, by simp, hctor⟩
  · obtain ⟨a', log, used', free', N, hN, e, hc, adc, hsnd, _, _, hlog, hall⟩ :=
      copy_assign_abs ha hb hne
    refine ⟨ub.map Prod.snd, a', log, toList_abs hb, ?_, ?_, ?_, ?_, ?_, hctor⟩
    · rw [e, if_pos (by omega)]
    · have := congrArg List.length hsnd
      simp only [List.length_map] at this
      rw [hsb, ← this]; exact hc.size
    · rw [toList_abs hc, hsnd]
    · intro it hit
      exact iterNe_cend_of_lt (by rw [adc]; exact hall it hit)
    · rw [hlog, hsa, hsb]

/-- Witness for C7: assigning the full `exampleFull` to the one-element
`exampleOther`, a distinct object. -/
theorem C7_copy_assignment_copies_witness :
    Reachable exampleOther ∧ Reachable exampleFull
    ∧ (exampleOther.addr = exampleFull.addr → exampleOther = exampleFull)
    ∧ max (size exampleOther) (size exampleFull) < 3
    ∧ ∃ vs a' log, toList exampleFull = Except.ok vs
      ∧ copy_assign 3 exampleOther exampleFull = Except.ok (a', log)
      ∧ size a' = size exampleFull ∧ toList a' = Except.ok vs
      ∧ (∀ it ∈ log, iterNe it (cend a') = Except.ok true)
      ∧ log.length = size exampleFull - size exampleOther
      ∧ ∀ (addr : Nat) (junk : Nat → Nat), addr ≠ exampleFull.addr →
          ∃ c log', copy_construct 3 addr junk exampleFull = Except.ok (c, log')
            ∧ size c = size exampleFull ∧ toList c = Except.ok vs
            ∧ (∀ it ∈ log', iterNe it (cend c) = Except.ok true)
            ∧ log'.length = size exampleFull :=
  ⟨exampleOther_reachable, exampleFull_reachable, fun h => absurd h (by decide), by decide,
    C7_copy_assignment_copies exampleOther exampleFull exampleOther_reachable
      exampleFull_reachable (fun h => absurd h (by decide)) 3 (by decide)⟩
/-- C8: for distinct reachable lists `a` (destination, of any length) and `b`
(source), move assignment `a = std::move(b)` with enough fuel for its loops
returns normally, leaves `b` with `size() == 0`, `begin() == end()` and every
element slot on its free chain, and leaves `a` with the former size of `b` and
the former values of `b` in their original iteration order, whatever residue
`moved v` the element type leaves in a moved-from object.  The same holds for
move construction from `b` at a fresh address. -/
theorem C8_move_assignment_moves (moved : T → T) (a b : forward_list T CAPACITY)
    (ha : Reachable a) (hb : Reachable b) (hne : a.addr ≠ b.addr) (fuel : Nat)
    (hfuel : max (size a) (size b) < fuel) :
    ∃ vs a' b' log, toList b = Except.ok vs
      ∧ move_assign moved fuel a b = Except.ok (a', b', log)
      ∧ size b' = 0 ∧ begin b' = Except.ok (cend b') ∧ toList b' = Except.ok []
      ∧ (∃ fs, Links (nextOf b') BEFORE_BEGIN_FREE_INDEX fs (INVALID_INDEX CAPACITY) ∧ fs.Nodup
          ∧ ∀ i, isValidElementIndex CAPACITY i = true → i ∈ fs)
      ∧ size a' = size b ∧ toList a' = Except.ok vs
      ∧ ∀ (addr : Nat) (junk : Nat → Nat), addr ≠ b.addr →
          ∃ c b'' log', move_construct moved fuel addr junk b = Except.ok (c, b'', log')
            ∧ size b'' = 0 ∧ begin b'' = Except.ok (cend b'') ∧ toList b'' = Except.ok []
            ∧ (∃ fs, Links (nextOf b'') BEFORE_BEGIN_FREE_INDEX fs (INVALID_INDEX CAPACITY)
                ∧ fs.Nodup ∧ ∀ i, isValidElementIndex CAPACITY i = true → i ∈ fs)
            ∧ size c = size b ∧ toList c = Except.ok vs := by
  obtain ⟨ua, fa, ha⟩ := ha.wellFormed
  obtain ⟨ub, fb, hb⟩ := hb.wellFormed
  have hsa : size a = ua.length := ha.size
  have hsb : size b = ub.length := hb.size
  rw [hsa, hsb] at hfuel
  obtain ⟨a', b', log, used', free', N, hN, e, hc, adc, hsnd, _, _, hb', _, _, _⟩ :=
    move_assign_abs moved ha hb hne
  obtain ⟨f1, f2, f3, f4, f5, f6⟩ := abs_empty_facts hb'
  refine ⟨ub.map Prod.snd, a', b', log, toList_abs hb, ?_, f1, f2, f3, ⟨_, f4, f5, f6⟩, ?_, ?_, ?_⟩
  · rw [e, if_pos (by omega)]
  · have := congrArg List.length hsnd
    simp only [List.length_map] at this
    rw [hsb, ← this]; exact hc.size
  · rw [toList_abs hc, hsnd]
  · intro addr junk hne'
    obtain ⟨l0, e0, h0, ad0⟩ := @construct_abs T CAPACITY addr junk
    simp only [construct] at e0
    obtain ⟨c, b1, log', used1, free1, N1, hN1, e1, hc1, _, hsnd1, _, _, hb1, _, _, _⟩ :=
      move_assign_abs moved h0 hb (by rw [ad0]; exact hne')
    simp only [List.length_nil, Nat.zero_max] at hN1
    obtain ⟨b2, e2, hb2, _⟩ := clear_abs hb1
    obtain ⟨g1, g2, g3, g4, g5, g6⟩ := abs_empty_facts hb2
    refine ⟨c, b2, log', ?_, g1, g2, g3, ⟨_, g4, g5, g6⟩, ?_, ?_⟩
    · simp only [move_construct, e0, ok_bind, e1]
      rw [if_pos (by omega)]
      simp only [ok_bind, e2, List.length_nil]
      rw [if_pos (by omega)]
      rfl
    · have := congrArg List.length hsnd1
      simp only [List.length_map] at this
      rw [hsb, ← this]; exact hc1.size
    · rw [toList_abs hc1, hsnd1]

/-- Witness for C8: moving the full `exampleFull` into the one-element
`exampleOther`, the element type leaving `0` behind in a moved-from object. -/
theorem C8_move_assignment_moves_witness :
    Reachable exampleOther ∧ Reachable exampleFull ∧ exampleOther.addr ≠ exampleFull.addr
    ∧ max (size exampleOther) (size exampleFull) < 3
    ∧ ∃ vs a' b' log, toList exampleFull = Except.ok vs
      ∧ move_assign (fun _ => 0) 3 exampleOther exampleFull = Except.ok (a', b', log)
      ∧ size b' = 0 ∧ begin b' = Except.ok (cend b') ∧ toList b' = Except.ok []
      ∧ (∃ fs, Links (nextOf b') BEFORE_BEGIN_FREE_INDEX fs (INVALID_INDEX 2) ∧ fs.Nodup
          ∧ ∀ i, isValidElementIndex 2 i = true → i ∈ fs)
      ∧ size a' = size exampleFull ∧ toList a' = Except.ok vs
      ∧ ∀ (addr : Nat) (junk : Nat → Nat), addr ≠ exampleFull.addr →
          ∃ c b'' log', move_construct (fun _ => 0) 3 addr junk exampleFull
              = Except.ok (c, b'', log')
            ∧ size b'' = 0 ∧ begin b'' = Except.ok (cend b'') ∧ toList b'' = Except.ok []
            ∧ (∃ fs, Links (nextOf b'') BEFORE_BEGIN_FREE_INDEX fs (INVALID_INDEX 2)
                ∧ fs.Nodup ∧ ∀ i, isValidElementIndex 2 i = true → i ∈ fs)
            ∧ size c = size exampleFull ∧ toList c = Except.ok vs :=
  ⟨exampleOther_reachable, exampleFull_reachable, by decide, by decide,
    C8_move_assignment_moves (fun _ => 0) exampleOther exampleFull exampleOther_reachable
      exampleFull_reachable (by decide) 3 (by decide)⟩

/-- C9: for every sequence of `push_front` / `pop_front` calls applied to a newly
constructed list, after each call (that is, after every initial segment
`ops.take n` of the sequence) all calls have returned normally, `size()` plus
the number of `pop_front` calls that returned `true` equals the number of
`push_front` calls that returned `true`, `size()` does not exceed the capacity,
and `full()` holds exactly when `size()` equals the capacity. -/
theorem C9_size_tracks_front_operations (addr : Nat) (junk : Nat → Nat)
    (ops : List (FrontOp T)) (n : Nat) :
    ∃ (l0 l : forward_list T CAPACITY) (bs : List Bool),
      construct T CAPACITY addr junk = Except.ok l0
      ∧ run_front l0 (ops.take n) = Except.ok (l, bs)
      ∧ size l + performedPops (ops.take n) bs = acceptedPushes (ops.take n) bs
      ∧ size l ≤ CAPACITY
      ∧ (full l = true ↔ size l = CAPACITY) := by
  obtain ⟨l0, e0, h0, _⟩ := @construct_abs T CAPACITY addr junk
  obtain ⟨l, bs, e, hwf, _, _, hs⟩ := run_front_abs (ops.take n) l0 ⟨_, _, h0⟩
  have h0s : l0.m_size = 0 := by simpa using h0.size
  have hle := hwf.size_le
  refine ⟨l0, l, bs, e0, e, ?_, hle, ?_⟩
  · simp only [size]; omega
  · simp only [full, size, ge_iff_le, decide_eq_true_eq]; omega

/-- C10: for every capacity `C` and values `vs` with `vs.length = C`, starting
from a newly constructed list: the `C` calls `push_front(vs[i])` all return
`true` and `full()` then holds; one more `push_front(v)` returns `false` and
`size()` stays `C`; `C` calls of `pop_front()` then all return `true` and leave
the list empty; one more `pop_front()` returns `false` and `size()` stays `0`. -/
theorem C10_fill_then_drain (addr : Nat) (junk : Nat → Nat) (vs : List T)
    (hvs : vs.length = CAPACITY) (v : T) :
    ∃ (l0 l1 l2 l3 l4 : forward_list T CAPACITY),
      construct T CAPACITY addr junk = Except.ok l0
      ∧ run_front l0 (vs.map FrontOp.push) = Except.ok (l1, List.replicate CAPACITY true)
      ∧ full l1 = true
      ∧ push_front l1 v = Except.ok (l2, false) ∧ size l2 = CAPACITY
      ∧ run_front l2 (List.replicate CAPACITY FrontOp.pop)
          = Except.ok (l3, List.replicate CAPACITY true)
      ∧ empty l3 = true
      ∧ pop_front l3 = Except.ok (l4, false) ∧ size l4 = 0 := by
  obtain ⟨l0, e0, h0, _⟩ := @construct_abs T CAPACITY addr junk
  obtain ⟨l1, e1, h1, _⟩ := run_front_pushes vs l0 [] (List.range' 2 CAPACITY) h0
    (by simp [hvs])
  have hd : (List.range' 2 CAPACITY).drop vs.length = [] :=
    List.drop_eq_nil_of_le (by simp [hvs])
  rw [hd] at h1
  rw [hvs] at e1
  have hs1 : l1.m_size = CAPACITY := by
    have := h1.length_add
    rw [h1.size]; simpa using this
  obtain ⟨l3, e3, h3, _⟩ := run_front_pops CAPACITY l1 _ [] h1 (by rw [← h1.size, hs1])
  have hd3 : List.drop CAPACITY
      (List.zip (List.take vs.length (List.range' 2 CAPACITY)).reverse vs.reverse ++ []) = [] :=
    List.drop_eq_nil_of_le (by rw [← h1.size, hs1])
  rw [hd3] at h3
  refine ⟨l0, l1, l1, l3, l3, e0, e1, ?_, ?_, hs1, e3, ?_, pop_front_empty h3, ?_⟩
  · simp [full, hs1]
  · exact emplace_front_full h1 v
  · simp [empty, h3.size]
  · simp [size, h3.size]

/-- Witness for C10: the scenario of capacity 3 with the values 1, 2, 3 and the
rejected value 4. -/
theorem C10_fill_then_drain_witness :
    [1, 2, 3].length = 3
    ∧ ∃ (l0 l1 l2 l3 l4 : forward_list Nat 3),
      construct Nat 3 0 (fun _ => 0) = Except.ok l0
      ∧ run_front l0 ([1, 2, 3].map FrontOp.push) = Except.ok (l1, List.replicate 3 true)
      ∧ full l1 = true
      ∧ push_front l1 4 = Except.ok (l2, false) ∧ size l2 = 3
      ∧ run_front l2 (List.replicate 3 FrontOp.pop) = Except.ok (l3, List.replicate 3 true)
      ∧ empty l3 = true
      ∧ pop_front l3 = Except.ok (l4, false) ∧ size l4 = 0 :=
  ⟨rfl, C10_fill_then_drain 0 (fun _ => 0) [1, 2, 3] rfl 4⟩
/-! ## Observers of slot order -/

theorem collectSlots_abs {l : forward_list T CAPACITY} {used : List (Nat × T)}
    {free : List Nat} (h : Abs l used free) (fuel k : Nat) (hf : used.length - k < fuel)
    (i : Nat) (hp : i = ((used.map Prod.fst)[k]?).getD (INVALID_INDEX CAPACITY)) :
    collectSlots l fuel (iterator.mk l.addr i) = Except.ok ((used.map Prod.fst).drop k) := by
  induction fuel generalizing k i with
  | zero => omega
  | succ fuel ih =>
    by_cases hk : k < used.length
    · have hk' : k < (used.map Prod.fst).length := by simpa using hk
      have hidx : i = used[k].1 := by
        rw [hp, List.getElem?_eq_getElem hk']; simp
      have hem : used[k].1 ∈ used.map Prod.fst := List.mem_map_of_mem _ (List.getElem_mem _)
      have hb := h.bounds (List.mem_append_left free hem)
      have hne : (i == INVALID_INDEX CAPACITY) = false := by
        simp [hidx, INVALID_INDEX, INTERNAL_CAPACITY]; omega
      have hinc := incr_abs h (k + 1) (iterator.mk l.addr i) (by simpa using hp)
      simp only [List.getElem?_cons_succ] at hinc
      have hrec := ih (k + 1) (by omega)
        (((used.map Prod.fst)[k + 1]?).getD (INVALID_INDEX CAPACITY)) rfl
      simp only [collectSlots, iterNe, iterEq, cend, bne_self_eq_false, Bool.false_eq_true,
        if_false, ok_bind, hne, Bool.not_false, if_true, hinc, hrec]
      rw [List.drop_eq_getElem_cons hk', List.getElem_map, hidx]
    · have hidx : i = INVALID_INDEX CAPACITY := by
        rw [hp, List.getElem?_eq_none (by simp; omega)]; simp
      have hd : (used.map Prod.fst).drop k = [] :=
        List.drop_eq_nil_of_le (by simpa using Nat.le_of_not_lt hk)
      simp [collectSlots, iterNe, iterEq, cend, hidx, hd]

theorem usedSlots_abs {l : forward_list T CAPACITY} {used : List (Nat × T)}
    {free : List Nat} (h : Abs l used free) :
    usedSlots l = Except.ok (used.map Prod.fst) := by
  have hlen := h.length_add
  have := collectSlots_abs h (INTERNAL_CAPACITY CAPACITY) 0
    (by simp [INTERNAL_CAPACITY]; omega)
    (((used.map Prod.fst)[0]?).getD (INVALID_INDEX CAPACITY)) rfl
  simpa [usedSlots, begin_abs h] using this

theorem walk_links {l : forward_list T CAPACITY} (xs : List Nat) : ∀ (s fuel : Nat),
    Links (nextOf l) s xs (INVALID_INDEX CAPACITY) →
    (∀ x ∈ xs, x ≠ INVALID_INDEX CAPACITY) → xs.length < fuel →
    walk l fuel s = Except.ok xs := by
  induction xs with
  | nil =>
    intro s fuel h _ hf
    cases fuel with
    | zero => omega
    | succ fuel =>
      have h' : nextOf l s = some (INVALID_INDEX CAPACITY) := h
      simp [walk, getNextIdx_eq, h']
  | cons x xs ih =>
    intro s fuel h hne hf
    cases fuel with
    | zero => omega
    | succ fuel =>
      have h1 : nextOf l s = some x := h.1
      have hx : (x == INVALID_INDEX CAPACITY) = false := by
        simpa using hne x (by simp)
      have := ih x fuel h.2 (fun y hy => hne y (by simp [hy])) (by simpa using hf)
      simp only [walk, getNextIdx_eq, h1, ok_bind, hx, Bool.false_eq_true, if_false, this]

theorem freeSlots_abs {l : forward_list T CAPACITY} {used : List (Nat × T)}
    {free : List Nat} (h : Abs l used free) : freeSlots l = Except.ok free := by
  have hlen := h.length_add
  refine walk_links free _ _ h.freeChain ?_ (by simp [INTERNAL_CAPACITY]; omega)
  intro x hx
  have := h.bounds (List.mem_append_right _ hx)
  simp [INVALID_INDEX, INTERNAL_CAPACITY]; omega
/-! ## Repeated erasure at the front -/

theorem erase_front_times_abs (j : Nat) : ∀ (l : forward_list T CAPACITY)
    (used : List (Nat × T)) (free : List Nat), Abs l used free → j ≤ used.length →
    ∃ l' its, erase_front_times l j = Except.ok (l', its)
      ∧ Abs l' (used.drop j) (((used.take j).map Prod.fst).reverse ++ free)
      ∧ l'.addr = l.addr ∧ its.length = j := by
  induction j with
  | zero =>
    intro l used free h _
    exact ⟨l, [], rfl, by simpa using h, rfl, rfl⟩
  | succ j ih =>
    intro l used free h hlen
    cases used with
    | nil => simp at hlen
    | cons u us =>
      obtain ⟨l1, e1, h1, a1⟩ := erase_after_abs h 0 (by simp) (before_begin l) rfl
        (by simp [before_begin])
      simp only [List.eraseIdx_cons_zero, List.getElem_cons_zero] at h1
      obtain ⟨it1, e1⟩ : ∃ it, erase_after l (before_begin l) = Except.ok (l1, it) := ⟨_, e1⟩
      obtain ⟨l', its, e', h', a', hl⟩ := ih l1 us (u.1 :: free) h1 (by simpa using hlen)
      refine ⟨l', it1 :: its, ?_, by simpa using h', by rw [a', a1], by simp [hl]⟩
      simp only [erase_front_times, e1, ok_bind, e']

theorem clearTrace_abs {used : List (Nat × T)} : ∀ {l : forward_list T CAPACITY}
    {free : List Nat}, Abs l used free →
    ∃ l' its, (∀ fuel, clearTrace fuel l
        = if used.length < fuel then Except.ok (l', used.map Prod.fst)
          else Except.error Fault.outOfFuel)
      ∧ (∀ fuel, clear fuel l
        = if used.length < fuel then Except.ok l' else Except.error Fault.outOfFuel)
      ∧ erase_front_times l used.length = Except.ok (l', its)
      ∧ Abs l' [] ((used.map Prod.fst).reverse ++ free) ∧ l'.addr = l.addr := by
  induction used with
  | nil =>
    intro l free h
    refine ⟨l, [], ?_, ?_, rfl, by simpa using h, rfl⟩
    · intro fuel
      cases fuel with
      | zero => simp [clearTrace]
      | succ fuel => simp [clearTrace, begin_abs h, iterNe, iterEq, cend]
    · intro fuel
      cases fuel with
      | zero => simp [clear]
      | succ fuel => simp [clear, begin_abs h, iterNe, iterEq, cend]
  | cons u us ih =>
    intro l free h
    obtain ⟨l1, e1, h1, ha1⟩ := erase_after_abs h 0 (by simp) (before_begin l) rfl
      (by simp [before_begin])
    simp only [List.eraseIdx_cons_zero, List.getElem_cons_zero] at h1
    obtain ⟨it1, e1⟩ : ∃ it, erase_after l (before_begin l) = Except.ok (l1, it) := ⟨_, e1⟩
    obtain ⟨l', its, t', c', f', h', ha'⟩ := ih h1
    have hb := h.bounds (i := u.1) (by simp)
    have hne : (u.1 == INVALID_INDEX CAPACITY) = false := by
      simp [INVALID_INDEX, INTERNAL_CAPACITY]; omega
    refine ⟨l', it1 :: its, ?_, ?_, ?_, by simpa using h', by rw [ha', ha1]⟩
    · intro fuel
      cases fuel with
      | zero => simp [clearTrace]
      | succ fuel =>
        simp only [clearTrace, begin_abs h, ok_bind, iterNe, iterEq, cend, bne_self_eq_false,
          Bool.false_eq_true, if_false, List.map_cons, List.getElem?_cons_zero,
          Option.getD_some, hne, Bool.not_false, if_true, e1, t', List.length_cons]
        by_cases hf : us.length < fuel
        · have : us.length + 1 < fuel + 1 := by omega
          simp [hf, this]
        · have : ¬ us.length + 1 < fuel + 1 := by omega
          simp [hf, this]
    · intro fuel
      cases fuel with
      | zero => simp [clear]
      | succ fuel =>
        simp [clear, begin_abs h, iterNe, iterEq, cend, hne, e1, c']
    · simp only [List.length_cons, erase_front_times, e1, ok_bind, f']

theorem abs_empty_data {l : forward_list T CAPACITY} {free : List Nat} (h : Abs l [] free)
    (i : Nat) (hi : i < CAPACITY + 2) : dataOf l i = some none := by
  by_cases h0 : i = 0
  · subst h0; exact h.sentinelData.1
  · by_cases h1 : i = 1
    · subst h1; exact h.sentinelData.2
    · have : i ∈ ([] : List (Nat × T)).map Prod.fst ++ free := by
        rw [h.perm.mem_iff, List.mem_range']
        exact ⟨i - 2, by omega, by omega⟩
      exact h.freeData i (by simpa using this)

theorem abs_live_iff {l : forward_list T CAPACITY} {used : List (Nat × T)} {free : List Nat}
    (h : Abs l used free) (i : Nat) :
    i ∈ used.map Prod.fst ↔ ∃ v, dataOf l i = some (some v) := by
  constructor
  · intro hi
    obtain ⟨p, hp, rfl⟩ := List.mem_map.1 hi
    exact ⟨p.2, h.usedData p hp⟩
  · rintro ⟨v, hv⟩
    have hlt : i < CAPACITY + 2 := by
      have : (l.m_data[i]?).isSome := by
        unfold dataOf at hv
        cases hx : l.m_data[i]? with
        | none => simp [hx] at hv
        | some n => simp
      have := (List.getElem?_eq_some_iff.1 (Option.eq_some_of_isSome this)).1
      rw [h.len] at this
      exact this
    have h0 : i ≠ 0 := by
      rintro rfl
      have := h.sentinelData.1
      simp [BEFORE_BEGIN_USED_INDEX, hv] at this
    have h1 : i ≠ 1 := by
      rintro rfl
      have := h.sentinelData.2
      simp [BEFORE_BEGIN_FREE_INDEX, hv] at this
    have : i ∈ used.map Prod.fst ++ free := by
      rw [h.perm.mem_iff, List.mem_range']
      exact ⟨i - 2, by omega, by omega⟩
    rcases List.mem_append.1 this with hu | hf
    · exact hu
    · have := h.freeData i hf
      rw [hv] at this
      cases this
/-- C11: in a reachable state with iteration sequence `old`, for every
`j ≤ size()` the first `j` calls `erase_after(before_begin())` return normally
and leave the sequence `old.drop j` and the size `size() - j` (each call removes
the then-first element); after exactly `size()` calls the list is empty
(`size() == 0`, `empty()`, `begin() == end()`); and one more call returns
`end()` and leaves the state as it is. -/
theorem C11_erase_front_empties (l : forward_list T CAPACITY) (hr : Reachable l) :
    ∃ old, toList l = Except.ok old
      ∧ (∀ j, j ≤ size l → ∃ lj its, erase_front_times l j = Except.ok (lj, its)
          ∧ its.length = j ∧ toList lj = Except.ok (old.drop j) ∧ size lj = size l - j)
      ∧ ∃ ln its, erase_front_times l (size l) = Except.ok (ln, its)
          ∧ size ln = 0 ∧ empty ln = true ∧ begin ln = Except.ok (cend ln)
          ∧ erase_after ln (before_begin ln) = Except.ok (ln, cend ln) := by
  obtain ⟨used, free, ha⟩ := hr.wellFormed
  have hs : size l = used.length := ha.size
  refine ⟨used.map Prod.snd, toList_abs ha, ?_, ?_⟩
  · intro j hj
    obtain ⟨lj, its, e, hj', _, hl⟩ := erase_front_times_abs j l used free ha (by omega)
    refine ⟨lj, its, e, hl, ?_, ?_⟩
    · rw [toList_abs hj', List.map_drop]
    · simp only [size, hj'.size, ha.size, List.length_drop]
  · obtain ⟨ln, its, e, hn, _, _⟩ := erase_front_times_abs used.length l used free ha
      (Nat.le_refl _)
    rw [List.drop_length] at hn
    obtain ⟨f1, f2, _⟩ := abs_empty_facts hn
    refine ⟨ln, its, by rw [hs]; exact e, f1, by simpa [empty, size] using f1, f2, ?_⟩
    exact erase_after_noop hn 0 (Nat.le_refl _) (before_begin ln) rfl (by simp [before_begin])

/-- Witness for C11: emptying `exampleFull` from the front. -/
theorem C11_erase_front_empties_witness :
    Reachable exampleFull
    ∧ ∃ old, toList exampleFull = Except.ok old
      ∧ (∀ j, j ≤ size exampleFull → ∃ lj its,
          erase_front_times exampleFull j = Except.ok (lj, its)
          ∧ its.length = j ∧ toList lj = Except.ok (old.drop j)
          ∧ size lj = size exampleFull - j)
      ∧ ∃ ln its, erase_front_times exampleFull (size exampleFull) = Except.ok (ln, its)
          ∧ size ln = 0 ∧ empty ln = true ∧ begin ln = Except.ok (cend ln)
          ∧ erase_after ln (before_begin ln) = Except.ok (ln, cend ln) :=
  ⟨exampleFull_reachable, C11_erase_front_empties exampleFull exampleFull_reachable⟩

/-- C12: in a reachable state, `clear()` given more fuel than `size()` returns
normally, and with `size()` or less fuel it does not: its loop runs the test
`begin() != end()` exactly `size() + 1` times and its body exactly `size()`
times.  The final state is the one reached by `size()` calls
`erase_after(before_begin())`; it has `size() == 0`, `begin() == end()` and
every element slot on the free chain.  The slots whose elements the loop
destructs, in order, are the slots of the used chain in iteration order: there
are `size()` of them, no slot occurs twice, they are exactly the slots that held
a constructed object before the call, and after the call no slot of the store
holds a constructed object. -/
theorem C12_clear_terminates_and_destructs_once (l : forward_list T CAPACITY)
    (hr : Reachable l) (fuel : Nat) (hfuel : size l < fuel) :
    ∃ l' tr its, clear fuel l = Except.ok l'
      ∧ clearTrace fuel l = Except.ok (l', tr)
      ∧ erase_front_times l (size l) = Except.ok (l', its)
      ∧ (∀ fuel', fuel' ≤ size l → clear fuel' l = Except.error Fault.outOfFuel)
      ∧ size l' = 0 ∧ begin l' = Except.ok (cend l') ∧ toList l' = Except.ok []
      ∧ (∃ fs, freeSlots l' = Except.ok fs ∧ fs.Nodup
          ∧ ∀ i, isValidElementIndex CAPACITY i = true → i ∈ fs)
      ∧ usedSlots l = Except.ok tr ∧ tr.length = size l ∧ tr.Nodup
      ∧ (∀ i, i ∈ tr ↔ ∃ v, dataOf l i = some (some v))
      ∧ ∀ i, i < CAPACITY + 2 → dataOf l' i = some none := by
  obtain ⟨used, free, ha⟩ := hr.wellFormed
  have hs : size l = used.length := ha.size
  rw [hs] at hfuel
  obtain ⟨l', its, t, c, f, h', _⟩ := clearTrace_abs ha
  obtain ⟨f1, f2, f3, _, f5, f6⟩ := abs_empty_facts h'
  refine ⟨l', used.map Prod.fst, its, ?_, ?_, by rw [hs]; exact f, ?_, f1, f2, f3,
    ⟨_, freeSlots_abs h', f5, f6⟩, usedSlots_abs ha, by simp [hs],
    (List.nodup_cons.1 ha.used_nodup).2, abs_live_iff ha, abs_empty_data h'⟩
  · rw [c, if_pos hfuel]
  · rw [t, if_pos hfuel]
  · intro fuel' hf'
    rw [c, if_neg (by omega)]

/-- Witness for C12: clearing `exampleFull` with fuel 3. -/
theorem C12_clear_terminates_and_destructs_once_witness :
    Reachable exampleFull ∧ size exampleFull < 3
    ∧ ∃ l' tr its, clear 3 exampleFull = Except.ok l'
      ∧ clearTrace 3 exampleFull = Except.ok (l', tr)
      ∧ erase_front_times exampleFull (size exampleFull) = Except.ok (l', its)
      ∧ (∀ fuel', fuel' ≤ size exampleFull →
          clear fuel' exampleFull = Except.error Fault.outOfFuel)
      ∧ size l' = 0 ∧ begin l' = Except.ok (cend l') ∧ toList l' = Except.ok []
      ∧ (∃ fs, freeSlots l' = Except.ok fs ∧ fs.Nodup
          ∧ ∀ i, isValidElementIndex 2 i = true → i ∈ fs)
      ∧ usedSlots exampleFull = Except.ok tr ∧ tr.length = size exampleFull ∧ tr.Nodup
      ∧ (∀ i, i ∈ tr ↔ ∃ v, dataOf exampleFull i = some (some v))
      ∧ ∀ i, i < 2 + 2 → dataOf l' i = some none :=
  ⟨exampleFull_reachable, by decide,
    C12_clear_terminates_and_destructs_once exampleFull exampleFull_reachable 3 (by decide)⟩
theorem front_abs {l : forward_list T CAPACITY} {u : Nat × T} {us : List (Nat × T)}
    {free : List Nat} (h : Abs l (u :: us) free) :
    begin l = Except.ok (iterator.mk l.addr u.1)
      ∧ deref l (iterator.mk l.addr u.1) = Except.ok u.2 ∧ front l = Except.ok u.2 := by
  have hb : begin l = Except.ok (iterator.mk l.addr u.1) := by
    rw [begin_abs h]; simp
  have hd := deref_abs h 0 (by simp) (iterator.mk l.addr u.1) rfl
  simp only [List.getElem_cons_zero] at hd
  have hv := isValidElementIndex_abs h (i := u.1) (by simp)
  refine ⟨hb, hd, ?_⟩
  simp only [front, hb, ok_bind, hv, Bool.not_true, Bool.false_eq_true, if_false, hd]

theorem front_empty {l : forward_list T CAPACITY} {free : List Nat} (h : Abs l [] free) :
    front l = Except.error Fault.terminate := by
  have hb : begin l = Except.ok (cend l) := (abs_empty_facts h).2.1
  simp [front, hb, cend, isValidElementIndex, isValidIteratorIndex]

/-- C13: in a reachable state with iteration sequence `s`: if the list is not
full, `push_front(v)` returns `true` and leaves the state that
`emplace_after(before_begin(), v)` leaves, the sequence becomes `v :: s`,
`front()` is `v`, and a `pop_front()` right after returns `true` and restores
the sequence `s`; `pop_front()` returns normally, leaves the state that
`erase_after(before_begin())` leaves, returns `true` exactly when the list was
not empty, in which case the sequence becomes `s` without its first element,
and otherwise leaves the state as it is. -/
theorem C13_front_operations_anchor_at_before_begin (l : forward_list T CAPACITY)
    (hr : Reachable l) (v : T) :
    ∃ s, toList l = Except.ok s
      ∧ (full l = false → ∃ l' it l'', push_front l v = Except.ok (l', true)
          ∧ emplace_after l (before_begin l) v = Except.ok (l', it)
          ∧ toList l' = Except.ok (v :: s) ∧ front l' = Except.ok v
          ∧ pop_front l' = Except.ok (l'', true) ∧ toList l'' = Except.ok s)
      ∧ ∃ l' b it, pop_front l = Except.ok (l', b)
          ∧ erase_after l (before_begin l) = Except.ok (l', it)
          ∧ (b = true ↔ empty l = false)
          ∧ (b = true → toList l' = Except.ok s.tail)
          ∧ (b = false → l' = l) := by
  obtain ⟨used, free, ha⟩ := hr.wellFormed
  refine ⟨used.map Prod.snd, toList_abs ha, ?_, ?_⟩
  · intro hnf
    cases free with
    | nil =>
      have := ha.length_add
      simp [full, ha.size] at hnf this
      omega
    | cons f fs =>
      obtain ⟨l', e, h', _⟩ := emplace_front_abs ha v
      obtain ⟨l1, e1, h1, ad1⟩ := emplace_after_abs ha 0 (Nat.zero_le _) (before_begin l) rfl
        (by simp [before_begin]) v
      have hl : l1 = l' := by
        have hne : (INVALID_INDEX CAPACITY == f) = false := by
          have hb := ha.bounds (i := f) (by simp)
          simp [INVALID_INDEX, INTERNAL_CAPACITY]; omega
        simp [push_front, emplace_front, e1, iterNe, iterEq, cend, hne, ad1] at e
        exact e
      subst hl
      obtain ⟨l'', e'', h'', _⟩ := pop_front_abs h'
      refine ⟨l1, _, l'', e, e1, ?_, (front_abs h').2.2, e'', ?_⟩
      · rw [toList_abs h']; rfl
      · rw [toList_abs h'']
  · cases used with
    | nil =>
      have e1 := erase_after_noop ha 0 (Nat.le_refl _) (before_begin l) rfl
        (by simp [before_begin])
      refine ⟨l, false, _, pop_front_empty ha, e1, ?_, by simp, fun _ => rfl⟩
      simp [empty, ha.size]
    | cons u us =>
      obtain ⟨l', e, h', _⟩ := pop_front_abs ha
      obtain ⟨l1, e1, h1, _⟩ := erase_after_abs ha 0 (by simp) (before_begin l) rfl
        (by simp [before_begin])
      have hl : l1 = l' := by
        simp [pop_front, e1] at e
        exact e.1
      subst hl
      refine ⟨l1, true, _, e, e1, ?_, fun _ => ?_, by simp⟩
      · simp [empty, ha.size]
      · rw [toList_abs h']; rfl

/-- Witness for C13: `push_front(3)` and `pop_front()` on `exampleOne`. -/
theorem C13_front_operations_anchor_at_before_begin_witness :
    Reachable exampleOne
    ∧ ∃ s, toList exampleOne = Except.ok s
      ∧ (full exampleOne = false → ∃ l' it l'', push_front exampleOne 3 = Except.ok (l', true)
          ∧ emplace_after exampleOne (before_begin exampleOne) 3 = Except.ok (l', it)
          ∧ toList l' = Except.ok (3 :: s) ∧ front l' = Except.ok 3
          ∧ pop_front l' = Except.ok (l'', true) ∧ toList l'' = Except.ok s)
      ∧ ∃ l' b it, pop_front exampleOne = Except.ok (l', b)
          ∧ erase_after exampleOne (before_begin exampleOne) = Except.ok (l', it)
          ∧ (b = true ↔ empty exampleOne = false)
          ∧ (b = true → toList l' = Except.ok s.tail)
          ∧ (b = false → l' = exampleOne) :=
  ⟨exampleOne_reachable,
    C13_front_operations_anchor_at_before_begin exampleOne exampleOne_reachable 3⟩

/-- C14: in a reachable state the read of the free-chain sentinel's link
succeeds; the link is the terminal marker exactly when `size()` equals the
capacity; when it is not the terminal marker it is a valid element index that
no position of the used chain carries; and the two conditions tested by
`emplace_after`, `m_size < CAPACITY` and `toBeAddedIdx < INVALID_INDEX`, have
the same truth value. -/
theorem C14_free_head_tracks_fullness (l : forward_list T CAPACITY) (hr : Reachable l) :
    ∃ h, getNextIdx l BEFORE_BEGIN_FREE_INDEX = Except.ok h
      ∧ (h = INVALID_INDEX CAPACITY ↔ size l = CAPACITY)
      ∧ (h ≠ INVALID_INDEX CAPACITY → isValidElementIndex CAPACITY h = true
          ∧ ∀ j, ∃ p, advance l j (before_begin l) = Except.ok p ∧ p.m_iterListNodeIdx ≠ h)
      ∧ (decide (l.m_size < CAPACITY) = decide (h < INVALID_INDEX CAPACITY)) := by
  obtain ⟨used, free, ha⟩ := hr.wellFormed
  have hh := ha.freeChain.head
  have hla := ha.length_add
  cases free with
  | nil =>
    simp only [List.head?_nil, Option.getD_none] at hh
    refine ⟨INVALID_INDEX CAPACITY, by simp only [getNextIdx_eq, hh], ?_, by simp, ?_⟩
    · simp only [size, ha.size, true_iff]; simpa using hla
    · have : ¬ l.m_size < CAPACITY := by rw [ha.size]; simp at hla; omega
      simp [this]
  | cons f fs =>
    simp only [List.head?_cons, Option.getD_some] at hh
    have hb := ha.bounds (i := f) (by simp)
    have hne : f ≠ INVALID_INDEX CAPACITY := by
      simp [INVALID_INDEX, INTERNAL_CAPACITY]; omega
    refine ⟨f, by simp only [getNextIdx_eq, hh], ?_, ?_, ?_⟩
    · simp only [hne, false_iff, size, ha.size]; simp at hla; omega
    · intro _
      refine ⟨isValidElementIndex_abs ha (by simp), ?_⟩
      intro j
      refine ⟨_, advance_before_begin ha j, ?_⟩
      simp only
      intro hc
      by_cases hj : j ≤ used.length
      · have hm := getD_getElem?_mem BEFORE_BEGIN_USED_INDEX (INVALID_INDEX CAPACITY)
          (used.map Prod.fst) j (by simpa using hj)
        rw [hc] at hm
        rcases List.mem_cons.1 hm with h0 | hm
        · simp [BEFORE_BEGIN_USED_INDEX] at h0; omega
        · exact ha.disjoint hm (by simp)
      · rw [List.getElem?_eq_none (by simp at hj ⊢; omega)] at hc
        exact hne hc.symm
    · have h1 : l.m_size < CAPACITY := by rw [ha.size]; simp at hla; omega
      have h2 : f < INVALID_INDEX CAPACITY := by
        simp [INVALID_INDEX, INTERNAL_CAPACITY]; omega
      simp [h1, h2]

/-- Witness for C14: the free head of `exampleFull` and of `exampleOne`. -/
theorem C14_free_head_tracks_fullness_witness :
    Reachable exampleFull
    ∧ ∃ h, getNextIdx exampleFull BEFORE_BEGIN_FREE_INDEX = Except.ok h
      ∧ (h = INVALID_INDEX 2 ↔ size exampleFull = 2)
      ∧ (h ≠ INVALID_INDEX 2 → isValidElementIndex 2 h = true
          ∧ ∀ j, ∃ p, advance exampleFull j (before_begin exampleFull) = Except.ok p
              ∧ p.m_iterListNodeIdx ≠ h)
      ∧ (decide (exampleFull.m_size < 2) = decide (h < INVALID_INDEX 2)) :=
  ⟨exampleFull_reachable, C14_free_head_tracks_fullness exampleFull exampleFull_reachable⟩
/-- C15, the code at the failing input: `exampleEmpty` is reachable and not
full, `end()` is bound to it, and `emplace_after(end(), 9)` reads the free head
(slot 2), rewrites the link of the free-chain sentinel, constructs `9` in slot
2, which leaves the store `exampleTorn`, different from `exampleEmpty`, and
then accesses `getNodePtrFromIdx(4)->nextIdx`, slot index `CAPACITY + 2` of a
store of `CAPACITY + 2 = 4` slots: the call does not return normally, and it
has modified the free chain before it fails. -/
theorem C15_emplace_after_end_leaves_the_store :
    Reachable exampleEmpty ∧ full exampleEmpty = false
    ∧ (cend exampleEmpty).m_list = exampleEmpty.addr
    ∧ (cend exampleEmpty).m_iterListNodeIdx = 4 ∧ exampleEmpty.m_data.length = 4
    ∧ getNextIdx exampleEmpty BEFORE_BEGIN_FREE_INDEX = Except.ok 2
    ∧ getNextIdx exampleEmpty 2 = Except.ok 3
    ∧ (setNextIdx exampleEmpty BEFORE_BEGIN_FREE_INDEX 3 >>= fun l1 => setData l1 2 (some 9))
        = Except.ok exampleTorn
    ∧ exampleTorn ≠ exampleEmpty
    ∧ getNextIdx exampleTorn (cend exampleEmpty).m_iterListNodeIdx
        = Except.error Fault.outOfBounds
    ∧ emplace_after exampleEmpty (cend exampleEmpty) 9 = Except.error Fault.outOfBounds :=
  ⟨exampleEmpty_reachable, rfl, rfl, rfl, rfl, rfl, rfl, rfl, by decide, rfl, rfl⟩
/-- C16: in a reachable state, let `erase_after` at the position reached from
`before_begin()` by `k < size()` increments remove the element stored in the
slot of `erased`.  Then `emplace_after` at every position of the resulting list
(`before_begin()` or any of its elements) returns normally with an iterator
that carries that same slot, differs from `end()` and dereferences to the new
value, and `size()` is back to its old value.  In particular, for a list of
size 1, erasing its element and inserting at `before_begin()` gives
`size() == 1`, `empty()` false, and `full()` true exactly when the capacity
is 1. -/
theorem C16_freed_slot_is_reused_first (l : forward_list T CAPACITY) (hr : Reachable l)
    (k : Nat) (hk : k < size l) (v : T) :
    ∃ pos erased l1 it,
      advance l k (before_begin l) = Except.ok pos
      ∧ advance l (k + 1) (before_begin l) = Except.ok erased
      ∧ erase_after l pos = Except.ok (l1, it)
      ∧ freeSlots l1 = (freeSlots l).map (fun fs => erased.m_iterListNodeIdx :: fs)
      ∧ (∀ k', k' ≤ size l1 → ∃ pos' l2 it2,
          advance l1 k' (before_begin l1) = Except.ok pos'
          ∧ emplace_after l1 pos' v = Except.ok (l2, it2)
          ∧ it2.m_iterListNodeIdx = erased.m_iterListNodeIdx
          ∧ iterNe it2 (cend l2) = Except.ok true
          ∧ deref l2 it2 = Except.ok v
          ∧ size l2 = size l)
      ∧ (size l = 1 → ∃ l2 it2,
          emplace_after l1 (before_begin l1) v = Except.ok (l2, it2)
          ∧ size l2 = 1 ∧ empty l2 = false ∧ (full l2 = true ↔ CAPACITY = 1)) := by
  obtain ⟨used, free, ha⟩ := hr.wellFormed
  have hk' : k < used.length := by simpa [size, ha.size] using hk
  obtain ⟨l1, e, h1, ad1⟩ := erase_after_abs ha k hk' (posAt l used k) rfl rfl
  have hem : used[k].1 ∈ used.map Prod.fst := List.mem_map_of_mem _ (List.getElem_mem _)
  have heb := ha.bounds (List.mem_append_left free hem)
  have hne : (used[k].1 == INVALID_INDEX CAPACITY) = false := by
    simp [INVALID_INDEX, INTERNAL_CAPACITY]; omega
  have herased : posAt l used (k + 1) = iterator.mk l.addr used[k].1 := by
    simp [posAt, List.getElem?_eq_getElem hk']
  have hs1 : size l1 = used.length - 1 := by
    simp only [size, h1.size, List.length_eraseIdx, hk', if_true]
  have hemp : ∀ k', k' ≤ size l1 → ∃ pos' l2 it2,
      advance l1 k' (before_begin l1) = Except.ok pos'
      ∧ emplace_after l1 pos' v = Except.ok (l2, it2)
      ∧ it2.m_iterListNodeIdx = used[k].1
      ∧ iterNe it2 (cend l2) = Except.ok true
      ∧ deref l2 it2 = Except.ok v
      ∧ size l2 = size l := by
    intro k' hk2
    have hk2' : k' ≤ (used.eraseIdx k).length := by
      simpa [size, h1.size] using hk2
    obtain ⟨l2, e2, h2, ad2⟩ := emplace_after_abs h1 k' hk2' (posAt l1 (used.eraseIdx k) k')
      rfl rfl v
    refine ⟨_, l2, _, advance_before_begin h1 k', e2, rfl, ?_, ?_, ?_⟩
    · simp [iterNe, iterEq, cend, ad2, hne]
    · have hlen : k' < ((used.eraseIdx k).take k' ++ (used[k].1, v)
          :: (used.eraseIdx k).drop k').length := by simp; omega
      have := deref_abs h2 k' hlen (iterator.mk l1.addr used[k].1)
        (by simp [List.getElem_append_right, List.length_take, Nat.min_eq_left hk2'])
      simpa [List.getElem_append_right, List.length_take, Nat.min_eq_left hk2'] using this
    · simp only [size, h2.size, ha.size, List.length_append, List.length_take,
        List.length_cons, List.length_drop, List.length_eraseIdx, hk', if_true]
      simp only [List.length_eraseIdx, hk', if_true] at hk2'
      omega
  refine ⟨posAt l used k, iterator.mk l.addr used[k].1, l1, _, advance_before_begin ha k,
    ?_, e, ?_, hemp, ?_⟩
  · rw [← herased]; exact advance_before_begin ha (k + 1)
  · rw [freeSlots_abs h1, freeSlots_abs ha]; rfl
  · intro hsz
    obtain ⟨pos', l2, it2, hp, e2, _, _, _, hs2⟩ := hemp 0 (Nat.zero_le _)
    simp only [advance] at hp
    cases hp
    have hm : l2.m_size = 1 := by rw [← hsz, ← hs2]; rfl
    refine ⟨l2, it2, e2, by rw [hs2, hsz], by simp [empty, hm], ?_⟩
    have : l2.m_size = 1 := hm
    have hle := (Reachable.wellFormed
      (Reachable.emplace_after l1 0 (before_begin l1) v l2 it2
        (Reachable.erase_after l k (posAt l used k) l1 _ hr (advance_before_begin ha k) e)
        rfl e2)).size_le
    simp only [full, this, ge_iff_le, decide_eq_true_eq]
    omega

/-- Witness for C16: erasing the first element of `exampleFull` and inserting
again. -/
theorem C16_freed_slot_is_reused_first_witness :
    Reachable exampleFull ∧ 0 < size exampleFull
    ∧ ∃ pos erased l1 it,
      advance exampleFull 0 (before_begin exampleFull) = Except.ok pos
      ∧ advance exampleFull (0 + 1) (before_begin exampleFull) = Except.ok erased
      ∧ erase_after exampleFull pos = Except.ok (l1, it)
      ∧ freeSlots l1 = (freeSlots exampleFull).map (fun fs => erased.m_iterListNodeIdx :: fs)
      ∧ (∀ k', k' ≤ size l1 → ∃ pos' l2 it2,
          advance l1 k' (before_begin l1) = Except.ok pos'
          ∧ emplace_after l1 pos' 6 = Except.ok (l2, it2)
          ∧ it2.m_iterListNodeIdx = erased.m_iterListNodeIdx
          ∧ iterNe it2 (cend l2) = Except.ok true
          ∧ deref l2 it2 = Except.ok 6
          ∧ size l2 = size exampleFull)
      ∧ (size exampleFull = 1 → ∃ l2 it2,
          emplace_after l1 (before_begin l1) 6 = Except.ok (l2, it2)
          ∧ size l2 = 1 ∧ empty l2 = false ∧ (full l2 = true ↔ 2 = 1)) :=
  ⟨exampleFull_reachable, by decide,
    C16_freed_slot_is_reused_first exampleFull exampleFull_reachable 0 (by decide) 6⟩

/-- C17: in a reachable state `front()` ends in `std::terminate()` exactly when
the list is empty; on a non-empty list it returns normally the value that
dereferencing `begin()` gives, which is the first value of the forward
iteration order.  (`front()` only reads: the embedded function has no state
among its results.) -/
theorem C17_front_terminates_iff_empty (l : forward_list T CAPACITY) (hr : Reachable l) :
    (front l = Except.error Fault.terminate ↔ empty l = true)
    ∧ (empty l = false → ∃ b v s, begin l = Except.ok b ∧ deref l b = Except.ok v
        ∧ front l = Except.ok v ∧ toList l = Except.ok (v :: s)) := by
  obtain ⟨used, free, ha⟩ := hr.wellFormed
  cases used with
  | nil =>
    refine ⟨by simp [front_empty ha, empty, ha.size], ?_⟩
    intro hne
    simp [empty, ha.size] at hne
  | cons u us =>
    obtain ⟨hb, hd, hf⟩ := front_abs ha
    refine ⟨by simp [hf, empty, ha.size], fun _ => ⟨_, u.2, us.map Prod.snd, hb, hd, hf, ?_⟩⟩
    rw [toList_abs ha]; rfl

/-- Witness for C17: `front()` of `exampleFull`. -/
theorem C17_front_terminates_iff_empty_witness :
    Reachable exampleFull
    ∧ (front exampleFull = Except.error Fault.terminate ↔ empty exampleFull = true)
    ∧ (empty exampleFull = false → ∃ b v s, begin exampleFull = Except.ok b
        ∧ deref exampleFull b = Except.ok v
        ∧ front exampleFull = Except.ok v ∧ toList exampleFull = Except.ok (v :: s)) :=
  ⟨exampleFull_reachable, C17_front_terminates_iff_empty exampleFull exampleFull_reachable⟩
/-- C18: for distinct reachable lists `a` (target, slots `sa` in iteration
order, free chain `fa`) and `b` (source), copy assignment and move assignment
given enough fuel leave a target whose elements occupy, in order, the first
`min(a.size(), b.size())` slots of `sa` followed by `taken`, the first
`b.size() - a.size()` slots of the old free chain, and whose free chain is
`returned`, the last `a.size() - b.size()` slots of `sa`, in reverse order,
followed by the rest of the old free chain: the overlap keeps its slots, exactly
`max(n - m, 0)` slots leave the free chain and exactly `max(m - n, 0)` slots
come back to it. -/
theorem C18_assignment_reuses_slots (moved : T → T) (a b : forward_list T CAPACITY)
    (ha : Reachable a) (hb : Reachable b) (hne : a.addr ≠ b.addr) (fuel : Nat)
    (hfuel : max (size a) (size b) < fuel) :
    ∃ sa fa taken returned,
      usedSlots a = Except.ok sa ∧ freeSlots a = Except.ok fa
      ∧ taken = fa.take (size b - size a) ∧ taken.length = size b - size a
      ∧ returned = sa.drop (size b) ∧ returned.length = size a - size b
      ∧ (∃ a' log, copy_assign fuel a b = Except.ok (a', log)
          ∧ usedSlots a' = Except.ok (sa.take (min (size a) (size b)) ++ taken)
          ∧ freeSlots a' = Except.ok (returned.reverse ++ fa.drop (size b - size a)))
      ∧ (∃ a' b' log, move_assign moved fuel a b = Except.ok (a', b', log)
          ∧ usedSlots a' = Except.ok (sa.take (min (size a) (size b)) ++ taken)
          ∧ freeSlots a' = Except.ok (returned.reverse ++ fa.drop (size b - size a))) := by
  obtain ⟨ua, fa, ha⟩ := ha.wellFormed
  obtain ⟨ub, fb, hb⟩ := hb.wellFormed
  have hsa : size a = ua.length := ha.size
  have hsb : size b = ub.length := hb.size
  rw [hsa, hsb] at hfuel
  have hla := ha.length_add
  have hlb := hb.length_add
  have htake : (ua.map Prod.fst).take (min ua.length ub.length)
      = (ua.map Prod.fst).take ub.length := by
    by_cases h : ua.length ≤ ub.length
    · rw [Nat.min_eq_left h, List.take_of_length_le (by simp),
        List.take_of_length_le (by simpa using h)]
    · rw [Nat.min_eq_right (by omega)]
  refine ⟨ua.map Prod.fst, fa, _, _, usedSlots_abs ha, freeSlots_abs ha, rfl, ?_, rfl, ?_,
    ?_, ?_⟩
  · rw [hsa, hsb, List.length_take]; omega
  · rw [hsa, hsb, List.length_drop, List.length_map]
  · obtain ⟨a', log, used', free', N, hN, e, hc, _, _, hfst, hfree, _, _⟩ :=
      copy_assign_abs ha hb hne
    refine ⟨a', log, by rw [e, if_pos (by omega)], ?_, ?_⟩
    · rw [usedSlots_abs hc, hfst, hsa, hsb, htake]
    · rw [freeSlots_abs hc, hfree, hsa, hsb]
  · obtain ⟨a', b', log, used', free', N, hN, e, hc, _, _, hfst, hfree, _, _, _, _⟩ :=
      move_assign_abs moved ha hb hne
    refine ⟨a', b', log, by rw [e, if_pos (by omega)], ?_, ?_⟩
    · rw [usedSlots_abs hc, hfst, hsa, hsb, htake]
    · rw [freeSlots_abs hc, hfree, hsa, hsb]

/-- Witness for C18: assigning the full `exampleFull` to the one-element
`exampleOther`. -/
theorem C18_assignment_reuses_slots_witness :
    Reachable exampleOther ∧ Reachable exampleFull ∧ exampleOther.addr ≠ exampleFull.addr
    ∧ max (size exampleOther) (size exampleFull) < 3
    ∧ ∃ sa fa taken returned,
      usedSlots exampleOther = Except.ok sa ∧ freeSlots exampleOther = Except.ok fa
      ∧ taken = fa.take (size exampleFull - size exampleOther)
      ∧ taken.length = size exampleFull - size exampleOther
      ∧ returned = sa.drop (size exampleFull)
      ∧ returned.length = size exampleOther - size exampleFull
      ∧ (∃ a' log, copy_assign 3 exampleOther exampleFull = Except.ok (a', log)
          ∧ usedSlots a'
              = Except.ok (sa.take (min (size exampleOther) (size exampleFull)) ++ taken)
          ∧ freeSlots a'
              = Except.ok (returned.reverse ++ fa.drop (size exampleFull - size exampleOther)))
      ∧ (∃ a' b' log, move_assign (fun _ => 0) 3 exampleOther exampleFull
              = Except.ok (a', b', log)
          ∧ usedSlots a'
              = Except.ok (sa.take (min (size exampleOther) (size exampleFull)) ++ taken)
          ∧ freeSlots a'
              = Except.ok (returned.reverse ++ fa.drop (size exampleFull - size exampleOther))) :=
  ⟨exampleOther_reachable, exampleFull_reachable, by decide, by decide,
    C18_assignment_reuses_slots (fun _ => 0) exampleOther exampleFull exampleOther_reachable
      exampleFull_reachable (by decide) 3 (by decide)⟩

/-- C19: in a reachable state with iteration sequence `old` stored in the slots
`slots`, for the position `pos` reached from `before_begin()` by `k`
increments: if `k < size()` (an element follows `pos`), `erase_after(pos)`
returns normally, the values are `old` and the slots are `slots`, each without
its entry at index `k` (every other element keeps value, order and slot),
`size()` drops by one, and the returned iterator is the one that followed the
erased element in the old list (`end()` if none did); if `k = size()` (`pos` is
the last element, or `before_begin()` of an empty list), `erase_after(pos)`
returns `end()` and the state after the call is the state before it. -/
theorem C19_erase_after_frame (l : forward_list T CAPACITY) (hr : Reachable l)
    (k : Nat) :
    ∃ pos old slots,
      advance l k (before_begin l) = Except.ok pos
      ∧ toList l = Except.ok old ∧ usedSlots l = Except.ok slots
      ∧ (k < size l → ∃ l' it, erase_after l pos = Except.ok (l', it)
          ∧ toList l' = Except.ok (old.eraseIdx k)
          ∧ usedSlots l' = Except.ok (slots.eraseIdx k)
          ∧ size l' + 1 = size l
          ∧ advance l (k + 2) (before_begin l) = Except.ok it)
      ∧ (k = size l → erase_after l pos = Except.ok (l, cend l)) := by
  obtain ⟨used, free, ha⟩ := hr.wellFormed
  refine ⟨posAt l used k, used.map Prod.snd, used.map Prod.fst, advance_before_begin ha k,
    toList_abs ha, usedSlots_abs ha, ?_, ?_⟩
  · intro hlt
    have hk' : k < used.length := by simpa [size, ha.size] using hlt
    obtain ⟨l', e, ha', ad⟩ := erase_after_abs ha k hk' (posAt l used k) rfl rfl
    refine ⟨l', _, e, ?_, ?_, ?_, ?_⟩
    · rw [toList_abs ha', map_eraseIdx]
    · rw [usedSlots_abs ha', map_eraseIdx]
    · simp only [size, ha'.size, ha.size, List.length_eraseIdx, hk', if_true]; omega
    · rw [advance_before_begin ha (k + 2)]
      simp only [List.getElem?_cons_succ]
  · intro heq
    exact erase_after_noop ha k (by rw [heq, size, ha.size]) (posAt l used k) rfl rfl

/-- Witness for C19: erasing after the first element of `exampleFull`. -/
theorem C19_erase_after_frame_witness :
    Reachable exampleFull
    ∧ ∃ pos old slots,
      advance exampleFull 1 (before_begin exampleFull) = Except.ok pos
      ∧ toList exampleFull = Except.ok old ∧ usedSlots exampleFull = Except.ok slots
      ∧ (1 < size exampleFull → ∃ l' it, erase_after exampleFull pos = Except.ok (l', it)
          ∧ toList l' = Except.ok (old.eraseIdx 1)
          ∧ usedSlots l' = Except.ok (slots.eraseIdx 1)
          ∧ size l' + 1 = size exampleFull
          ∧ advance exampleFull (1 + 2) (before_begin exampleFull) = Except.ok it)
      ∧ (1 = size exampleFull → erase_after exampleFull pos
          = Except.ok (exampleFull, cend exampleFull)) :=
  ⟨exampleFull_reachable, C19_erase_after_frame exampleFull exampleFull_reachable 1⟩
/-! ## A state is determined by the lists it represents -/

theorem state_ext {l l' : forward_list T CAPACITY} (ha : l.addr = l'.addr)
    (hs : l.m_size = l'.m_size) (hn : ∀ j, nextOf l j = nextOf l' j)
    (hd : ∀ j, dataOf l j = dataOf l' j) : l = l' := by
  obtain ⟨a, d, s⟩ := l
  obtain ⟨a', d', s'⟩ := l'
  simp only at ha hs
  subst ha hs
  have : d = d' := by
    apply List.ext_getElem?
    intro j
    have h1 := hn j
    have h2 := hd j
    simp only [nextOf, dataOf] at h1 h2
    cases hx : d[j]? with
    | none =>
      cases hy : d'[j]? with
      | none => rfl
      | some y => simp [hx, hy] at h1
    | some x =>
      cases hy : d'[j]? with
      | none => simp [hx, hy] at h1
      | some y =>
        simp only [hx, hy, Option.map_some', Option.some.injEq] at h1 h2
        obtain ⟨xd, xn⟩ := x
        obtain ⟨yd, yn⟩ := y
        simp only at h1 h2
        subst h1 h2
        rfl
  subst this
  rfl

theorem Links.agree {nx nx' : Nat → Option Nat} {t : Nat} (xs : List Nat) : ∀ (s : Nat),
    Links nx s xs t → Links nx' s xs t → ∀ j ∈ s :: xs, nx j = nx' j := by
  induction xs with
  | nil =>
    intro s h h' j hj
    simp only [List.mem_singleton] at hj
    subst hj
    have h1 : nx j = some t := h
    have h2 : nx' j = some t := h'
    rw [h1, h2]
  | cons x xs ih =>
    intro s h h' j hj
    rcases List.mem_cons.1 hj with rfl | hj
    · rw [h.1, h'.1]
    · exact ih x h.2 h'.2 j hj

theorem abs_unique {l l' : forward_list T CAPACITY} {used : List (Nat × T)}
    {free : List Nat} (h : Abs l used free) (h' : Abs l' used free)
    (ha : l.addr = l'.addr) : l = l' := by
  have hmem : ∀ j, j < CAPACITY + 2 → j = 0 ∨ j = 1 ∨ j ∈ used.map Prod.fst ∨ j ∈ free := by
    intro j hj
    by_cases h0 : j = 0
    · exact Or.inl h0
    · by_cases h1 : j = 1
      · exact Or.inr (Or.inl h1)
      · have : j ∈ used.map Prod.fst ++ free := by
          rw [h.perm.mem_iff, List.mem_range']
          exact ⟨j - 2, by omega, by omega⟩
        exact Or.inr (Or.inr (List.mem_append.1 this))
  have hout : ∀ (m : forward_list T CAPACITY), m.m_data.length = CAPACITY + 2 →
      ∀ j, ¬ j < CAPACITY + 2 → m.m_data[j]? = none := by
    intro m hm j hj
    exact List.getElem?_eq_none (by omega)
  refine state_ext ha (by rw [h.size, h'.size]) ?_ ?_
  · intro j
    by_cases hj : j < CAPACITY + 2
    · have hu := Links.agree _ _ h.usedChain h'.usedChain
      have hf := Links.agree _ _ h.freeChain h'.freeChain
      rcases hmem j hj with rfl | rfl | hm | hm
      · exact hu _ (by simp [BEFORE_BEGIN_USED_INDEX])
      · exact hf _ (by simp [BEFORE_BEGIN_FREE_INDEX])
      · exact hu _ (List.mem_cons_of_mem _ hm)
      · exact hf _ (List.mem_cons_of_mem _ hm)
    · simp only [nextOf, hout l h.len j hj, hout l' h'.len j hj]
  · intro j
    by_cases hj : j < CAPACITY + 2
    · rcases hmem j hj with rfl | rfl | hm | hm
      · exact h.sentinelData.1.trans h'.sentinelData.1.symm
      · exact h.sentinelData.2.trans h'.sentinelData.2.symm
      · obtain ⟨p, hp, rfl⟩ := List.mem_map.1 hm
        rw [h.usedData p hp, h'.usedData p hp]
      · rw [h.freeData j hm, h'.freeData j hm]
    · simp only [dataOf, hout l h.len j hj, hout l' h'.len j hj]

/-- C20: in a reachable state that is not full, for the position `pos` reached
from `before_begin()` by `k ≤ size()` increments, `emplace_after(pos, v)`
followed by `erase_after(pos)` returns normally and ends in the very state the
pair started from (same `m_size`, same link in every slot, sentinels and free
chain included, same storage state in every slot), and `erase_after` returns
the iterator that followed `pos` in the original list (`end()` if `pos` was
last). -/
theorem C20_emplace_then_erase_restores (l : forward_list T CAPACITY) (hr : Reachable l)
    (hnf : full l = false) (k : Nat) (hk : k ≤ size l) (v : T) :
    ∃ pos orig l1 it1,
      advance l k (before_begin l) = Except.ok pos
      ∧ advance l (k + 1) (before_begin l) = Except.ok orig
      ∧ emplace_after l pos v = Except.ok (l1, it1)
      ∧ erase_after l1 pos = Except.ok (l, orig) := by
  obtain ⟨used, free, ha⟩ := hr.wellFormed
  have hk' : k ≤ used.length := by simpa [size, ha.size] using hk
  cases free with
  | nil =>
    have := ha.length_add
    simp [full, ha.size] at hnf this
    omega
  | cons f fs =>
    obtain ⟨l1, e1, h1, ad1⟩ := emplace_after_abs ha k hk' (posAt l used k) rfl rfl v
    have hlen : k < (used.take k ++ (f, v) :: used.drop k).length := by simp; omega
    have hidx : ((BEFORE_BEGIN_USED_INDEX :: used.map Prod.fst)[k]?)
        = ((BEFORE_BEGIN_USED_INDEX ::
            ((used.map Prod.fst).take k ++ f :: (used.map Prod.fst).drop k))[k]?) := by
      cases k with
      | zero => simp
      | succ k =>
        simp only [List.getElem?_cons_succ]
        rw [List.getElem?_append_left (by simp; omega), List.getElem?_take_of_lt (by omega)]
    have hpos : posAt l used k = posAt l1 (used.take k ++ (f, v) :: used.drop k) k := by
      simp only [posAt, ad1, List.map_append, List.map_take, List.map_cons, List.map_drop,
        hidx]
    obtain ⟨l2, e2, h2, ad2⟩ := erase_after_abs h1 k hlen (posAt l used k) (by rw [ad1]; rfl)
      (by rw [hpos]; rfl)
    have hget : (used.take k ++ (f, v) :: used.drop k)[k] = (f, v) := by
      rw [List.getElem_append_right (by simp [Nat.min_eq_left hk'])]
      simp [Nat.min_eq_left hk']
    have herase : (used.take k ++ (f, v) :: used.drop k).eraseIdx k = used := by
      have := eraseIdx_append_length (used.take k) (f, v) (used.drop k)
      rw [List.length_take, Nat.min_eq_left hk', List.take_append_drop] at this
      exact this
    rw [herase, hget] at h2
    have hl2 : l2 = l := abs_unique h2 ha (by rw [ad2, ad1])
    subst hl2
    refine ⟨posAt l2 used k, posAt l2 used (k + 1), l1, _, advance_before_begin ha k,
      advance_before_begin ha (k + 1), e1, ?_⟩
    rw [e2]
    simp only [posAt, ad1, List.map_append, List.map_take, List.map_cons, List.map_drop,
      List.getElem?_cons_succ]
    congr 3
    rw [List.getElem?_append_right (by simp [Nat.min_eq_left hk'])]
    simp [Nat.min_eq_left hk']

/-- Witness for C20: inserting after the element of `exampleOne` and erasing
again. -/
theorem C20_emplace_then_erase_restores_witness :
    Reachable exampleOne ∧ full exampleOne = false ∧ 1 ≤ size exampleOne
    ∧ ∃ pos orig l1 it1,
      advance exampleOne 1 (before_begin exampleOne) = Except.ok pos
      ∧ advance exampleOne (1 + 1) (before_begin exampleOne) = Except.ok orig
      ∧ emplace_after exampleOne pos 9 = Except.ok (l1, it1)
      ∧ erase_after l1 pos = Except.ok (exampleOne, orig) :=
  ⟨exampleOne_reachable, rfl, Nat.le_refl 1,
    C20_emplace_then_erase_restores exampleOne exampleOne_reachable rfl 1 (Nat.le_refl 1) 9⟩
/-! ## Outcomes of the two splicing operations at every position -/

/-- In every reachable state that is not full, `emplace_after(end(), v)` leaves
the backing store: the access is not specific to one state. -/
theorem emplace_after_end_of_reachable (l : forward_list T CAPACITY) (hr : Reachable l)
    (hnf : full l = false) (v : T) :
    emplace_after l (cend l) v = Except.error Fault.outOfBounds := by
  obtain ⟨used, free, ha⟩ := hr.wellFormed
  cases free with
  | nil =>
    have := ha.length_add
    simp [full, ha.size] at hnf this
    omega
  | cons f fs => exact emplace_after_end ha (cend l) rfl rfl v

/-- In every reachable state `erase_after` returns normally at every position,
`end()` included, and leaves a well-formed state. -/
theorem erase_after_of_reachable (l : forward_list T CAPACITY) (hr : Reachable l) (k : Nat) :
    ∃ pos l' it, advance l k (before_begin l) = Except.ok pos
      ∧ erase_after l pos = Except.ok (l', it) ∧ WellFormed l' := by
  obtain ⟨used, free, ha⟩ := hr.wellFormed
  by_cases hk : k < used.length
  · obtain ⟨l', e, h', _⟩ := erase_after_abs ha k hk (posAt l used k) rfl rfl
    exact ⟨_, l', _, advance_before_begin ha k, e, ⟨_, _, h'⟩⟩
  · exact ⟨_, l, _, advance_before_begin ha k,
      erase_after_noop ha k (Nat.le_of_not_lt hk) (posAt l used k) rfl rfl, ⟨_, _, ha⟩⟩

/-- In every reachable state `emplace_after` at `before_begin()` or at an
element returns normally and leaves a well-formed state. -/
theorem emplace_after_of_reachable (l : forward_list T CAPACITY) (hr : Reachable l) (k : Nat)
    (hk : k ≤ size l) (v : T) :
    ∃ pos l' it, advance l k (before_begin l) = Except.ok pos
      ∧ emplace_after l pos v = Except.ok (l', it) ∧ WellFormed l' := by
  obtain ⟨used, free, ha⟩ := hr.wellFormed
  have hk' : k ≤ used.length := by simpa [size, ha.size] using hk
  cases free with
  | nil =>
    exact ⟨_, l, _, advance_before_begin ha k, emplace_after_full ha (posAt l used k) rfl v,
      ⟨_, _, ha⟩⟩
  | cons f fs =>
    obtain ⟨l', e, h', _⟩ := emplace_after_abs ha k hk' (posAt l used k) rfl rfl v
    exact ⟨_, l', _, advance_before_begin ha k, e, ⟨_, _, h'⟩⟩
/-! ## Every access stays inside the store -/

theorem Links.next_mem {nx : Nat → Option Nat} {t : Nat} (xs : List Nat) : ∀ (s : Nat),
    Links nx s xs t → ∀ j ∈ s :: xs, ∃ n, nx j = some n ∧ (n ∈ xs ∨ n = t) := by
  induction xs with
  | nil =>
    intro s h j hj
    simp only [List.mem_singleton] at hj
    subst hj
    exact ⟨t, h, Or.inr rfl⟩
  | cons x xs ih =>
    intro s h j hj
    rcases List.mem_cons.1 hj with rfl | hj
    · exact ⟨x, h.1, Or.inl (List.mem_cons_self _ _)⟩
    · obtain ⟨n, hn, hm⟩ := ih x h.2 j hj
      exact ⟨n, hn, hm.imp (fun hx => List.mem_cons_of_mem _ hx) id⟩

theorem abs_link_in_range {l : forward_list T CAPACITY} {used : List (Nat × T)}
    {free : List Nat} (h : Abs l used free) (j : Nat) (hj : j < CAPACITY + 2) :
    ∃ n, getNextIdx l j = Except.ok n ∧ (n < CAPACITY + 2 ∨ n = INVALID_INDEX CAPACITY) := by
  have hmem : j ∈ BEFORE_BEGIN_USED_INDEX :: used.map Prod.fst
      ∨ j ∈ BEFORE_BEGIN_FREE_INDEX :: free := by
    by_cases h0 : j = 0
    · exact Or.inl (by simp [BEFORE_BEGIN_USED_INDEX, h0])
    · by_cases h1 : j = 1
      · exact Or.inr (by simp [BEFORE_BEGIN_FREE_INDEX, h1])
      · have : j ∈ used.map Prod.fst ++ free := by
          rw [h.perm.mem_iff, List.mem_range']
          exact ⟨j - 2, by omega, by omega⟩
        rcases List.mem_append.1 this with hu | hf
        · exact Or.inl (List.mem_cons_of_mem _ hu)
        · exact Or.inr (List.mem_cons_of_mem _ hf)
  rcases hmem with hu | hf
  · obtain ⟨n, hn, hm⟩ := Links.next_mem _ _ h.usedChain j hu
    refine ⟨n, by simp only [getNextIdx_eq, hn], ?_⟩
    rcases hm with hm | hm
    · exact Or.inl (h.bounds (List.mem_append_left _ hm)).2
    · exact Or.inr hm
  · obtain ⟨n, hn, hm⟩ := Links.next_mem _ _ h.freeChain j hf
    refine ⟨n, by simp only [getNextIdx_eq, hn], ?_⟩
    rcases hm with hm | hm
    · exact Or.inl (h.bounds (List.mem_append_right _ hm)).2
    · exact Or.inr hm

/-- The four store accesses take their out-of-range branch exactly when the
index is no slot of the store. -/
theorem store_access_outOfBounds_iff (l : forward_list T CAPACITY) (i v : Nat) (d : Option T) :
    (getNextIdx l i = Except.error Fault.outOfBounds ↔ l.m_data.length ≤ i)
    ∧ (setNextIdx l i v = Except.error Fault.outOfBounds ↔ l.m_data.length ≤ i)
    ∧ (getData l i = Except.error Fault.outOfBounds ↔ l.m_data.length ≤ i)
    ∧ (setData l i d = Except.error Fault.outOfBounds ↔ l.m_data.length ≤ i) := by
  by_cases h : i < l.m_data.length
  · have hn : ¬ l.m_data.length ≤ i := by omega
    refine ⟨?_, ?_, ?_, ?_⟩
    · simp [getNextIdx, List.getElem?_eq_getElem h, hn]
    · simp [setNextIdx, List.getElem?_eq_getElem h, hn]
    · simp only [getData, List.getElem?_eq_getElem h, hn, iff_false]
      cases l.m_data[i].data <;> simp
    · simp [setData, List.getElem?_eq_getElem h, hn]
  · have hn : l.m_data.length ≤ i := by omega
    have hx : l.m_data[i]? = none := List.getElem?_eq_none hn
    simp [getNextIdx, setNextIdx, getData, setData, hx, hn]

/-- C21: in every reachable state the store has `CAPACITY + 2` slots and the link
stored in each of them is a slot index below `CAPACITY + 2` or the terminal
marker.  For the position `pos` reached from `before_begin()` by `k ≤ size()`
increments (`before_begin()` or an iterator to a current element) the slot
index of `pos` is below `CAPACITY + 2`, and `emplace_after(pos, v)`,
`erase_after(pos)` and `operator++` return normally, while `operator*` ends in
`std::terminate()` at `before_begin()` (its guard fails before any access) and
returns normally at an element: none of the four calls ends in
`Fault.outOfBounds`, the outcome a store access has exactly when its index is
not below the length of the store. -/
theorem C21_accesses_stay_in_range (l : forward_list T CAPACITY) (hr : Reachable l) :
    l.m_data.length = CAPACITY + 2
    ∧ (∀ j, j < CAPACITY + 2 →
        ∃ n, getNextIdx l j = Except.ok n ∧ (n < CAPACITY + 2 ∨ n = INVALID_INDEX CAPACITY))
    ∧ ∀ k, k ≤ size l → ∀ v : T, ∃ pos,
        advance l k (before_begin l) = Except.ok pos
        ∧ pos.m_iterListNodeIdx < CAPACITY + 2
        ∧ (∃ r, emplace_after l pos v = Except.ok r)
        ∧ (∃ r, erase_after l pos = Except.ok r)
        ∧ (∃ r, incr l pos = Except.ok r)
        ∧ (k = 0 → deref l pos = Except.error Fault.terminate)
        ∧ (0 < k → ∃ w, deref l pos = Except.ok w)
        ∧ emplace_after l pos v ≠ Except.error Fault.outOfBounds
        ∧ erase_after l pos ≠ Except.error Fault.outOfBounds
        ∧ incr l pos ≠ Except.error Fault.outOfBounds
        ∧ deref l pos ≠ Except.error Fault.outOfBounds := by
  obtain ⟨used, free, ha⟩ := hr.wellFormed
  refine ⟨ha.len, abs_link_in_range ha, ?_⟩
  intro k hk v
  have hk' : k ≤ used.length := by simpa [size, ha.size] using hk
  have hpm := getD_getElem?_mem BEFORE_BEGIN_USED_INDEX (INVALID_INDEX CAPACITY)
    (used.map Prod.fst) k (by simpa using hk')
  have hpb : (posAt l used k).m_iterListNodeIdx < CAPACITY + 2 := by
    rcases List.mem_cons.1 hpm with h0 | hm
    · simp only [posAt]; rw [h0]; simp [BEFORE_BEGIN_USED_INDEX]
    · exact (ha.bounds (List.mem_append_left _ hm)).2
  have hemp : ∃ r, emplace_after l (posAt l used k) v = Except.ok r := by
    cases free with
    | nil => exact ⟨_, emplace_after_full ha (posAt l used k) rfl v⟩
    | cons f fs =>
      obtain ⟨l', e, _, _⟩ := emplace_after_abs ha k hk' (posAt l used k) rfl rfl v
      exact ⟨_, e⟩
  have hera : ∃ r, erase_after l (posAt l used k) = Except.ok r := by
    by_cases hlt : k < used.length
    · obtain ⟨l', e, _, _⟩ := erase_after_abs ha k hlt (posAt l used k) rfl rfl
      exact ⟨_, e⟩
    · exact ⟨_, erase_after_noop ha k (Nat.le_of_not_lt hlt) (posAt l used k) rfl rfl⟩
  have hinc : ∃ r, incr l (posAt l used k) = Except.ok r := ⟨_, incr_posAt ha k⟩
  have hd0 : k = 0 → deref l (posAt l used k) = Except.error Fault.terminate := by
    rintro rfl
    simp [deref, posAt, isValidElementIndex, BEFORE_BEGIN_USED_INDEX]
  have hd1 : 0 < k → ∃ w, deref l (posAt l used k) = Except.ok w := by
    intro hpos
    obtain ⟨j, rfl⟩ : ∃ j, k = j + 1 := ⟨k - 1, by omega⟩
    have hj : j < used.length := by omega
    exact ⟨_, deref_abs ha j hj (posAt l used (j + 1))
      (by simp [posAt, List.getElem?_eq_getElem hj])⟩
  refine ⟨posAt l used k, advance_before_begin ha k, hpb, hemp, hera, hinc, hd0, hd1,
    ?_, ?_, ?_, ?_⟩
  · obtain ⟨r, e⟩ := hemp; rw [e]; intro h; cases h
  · obtain ⟨r, e⟩ := hera; rw [e]; intro h; cases h
  · obtain ⟨r, e⟩ := hinc; rw [e]; intro h; cases h
  · rcases Nat.eq_zero_or_pos k with h0 | h0
    · rw [hd0 h0]; intro h; cases h
    · obtain ⟨w, e⟩ := hd1 h0; rw [e]; intro h; cases h

/-- Witness for C21: the links and the accesses at the positions of
`exampleOne`. -/
theorem C21_accesses_stay_in_range_witness :
    Reachable exampleOne
    ∧ exampleOne.m_data.length = 2 + 2
    ∧ (∀ j, j < 2 + 2 →
        ∃ n, getNextIdx exampleOne j = Except.ok n ∧ (n < 2 + 2 ∨ n = INVALID_INDEX 2))
    ∧ ∀ k, k ≤ size exampleOne → ∀ v : Nat, ∃ pos,
        advance exampleOne k (before_begin exampleOne) = Except.ok pos
        ∧ pos.m_iterListNodeIdx < 2 + 2
        ∧ (∃ r, emplace_after exampleOne pos v = Except.ok r)
        ∧ (∃ r, erase_after exampleOne pos = Except.ok r)
        ∧ (∃ r, incr exampleOne pos = Except.ok r)
        ∧ (k = 0 → deref exampleOne pos = Except.error Fault.terminate)
        ∧ (0 < k → ∃ w, deref exampleOne pos = Except.ok w)
        ∧ emplace_after exampleOne pos v ≠ Except.error Fault.outOfBounds
        ∧ erase_after exampleOne pos ≠ Except.error Fault.outOfBounds
        ∧ incr exampleOne pos ≠ Except.error Fault.outOfBounds
        ∧ deref exampleOne pos ≠ Except.error Fault.outOfBounds :=
  ⟨exampleOne_reachable, C21_accesses_stay_in_range exampleOne exampleOne_reachable⟩
end forward_list
end cxx
end iox
